import Mathlib

/-!
# avgdrop: the progress-report interpreter of `main.go`

A shallow embedding of `readOutput` (`main.go`, lines 46-107) and of the
library calls it makes (`regexp`, `strconv.Atoi`, `strings.Cut`,
`strings.HasPrefix`, `strings.Contains`, `fmt.Sprintf("%.2f")`, `float64`
arithmetic, `bufio.Scanner`), of the rewriting of the argument vector in `main` (lines 162-178)
and of the choice of the attachment (lines 131, 152, 188-193), followed by
theorems about them.

Conventions.
* A Go `string` is a `List Char` (`Str`); a literal is written `"...".toList`.
* `int` and `time.Duration` are 64-bit signed: values are `Int`, and every
  arithmetic result is passed through `wrap64`.
* `float64` values are `F64`: the finite ones are dyadic rationals `m * 2^e`,
  and every operation rounds to 53 bits, ties to even.
* The content of the reader is a `Str`; `Scanner.tokens` gives the lines that
  `s.Scan()` delivers from it, and the loop runs over them. The callback
  `stopFunc` and `fmt.Println` are recorded as events.
-/

namespace Avgdrop

set_option maxRecDepth 100000

/-- A Go string, as the list of its characters. -/
abbrev Str := List Char

/-! ## Machine integers -/

/-- Two's-complement reduction of an integer to the `int64` range. -/
def wrap64 (x : Int) : Int := (x + 2 ^ 63) % 2 ^ 64 - 2 ^ 63

/-- The largest `int64`. -/
def maxInt64 : Int := 2 ^ 63 - 1

/-- The smallest `int64`. -/
def minInt64 : Int := -(2 ^ 63)

/-- The largest `uint64`. -/
def maxUint64 : Nat := 2 ^ 64 - 1

/-! ## `time` constants (nanoseconds) -/

/-- Go `time.Second`. -/
def Second : Int := 1000000000

/-- Go `time.Minute`. -/
def Minute : Int := 60 * Second

/-- Go `time.Hour`. -/
def Hour : Int := 60 * Minute

/-! ## `strings` -/

/-- Go `strings.HasPrefix s p`. -/
def HasPrefix (s p : Str) : Bool := p.isPrefixOf s

/-- Go `strings.Contains s sub`: some suffix of `s` starts with `sub`. -/
def Contains : Str → Str → Bool
  | [], sub => sub.isPrefixOf []
  | c :: cs, sub => sub.isPrefixOf (c :: cs) || Contains cs sub

/-- Go `strings.Cut s " "`, first result only: the text before the first
occurrence of the one-character separator, or all of `s` when there is none. -/
def CutBefore (s : Str) (sep : Char) : Str := s.takeWhile (fun c => c != sep)

/-! ## `strconv.Atoi` -/

/-- Outcome of the digit loop of `strconv.ParseUint(s, 10, 64)`. -/
inductive UintResult
  | ok (n : Nat)
  | syntaxErr
  | rangeErr
  deriving DecidableEq, Repr

/-- The digit loop of `strconv.ParseUint(s, 10, 64)`, left to right with the
accumulator `n`: a byte that is not a decimal digit is a syntax error, and the
first step that leaves the `uint64` range is a range error; whichever comes
first ends the loop. -/
def parseUintLoop : Str → Nat → UintResult
  | [], n => .ok n
  | c :: cs, n =>
    if c.isDigit then
      if n ≥ maxUint64 / 10 + 1 then .rangeErr
      else
        let n1 := n * 10 + (c.toNat - 48)
        if n1 > maxUint64 then .rangeErr else parseUintLoop cs n1
    else .syntaxErr

/-- Go `strconv.ParseUint(s, 10, 64)`: the empty string is a syntax error. -/
def ParseUint (s : Str) : UintResult :=
  match s with
  | [] => .syntaxErr
  | _ => parseUintLoop s 0

/-- The value of `strconv.ParseInt(s, 10, 64)` given the sign and the outcome
for the magnitude: zero on a syntax error, the nearest bound of the `int64`
range on a range error or when the magnitude does not fit. -/
def intOfUint (neg : Bool) : UintResult → Int
  | .syntaxErr => 0
  | .rangeErr => if neg then minInt64 else maxInt64
  | .ok un =>
    if !neg && decide ((2 : Nat) ^ 63 ≤ un) then maxInt64
    else if neg && decide ((2 : Nat) ^ 63 < un) then minInt64
    else if neg then -(un : Int) else (un : Int)

/-- Go `n, _ := strconv.Atoi(s)`: the returned value, the error discarded.
An optional sign, then decimal digits. -/
def Atoi (s : Str) : Int :=
  match s with
  | [] => 0
  | '+' :: rest => intOfUint false (ParseUint rest)
  | '-' :: rest => intOfUint true (ParseUint rest)
  | _ => intOfUint false (ParseUint s)

/-! ## `regexp`: the fragment used by the five patterns -/

/-- One item of a pattern. -/
inductive Atom
  /-- A literal character. -/
  | lit (c : Char)
  /-- An optional literal character, `c?` (greedy). -/
  | opt (c : Char)
  /-- One or more decimal digits, `\d+` (greedy); `capture` marks `(\d+)`. -/
  | digits (capture : Bool)
  deriving DecidableEq, Repr

/-- A pattern: a concatenation of atoms. -/
abbrev Regexp := List Atom

/-- Literal atoms for each character of a word. -/
def lits (w : Str) : Regexp := w.map Atom.lit

/-- Matching `\d+` followed by the rest of the pattern `k`, at the start of
the text: the digit run is taken as long as possible first, and shortened one
digit at a time while the rest of the pattern fails (leftmost-first order).
Returns the digits taken and the pieces matched by the rest. -/
def plusDigits (k : Str → Option (List Str)) : Str → Option (Str × List Str)
  | [] => none
  | c :: cs =>
    if c.isDigit then
      match plusDigits k cs with
      | some (ds, segs) => some (c :: ds, segs)
      | none => (k cs).map (fun segs => ([c], segs))
    else none

/-- Matching a pattern at the start of the text: on success, the piece of
text matched by each atom, in order. -/
def matchAtoms : Regexp → Str → Option (List Str)
  | [], _ => some []
  | .lit c :: as, s =>
    match s with
    | x :: xs => if x = c then (matchAtoms as xs).map (fun segs => [x] :: segs) else none
    | [] => none
  | .opt c :: as, s =>
    match s with
    | x :: xs =>
      if x = c then
        match matchAtoms as xs with
        | some segs => some ([x] :: segs)
        | none => (matchAtoms as s).map (fun segs => [] :: segs)
      else (matchAtoms as s).map (fun segs => [] :: segs)
    | [] => (matchAtoms as s).map (fun segs => [] :: segs)
  | .digits _ :: as, s =>
    (plusDigits (matchAtoms as) s).map (fun p => p.1 :: p.2)

/-- The leftmost match of a pattern in the text: the pieces of the match at
the first position where the pattern matches. -/
def findMatch (re : Regexp) : Str → Option (List Str)
  | [] => matchAtoms re []
  | c :: cs =>
    match matchAtoms re (c :: cs) with
    | some segs => some segs
    | none => findMatch re cs

/-- Go `re.FindString(s)`: the text of the leftmost match, or the empty
string when there is none. -/
def FindString (re : Regexp) (s : Str) : Str :=
  match findMatch re s with
  | some segs => segs.flatten
  | none => []

/-- The pieces matched by the capturing atoms of a pattern. -/
def captures : Regexp → List Str → List Str
  | .digits true :: as, seg :: segs => seg :: captures as segs
  | _ :: as, _ :: segs => captures as segs
  | _, _ => []

/-- Go `re.FindStringSubmatch(s)`: `nil` when there is no match, otherwise the
text of the leftmost match followed by the text of each capture group. -/
def FindStringSubmatch (re : Regexp) (s : Str) : Option (List Str) :=
  match findMatch re s with
  | some segs => some (segs.flatten :: captures re segs)
  | none => none

/-- The pattern `\d+ secs?`. -/
def rSecs : Regexp := .digits false :: lits " sec".toList ++ [.opt 's']

/-- The pattern `\d+ mins?`. -/
def rMins : Regexp := .digits false :: lits " min".toList ++ [.opt 's']

/-- The pattern `\d+ hours?`. -/
def rHours : Regexp := .digits false :: lits " hour".toList ++ [.opt 's']

/-- The pattern `\d+ days?`. -/
def rDays : Regexp := .digits false :: lits " day".toList ++ [.opt 's']

/-- The pattern `, (\d+)/\d+`. -/
def rRec : Regexp := [.lit ',', .lit ' ', .digits true, .lit '/', .digits false]

/-! ## The duration parser -/

/-- The closure `getDuration` of `readOutput`: the digits of the leftmost
match of `r` in `s`, converted and multiplied in `int64`. -/
def getDuration (r : Regexp) (s : Str) (multiplier : Int) : Int :=
  let a := CutBefore (FindString r s) ' '
  let n := Atoi a
  wrap64 (n * multiplier)

/-- The closure `parseTime` of `readOutput`. -/
def parseTime (t : Str) : Int :=
  wrap64 (wrap64 (wrap64 (getDuration rDays t (24 * Hour) +
    getDuration rHours t Hour) +
    getDuration rMins t Minute) +
    getDuration rSecs t Second)

/-! ## `float64` -/

/-- A `float64` value. A finite value is the dyadic rational `m * 2^e` (the
sign of a zero is not recorded: no operation below can see it). -/
inductive F64
  | fin (m : Int) (e : Int)
  | inf (neg : Bool)
  | nan
  deriving DecidableEq, Repr

/-- Auxiliary for `bitLog`: `fuel` bounds the number of halvings. -/
def bitLogAux : Nat → Nat → Nat
  | 0, _ => 0
  | fuel + 1, n => if n < 2 then 0 else bitLogAux fuel (n / 2) + 1

/-- The position of the leading bit of a positive natural number. -/
def bitLog (n : Nat) : Nat := bitLogAux n n

/-- The quotient and remainder of `a * 2^(-k)` by `d`. -/
def scaledDivMod (a d : Nat) (k : Int) : Nat × Nat × Nat :=
  let N := if 0 ≤ k then a else a * 2 ^ (-k).toNat
  let D := if 0 ≤ k then d * 2 ^ k.toNat else d
  (N / D, N % D, D)

/-- Rounding of the rational `n / d` to 53 significant bits, ties to even:
the result is `(m, e)` with value `m * 2^e`. The exponent is not bounded, so
this is the `float64` rounding for magnitudes in the normal range
`2^-1022 ≤ |n / d| < 2^1024`, which covers every value `readOutput` computes. -/
def roundRatio (n : Int) (d : Nat) : Int × Int :=
  if n = 0 ∨ d = 0 then (0, 0)
  else
    let a := n.natAbs
    let k0 : Int := (bitLog a : Int) - (bitLog d : Int) - 52
    let k : Int := if (scaledDivMod a d k0).1 < 2 ^ 52 then k0 - 1 else k0
    let (q, r, D) := scaledDivMod a d k
    let q1 := if D < 2 * r ∨ (2 * r = D ∧ q % 2 = 1) then q + 1 else q
    (n.sign * (q1 : Int), k)

/-- Go `float64(n)` for an integer `n`. -/
def F64.ofInt (n : Int) : F64 :=
  let (m, e) := roundRatio n 1
  .fin m e

/-- Go `x * y` on `float64`. -/
def F64.mul : F64 → F64 → F64
  | .fin m1 e1, .fin m2 e2 =>
    let (m, e) := roundRatio (m1 * m2) 1
    .fin m (e + e1 + e2)
  | .nan, _ => .nan
  | _, .nan => .nan
  | .inf n1, .inf n2 => .inf (n1 != n2)
  | .inf n1, .fin m _ => if m = 0 then .nan else .inf (n1 != decide (m < 0))
  | .fin m _, .inf n2 => if m = 0 then .nan else .inf (decide (m < 0) != n2)

/-- Go `x / y` on `float64`. -/
def F64.div : F64 → F64 → F64
  | .fin m1 e1, .fin m2 e2 =>
    if m2 = 0 then (if m1 = 0 then .nan else .inf (decide (m1 < 0)))
    else
      let (m, e) := roundRatio (m1 * m2.sign) m2.natAbs
      .fin m (e + e1 - e2)
  | .nan, _ => .nan
  | _, .nan => .nan
  | .inf _, .inf _ => .nan
  | .inf n1, .fin m _ => .inf (n1 != decide (m < 0))
  | .fin _ _, .inf _ => .fin 0 0

/-- Go `x < y` on `float64`: false as soon as one side is NaN. -/
def F64.lt : F64 → F64 → Bool
  | .fin m1 e1, .fin m2 e2 =>
    decide (m1 * 2 ^ (e1 - min e1 e2).toNat < m2 * 2 ^ (e2 - min e1 e2).toNat)
  | .nan, _ => false
  | _, .nan => false
  | .inf n1, .inf n2 => n1 && !n2
  | .inf n1, .fin _ _ => n1
  | .fin _ _, .inf n2 => !n2

/-- Go `x >= y` on `float64`: false as soon as one side is NaN. -/
def F64.ge : F64 → F64 → Bool
  | .fin m1 e1, .fin m2 e2 =>
    decide (m2 * 2 ^ (e2 - min e1 e2).toNat ≤ m1 * 2 ^ (e1 - min e1 e2).toNat)
  | .nan, _ => false
  | _, .nan => false
  | .inf n1, .inf n2 => !n1 || n2
  | .inf n1, .fin _ _ => !n1
  | .fin _ _, .inf n2 => n2

/-- The zero value of a `float64` variable. -/
def F64.zero : F64 := .fin 0 0

/-! ## `fmt.Sprintf("%.2f", x)` -/

/-- The number of hundredths nearest to `|m| * 2^e`, ties to even. -/
def hundredths (m e : Int) : Nat :=
  let (q, r, D) := scaledDivMod (m.natAbs * 100) 1 (-e)
  if D < 2 * r ∨ (2 * r = D ∧ q % 2 = 1) then q + 1 else q

/-- Go `fmt.Sprintf("%.2f", x)`: sign, integer part, a point and two decimals
of the exact value of `x`, rounded to the nearest hundredth, ties to even. -/
def fmt2f : F64 → Str
  | .fin m e =>
    let h := hundredths m e
    (if m < 0 then ['-'] else []) ++ Nat.toDigits 10 (h / 100) ++
      ['.', Nat.digitChar (h % 100 / 10), Nat.digitChar (h % 10)]
  | .inf neg => if neg then "-Inf".toList else "+Inf".toList
  | .nan => "NaN".toList

/-! ## `bufio.Scanner` with `bufio.ScanLines` -/

/-- Go `bufio.MaxScanTokenSize`: the size up to which the buffer of a `Scanner`
made by `bufio.NewScanner` grows. -/
def MaxScanTokenSize : Nat := 64 * 1024

/-- Go `len(s)`: the number of bytes of a string (UTF-8). -/
def byteLen (s : Str) : Nat := (s.map Char.utf8Size).sum

/-- Go `dropCR` of `bufio`: the data without a `\r` at its end. -/
def dropCR (data : Str) : Str :=
  if data.getLast? = some '\r' then data.dropLast else data

/-- The lines of the content of a reader as `bufio.ScanLines` cuts them: a line
ends at its `\n`, which is not part of it, and what follows the last `\n` is
one more line unless it is empty. -/
def splitLines : Str → List Str
  | [] => []
  | c :: cs =>
    if c = '\n' then [] :: splitLines cs
    else
      match splitLines cs with
      | [] => [[c]]
      | l :: ls => (c :: l) :: ls

/-- The tokens for which `s.Scan()` returns true, in order, for the `Scanner`
made by `bufio.NewScanner(r)` on a reader with the content `r`: the lines,
each passed through `dropCR`, as long as a line and its `\n` fit in the
buffer. At the first line of `MaxScanTokenSize` bytes or more `Scan` returns
false (`ErrTooLong`), as it does at the end of the content. -/
def Scanner.tokens (r : Str) : List Str :=
  ((splitLines r).takeWhile (fun l => decide (byteLen l < MaxScanTokenSize))).map dropCR

/-! ## The interpreter loop of `readOutput` -/

/-- The local variables of `readOutput` that live across iterations. -/
structure State where
  timeStarted : Int
  timeEstimated : Int
  recoveredBefore : Int
  justFinished : Bool
  deriving DecidableEq, Repr

/-- The variables as declared before the loop (all zero values). -/
def State.init : State := ⟨0, 0, 0, false⟩

/-- What one iteration does to the outside world, in order. -/
inductive Event
  /-- A call of `stopFunc()`. -/
  | stop
  /-- A call of `fmt.Println(line)`. -/
  | echo (line : Str)
  deriving DecidableEq, Repr

/-- The rate computed at line 87:
`float64(recovered-recoveredBefore) * float64(time.Minute) / float64(timeStarted)`. -/
def avgRate (recovered recoveredBefore timeStarted : Int) : F64 :=
  F64.div (F64.mul (F64.ofInt (wrap64 (recovered - recoveredBefore))) (F64.ofInt Minute))
    (F64.ofInt timeStarted)

/-- Lines 85-89: the value of `avg` and the line `t` after the optional
annotation. `avg` keeps its zero value when `timeStarted` is not positive. -/
def rateAndLine (st : State) (t : Str) (recovered : Int) : F64 × Str :=
  if 0 < st.timeStarted then
    let avg := avgRate recovered st.recoveredBefore st.timeStarted
    (avg, t ++ " avg/min:".toList ++ fmt2f avg)
  else
    (F64.zero, t)

/-- The `Recovered.` case of the switch, after the match `m` has been found
(lines 84-103): the new state and the events, the echo of line 105 included. -/
def recoveredCase (minAvg : F64) (delay : Int) (watchEstimated : Bool) (st : State)
    (t : Str) (m : List Str) : State × List Event :=
  let recovered := Atoi (m.getD 1 [])
  let p := rateAndLine st t recovered
  if st.justFinished = true then
    ({ st with recoveredBefore := recovered }, [.echo p.2])
  else if st.timeStarted ≤ delay then
    (st, [.echo p.2])
  else if st.timeEstimated ≤ delay ∧ watchEstimated = true then
    (st, [.echo p.2])
  else if F64.lt p.1 minAvg = true then
    ({ st with timeStarted := 0, timeEstimated := 0 }, [.stop, .echo p.2])
  else
    (st, [.echo p.2])

/-- One iteration of the loop `for s.Scan()` on the line `t` (lines 71-105).
`none` is the `panic` of line 82, which ends the program before anything
of this iteration is printed. -/
def scanLine (minAvg : F64) (delay : Int) (watchEstimated : Bool) (st : State)
    (t : Str) : Option (State × List Event) :=
  if HasPrefix t "Status".toList then
    let fin := Contains t ": Exhausted".toList || Contains t ": Bypass".toList
    some ({ st with justFinished := fin }, [.echo t])
  else if HasPrefix t "Time.Started".toList then
    some ({ st with timeStarted := parseTime t }, [.echo t])
  else if HasPrefix t "Time.Estimated".toList then
    some ({ st with timeEstimated := parseTime t }, [.echo t])
  else if HasPrefix t "Recovered.".toList then
    match FindStringSubmatch rRec t with
    | none => none
    | some m => some (recoveredCase minAvg delay watchEstimated st t m)
  else
    some (st, [.echo t])

/-- The result of running the loop over the tokens of the scanner. -/
structure Run where
  /-- The variables when the loop ended. -/
  state : State
  /-- Everything done to the outside world, in order. -/
  events : List Event
  /-- Whether the loop ended in the `panic` of line 82. -/
  panicked : Bool
  deriving DecidableEq, Repr

/-- The loop `for s.Scan() { t := s.Text(); ... }` of `readOutput` (lines 70-106)
from a given state of the variables, over the tokens the scanner delivers. -/
def readOutputFrom (minAvg : F64) (delay : Int) (watchEstimated : Bool) :
    State → List Str → Run
  | st, [] => ⟨st, [], false⟩
  | st, t :: ts =>
    match scanLine minAvg delay watchEstimated st t with
    | none => ⟨st, [], true⟩
    | some (st1, evs) =>
      let r := readOutputFrom minAvg delay watchEstimated st1 ts
      ⟨r.state, evs ++ r.events, r.panicked⟩

/-- Go `readOutput(r, watchEstimated, stopFunc)` on a reader with the content
`r`, with the flags `minAvg` and `delay`: the loop over the tokens of
`bufio.NewScanner(r)`, from the zero values of the variables. The loop ends
when `s.Scan()` returns false; `s.Err()` is not looked at. -/
def readOutput (minAvg : F64) (delay : Int) (r : Str) (watchEstimated : Bool) : Run :=
  readOutputFrom minAvg delay watchEstimated State.init (Scanner.tokens r)

/-- The lines printed, in order. -/
def echoed : List Event → List Str
  | [] => []
  | .echo l :: evs => l :: echoed evs
  | .stop :: evs => echoed evs

/-- The number of calls of `stopFunc`. -/
def stops : List Event → Nat
  | [] => 0
  | .stop :: evs => stops evs + 1
  | .echo _ :: evs => stops evs

/-! ## Predicates of the specification -/

/-- The content of a reader on which the given lines were written, each
followed by `\n`. -/
def unlines : List Str → Str
  | [] => []
  | l :: ls => l ++ '\n' :: unlines ls

/-- The text has a substring `, <digits>/<digits>`. -/
def HasCountPattern (t : Str) : Prop :=
  ∃ a ds1 ds2 b, t = a ++ ',' :: ' ' :: ds1 ++ '/' :: ds2 ++ b ∧
    ds1 ≠ [] ∧ (∀ c ∈ ds1, c.isDigit = true) ∧ ds2 ≠ [] ∧ ∀ c ∈ ds2, c.isDigit = true

/-- A line that breaks the output protocol: a `Recovered.` line without the
count pattern. -/
def Violates (t : Str) : Prop :=
  HasPrefix t "Recovered.".toList = true ∧ ¬ HasCountPattern t

/-- The four units of the duration parser. -/
inductive TimeUnit
  | day
  | hour
  | min
  | sec
  deriving DecidableEq, Repr

/-- The singular spelling of a unit. -/
def TimeUnit.word : TimeUnit → Str
  | .day => "day".toList
  | .hour => "hour".toList
  | .min => "min".toList
  | .sec => "sec".toList

/-- The capitalised spelling of a unit, which no pattern matches. -/
def TimeUnit.capital : TimeUnit → Str
  | .day => "Day".toList
  | .hour => "Hour".toList
  | .min => "Min".toList
  | .sec => "Sec".toList

/-- The pattern `parseTime` uses for a unit. -/
def TimeUnit.re : TimeUnit → Regexp
  | .day => rDays
  | .hour => rHours
  | .min => rMins
  | .sec => rSecs

/-- The multiplier `parseTime` uses for a unit. -/
def TimeUnit.mult : TimeUnit → Int
  | .day => 24 * Hour
  | .hour => Hour
  | .min => Minute
  | .sec => Second

/-- The number written by a string of decimal digits. -/
def decimalValue (ds : Str) : Nat := ds.foldl (fun n c => n * 10 + (c.toNat - 48)) 0

/-- A component `<digits> <unit>` of a timing text, singular or plural. -/
structure Component where
  unit : TimeUnit
  digits : Str
  plural : Bool
  deriving DecidableEq, Repr

/-- The text of a component. -/
def Component.text (c : Component) : Str :=
  c.digits ++ ' ' :: c.unit.word ++ (if c.plural then ['s'] else [])

/-- The digits of a component are one or more decimal digits. -/
def Component.WellFormed (c : Component) : Prop :=
  c.digits ≠ [] ∧ ∀ ch ∈ c.digits, ch.isDigit = true

instance Component.decidableWellFormed (c : Component) : Decidable c.WellFormed :=
  inferInstanceAs (Decidable (c.digits ≠ [] ∧ ∀ ch ∈ c.digits, ch.isDigit = true))

/-- The duration a component stands for, in nanoseconds. -/
def Component.value (c : Component) : Int := (decimalValue c.digits : Int) * c.unit.mult

/-- A timing text: each component preceded by a separator, and a last
separator at the end. -/
def assemble : List (Str × Component) → Str → Str
  | [], last => last
  | (sep, c) :: rest, last => sep ++ c.text ++ assemble rest last

/-- The text contains no `<digits> <unit>` pattern of any unit. -/
def NoPattern (s : Str) : Prop :=
  findMatch rDays s = none ∧ findMatch rHours s = none ∧
    findMatch rMins s = none ∧ findMatch rSecs s = none

instance NoPattern.decidable (s : Str) : Decidable (NoPattern s) :=
  inferInstanceAs (Decidable (findMatch rDays s = none ∧ findMatch rHours s = none ∧
    findMatch rMins s = none ∧ findMatch rSecs s = none))

/-- The text does not end in a decimal digit. -/
def NoDigitAtEnd (s : Str) : Prop := ∀ c, s.getLast? = some c → c.isDigit = false

instance NoDigitAtEnd.decidable (s : Str) : Decidable (NoDigitAtEnd s) :=
  match h : s.getLast? with
  | none => isTrue (fun c hc => by rw [h] at hc; cases hc)
  | some d =>
    if hd : d.isDigit = false then
      isTrue (fun c hc => by rw [h] at hc; cases hc; exact hd)
    else
      isFalse (fun hall => hd (hall d h))

/-- The digits of the first component of a unit in a list of blocks, or the
empty string when the unit does not occur. -/
def firstDigits (u : TimeUnit) : List (Str × Component) → Str
  | [] => []
  | (_, c) :: rest => if c.unit = u then c.digits else firstDigits u rest

/-- Two states agree in every variable except, possibly, `timeEstimated`. -/
def EqExceptEstimated (a b : State) : Prop :=
  a.timeStarted = b.timeStarted ∧ a.recoveredBefore = b.recoveredBefore ∧
    a.justFinished = b.justFinished

instance EqExceptEstimated.decidable (a b : State) : Decidable (EqExceptEstimated a b) :=
  inferInstanceAs (Decidable (a.timeStarted = b.timeStarted ∧
    a.recoveredBefore = b.recoveredBefore ∧ a.justFinished = b.justFinished))

/-- Two lines are the same, or are both `Time.Estimated` lines. -/
def SameButEstimated (t u : Str) : Prop :=
  t = u ∨ (HasPrefix t "Time.Estimated".toList = true ∧
    HasPrefix u "Time.Estimated".toList = true)

instance SameButEstimated.decidable (t u : Str) : Decidable (SameButEstimated t u) :=
  inferInstanceAs (Decidable (t = u ∨ (HasPrefix t "Time.Estimated".toList = true ∧
    HasPrefix u "Time.Estimated".toList = true)))

/-- Two events are the same, or are the echoes of two `Time.Estimated` lines. -/
def SameEventButEstimated (e f : Event) : Prop :=
  e = f ∨ ∃ t u, e = .echo t ∧ f = .echo u ∧
    HasPrefix t "Time.Estimated".toList = true ∧ HasPrefix u "Time.Estimated".toList = true

/-- The recovered count `readOutput` reads from a line (`recovered` of line 84):
defined for the `Recovered.` lines that have the count pattern. -/
def recoveredCount (t : Str) : Option Int :=
  if HasPrefix t "Recovered.".toList then
    (FindStringSubmatch rRec t).map (fun m => Atoi (m.getD 1 []))
  else none

/-- The states of the variables after each completed iteration of a run. -/
def statesFrom (minAvg : F64) (delay : Int) (watchEstimated : Bool) :
    State → List Str → List State
  | _, [] => []
  | st, t :: ts =>
    match scanLine minAvg delay watchEstimated st t with
    | none => []
    | some (st1, _) => st1 :: statesFrom minAvg delay watchEstimated st1 ts

/-- The text contains the pattern `<digits> <unit>` of a unit. -/
def HasUnitPattern (u : TimeUnit) (t : Str) : Prop :=
  ∃ a ds b, t = a ++ ds ++ ' ' :: u.word ++ b ∧ ds ≠ [] ∧ ∀ c ∈ ds, c.isDigit = true

/-- The number `getDuration` reads for a unit (`n` of line 55). -/
def unitCount (u : TimeUnit) (t : Str) : Int := Atoi (CutBefore (FindString u.re t) ' ')

/-! ## The argument vector of the worker (`main`, lines 162-178) -/

/-- Go `slices.Index(s, v)`: the index of the first element equal to `v`, or
`-1` when there is none. -/
def slices.Index : List Str → Str → Int
  | [], _ => -1
  | x :: xs, v =>
    if x = v then 0
    else if slices.Index xs v = -1 then -1 else slices.Index xs v + 1

/-- Go `slices.ContainsFunc(s, f)`. -/
def slices.ContainsFunc (s : List Str) (f : Str → Bool) : Bool := s.any f

/-- Go `slices.Contains(s, v)`. -/
def slices.Contains (s : List Str) (v : Str) : Bool := decide (v ∈ s)

/-- Go `slices.Insert(s, i, v)`: `none` is the panic for `i` out of range. -/
def slices.Insert (s : List Str) (i : Nat) (v : Str) : Option (List Str) :=
  if i ≤ s.length then some (s.take i ++ v :: s.drop i) else none

/-- Go `s[i:]`: `none` is the panic for `i` out of range. -/
def sliceFrom (s : List Str) (i : Nat) : Option (List Str) :=
  if i ≤ s.length then some (s.drop i) else none

/-- Lines 162-169 of `main`: the value of `hcArgs` for the command line
`os.Args`. -/
def workerArgs (osArgs : List Str) : Option (List Str) :=
  if slices.Index osArgs "--".toList = -1 then sliceFrom osArgs 1
  else sliceFrom osArgs (slices.Index osArgs "--".toList + 1).toNat

/-- Lines 172-178 of `main`: the vector `exec.Command` is given, from the value
of `hcArgs` at line 170. `none` is a panic: of `slices.Insert`, or of the
indexing `hcArgs[0]`. -/
def rewriteArgs (hcArgs : List Str) : Option (List Str) :=
  let step1 :=
    if !slices.ContainsFunc hcArgs (fun s => HasPrefix s "--status-timer".toList) then
      slices.Insert hcArgs 1 "--status-timer=15".toList
    else some hcArgs
  match step1 with
  | none => none
  | some a1 =>
    let step2 :=
      if !slices.Contains a1 "--status".toList then slices.Insert a1 1 "--status".toList
      else some a1
    match step2 with
    | none => none
    | some [] => none
    | some (name :: args) => some (name :: args)

/-! ## The attachments (`runWithPty`, `runWithStdin`, `main` lines 188-193) -/

/-- A signal sent to the child. -/
inductive Signal
  /-- Go `os.Interrupt`. -/
  | interrupt
  deriving DecidableEq, Repr

/-- What the goroutine running `readOutput` does to the outside world. -/
inductive Action
  /-- A call `f.Write(bytes)` on the pseudo-terminal. -/
  | ptyWrite (bytes : List Char)
  /-- A call `c.Process.Signal(sig)`. -/
  | signal (sig : Signal)
  /-- A call `fmt.Println(line)`. -/
  | println (line : Str)
  deriving DecidableEq, Repr

/-- The events of `readOutput` carried out with a given `stopFunc`. -/
def perform (stopFunc : Action) : List Event → List Action
  | [] => []
  | .stop :: evs => stopFunc :: perform stopFunc evs
  | .echo l :: evs => .println l :: perform stopFunc evs

/-- Line 131 of `runWithPty`:
`readOutput(pr, true, func() { f.Write([]byte{'b'}) })` on what the child
prints. -/
def runWithPty (minAvg : F64) (delay : Int) (childOutput : Str) : List Action :=
  perform (.ptyWrite ['b']) (readOutput minAvg delay childOutput true).events

/-- Line 152 of `runWithStdin`:
`readOutput(pr, false, func() { c.Process.Signal(os.Interrupt) })` on what
the child prints. -/
def runWithStdin (minAvg : F64) (delay : Int) (childOutput : Str) : List Action :=
  perform (.signal .interrupt) (readOutput minAvg delay childOutput false).events

/-- Lines 188-193 of `main`: the attachment is chosen by `isatty()`. -/
def mainAttach (isatty : Bool) (minAvg : F64) (delay : Int) (childOutput : Str) :
    List Action :=
  if isatty then runWithPty minAvg delay childOutput
  else runWithStdin minAvg delay childOutput

/-- The actions that are not echoes: the calls of `stopFunc`. -/
def injected : List Action → List Action
  | [] => []
  | .println _ :: as => injected as
  | a :: as => a :: injected as

/-! # Theorems -/

/-! ## Lemmas on the loop body -/

theorem recovered_head (t : Str) (h : HasPrefix t "Recovered.".toList = true) :
    ∃ cs, t = 'R' :: cs := by
  cases t with
  | nil => simp [HasPrefix, List.isPrefixOf] at h
  | cons c cs =>
    have : "Recovered.".toList = 'R' :: "ecovered.".toList := rfl
    rw [this] at h
    simp [HasPrefix, List.isPrefixOf] at h
    exact ⟨cs, by rw [h.1]⟩

/-- On a line with the prefix `Recovered.` the switch takes the fourth case. -/
theorem scanLine_recovered (minAvg : F64) (delay : Int) (we : Bool) (st : State) (t : Str)
    (h : HasPrefix t "Recovered.".toList = true) :
    scanLine minAvg delay we st t =
      (FindStringSubmatch rRec t).map (recoveredCase minAvg delay we st t) := by
  obtain ⟨cs, rfl⟩ := recovered_head t h
  have h1 : HasPrefix ('R' :: cs) "Status".toList = false := by
    have : "Status".toList = 'S' :: "tatus".toList := rfl
    rw [this]; simp [HasPrefix, List.isPrefixOf]
  have h2 : HasPrefix ('R' :: cs) "Time.Started".toList = false := by
    have : "Time.Started".toList = 'T' :: "ime.Started".toList := rfl
    rw [this]; simp [HasPrefix, List.isPrefixOf]
  have h3 : HasPrefix ('R' :: cs) "Time.Estimated".toList = false := by
    have : "Time.Estimated".toList = 'T' :: "ime.Estimated".toList := rfl
    rw [this]; simp [HasPrefix, List.isPrefixOf]
  unfold scanLine
  rw [h1, h2, h3, h]
  cases FindStringSubmatch rRec ('R' :: cs) <;> simp

/-- `x >= y` excludes `x < y`. -/
theorem F64.not_lt_of_ge (x y : F64) (h : F64.ge x y = true) : F64.lt x y = false := by
  cases x <;> cases y <;> simp_all [F64.ge, F64.lt]
  all_goals first | omega | (intro h1; simp_all)

/-- The rate of line 87 is what `avg` holds when `timeStarted` is positive. -/
theorem rateAndLine_pos (st : State) (t : Str) (recovered : Int) (h : 0 < st.timeStarted) :
    rateAndLine st t recovered =
      (avgRate recovered st.recoveredBefore st.timeStarted,
        t ++ " avg/min:".toList ++
          fmt2f (avgRate recovered st.recoveredBefore st.timeStarted)) := by
  simp only [rateAndLine, if_pos h]

/-- No rate is computed and the line is kept when `timeStarted` is not positive. -/
theorem rateAndLine_nonpos (st : State) (t : Str) (recovered : Int)
    (h : st.timeStarted ≤ 0) : rateAndLine st t recovered = (F64.zero, t) := by
  simp only [rateAndLine, if_neg (not_lt.mpr h)]

/-- The branch of line 90. -/
theorem recoveredCase_justFinished (minAvg : F64) (delay : Int) (we : Bool) (st : State)
    (t : Str) (m : List Str) (h : st.justFinished = true) :
    recoveredCase minAvg delay we st t m =
      ({ st with recoveredBefore := Atoi (m.getD 1 []) },
        [.echo (rateAndLine st t (Atoi (m.getD 1 []))).2]) := by
  simp only [recoveredCase, if_pos h]

/-- The branch of line 94. -/
theorem recoveredCase_early (minAvg : F64) (delay : Int) (we : Bool) (st : State)
    (t : Str) (m : List Str) (hjf : st.justFinished = false) (h : st.timeStarted ≤ delay) :
    recoveredCase minAvg delay we st t m =
      (st, [.echo (rateAndLine st t (Atoi (m.getD 1 []))).2]) := by
  have h1 : ¬ st.justFinished = true := by simp [hjf]
  simp only [recoveredCase, if_neg h1, if_pos h]

/-- The branch of line 97. -/
theorem recoveredCase_escape (minAvg : F64) (delay : Int) (we : Bool) (st : State)
    (t : Str) (m : List Str) (hjf : st.justFinished = false) (h : ¬ st.timeStarted ≤ delay)
    (he : st.timeEstimated ≤ delay ∧ we = true) :
    recoveredCase minAvg delay we st t m =
      (st, [.echo (rateAndLine st t (Atoi (m.getD 1 []))).2]) := by
  have h1 : ¬ st.justFinished = true := by simp [hjf]
  simp only [recoveredCase, if_neg h1, if_neg h, if_pos he]

/-- The branch of line 100, taken. -/
theorem recoveredCase_stop (minAvg : F64) (delay : Int) (we : Bool) (st : State)
    (t : Str) (m : List Str) (hjf : st.justFinished = false) (h : ¬ st.timeStarted ≤ delay)
    (he : ¬ (st.timeEstimated ≤ delay ∧ we = true))
    (hlt : F64.lt (rateAndLine st t (Atoi (m.getD 1 []))).1 minAvg = true) :
    recoveredCase minAvg delay we st t m =
      ({ st with timeStarted := 0, timeEstimated := 0 },
        [.stop, .echo (rateAndLine st t (Atoi (m.getD 1 []))).2]) := by
  have h1 : ¬ st.justFinished = true := by simp [hjf]
  simp only [recoveredCase, if_neg h1, if_neg h, if_neg he, if_pos hlt]

/-- The branch of line 100, not taken. -/
theorem recoveredCase_keep (minAvg : F64) (delay : Int) (we : Bool) (st : State)
    (t : Str) (m : List Str) (hjf : st.justFinished = false) (h : ¬ st.timeStarted ≤ delay)
    (he : ¬ (st.timeEstimated ≤ delay ∧ we = true))
    (hlt : F64.lt (rateAndLine st t (Atoi (m.getD 1 []))).1 minAvg = false) :
    recoveredCase minAvg delay we st t m =
      (st, [.echo (rateAndLine st t (Atoi (m.getD 1 []))).2]) := by
  have h1 : ¬ st.justFinished = true := by simp [hjf]
  have h4 : ¬ F64.lt (rateAndLine st t (Atoi (m.getD 1 []))).1 minAvg = true := by
    rw [hlt]; exact Bool.false_ne_true
  simp only [recoveredCase, if_neg h1, if_neg h, if_neg he, if_neg h4]

/-! ## Lemmas on the matcher -/

/-- The greedy digit run: when the rest of the pattern matches after the whole
run, or cannot start with a digit at all, `\d+` takes exactly the whole run. -/
theorem plusDigits_eq (k : Str → Option (List Str)) (x : Str)
    (hk : k (x.dropWhile Char.isDigit) ≠ none ∨
      ∀ c y, c.isDigit = true → k (c :: y) = none) :
    plusDigits k x =
      if x.takeWhile Char.isDigit = [] then none
      else (k (x.dropWhile Char.isDigit)).map (fun segs => (x.takeWhile Char.isDigit, segs)) := by
  induction x with
  | nil => simp [plusDigits]
  | cons c cs ih =>
    by_cases hc : c.isDigit = true
    · have hk1 : k (cs.dropWhile Char.isDigit) ≠ none ∨
          ∀ c y, c.isDigit = true → k (c :: y) = none := by
        simpa [List.dropWhile_cons, hc] using hk
      rw [plusDigits, if_pos hc, ih hk1]
      simp only [List.takeWhile_cons, List.dropWhile_cons, hc, if_true]
      cases cs with
      | nil => simp
      | cons d ds =>
        by_cases hd : d.isDigit = true
        · simp only [List.takeWhile_cons, List.dropWhile_cons, hd, if_true]
          simp only [List.dropWhile_cons, hd, if_true] at hk1
          cases hkd : k (ds.dropWhile Char.isDigit) with
          | some segs => simp
          | none =>
            rcases hk1 with h | h
            · exact absurd hkd h
            · simp [h d ds hd]
        · simp [List.takeWhile_cons, List.dropWhile_cons, hd]
    · simp [plusDigits, List.takeWhile_cons, hc]

/-- A literal atom matches exactly its character. -/
theorem matchAtoms_lit (c : Char) (as : Regexp) (s : Str) (segs : List Str) :
    matchAtoms (.lit c :: as) s = some segs ↔
      ∃ xs segs1, s = c :: xs ∧ matchAtoms as xs = some segs1 ∧ segs = [c] :: segs1 := by
  cases s with
  | nil => simp [matchAtoms]
  | cons x xs =>
    by_cases hx : x = c
    · subst hx
      cases h : matchAtoms as xs <;> simp [matchAtoms, h, eq_comm]
    · simp [matchAtoms, hx]

/-- A literal atom cannot start a match at a digit when it is not one. -/
theorem matchAtoms_lit_blocked (c : Char) (as : Regexp) (hc : c.isDigit = false) :
    ∀ d y, d.isDigit = true → matchAtoms (.lit c :: as) (d :: y) = none := by
  intro d y hd
  have : d ≠ c := by rintro rfl; rw [hc] at hd; cases hd
  simp [matchAtoms, this]

/-- The digit atom in front of a literal that is not a digit takes the whole
digit run. -/
theorem matchAtoms_digits_lit (b : Bool) (c : Char) (as : Regexp) (hc : c.isDigit = false)
    (s : Str) (segs : List Str) :
    matchAtoms (.digits b :: .lit c :: as) s = some segs ↔
      s.takeWhile Char.isDigit ≠ [] ∧
      ∃ segs1, matchAtoms (.lit c :: as) (s.dropWhile Char.isDigit) = some segs1 ∧
        segs = s.takeWhile Char.isDigit :: segs1 := by
  rw [matchAtoms, plusDigits_eq _ _ (Or.inr (matchAtoms_lit_blocked c as hc))]
  by_cases h : s.takeWhile Char.isDigit = []
  · simp [h]
  · cases hk : matchAtoms (.lit c :: as) (s.dropWhile Char.isDigit) <;> simp [h, hk, eq_comm]

/-- The digit atom at the end of a pattern takes the whole digit run. -/
theorem matchAtoms_digits_last (b : Bool) (s : Str) :
    matchAtoms [.digits b] s =
      if s.takeWhile Char.isDigit = [] then none else some [s.takeWhile Char.isDigit] := by
  rw [matchAtoms, plusDigits_eq _ _ (Or.inl (by simp [matchAtoms]))]
  by_cases h : s.takeWhile Char.isDigit = [] <;> simp [h, matchAtoms]

/-- The leftmost match exists exactly when the pattern matches at some position. -/
theorem findMatch_ne_none_iff (re : Regexp) (t : Str) :
    findMatch re t ≠ none ↔ ∃ a x, t = a ++ x ∧ matchAtoms re x ≠ none := by
  induction t with
  | nil =>
    simp only [findMatch]
    constructor
    · intro h; exact ⟨[], [], rfl, h⟩
    · rintro ⟨a, x, h, hx⟩
      have := List.append_eq_nil.mp h.symm
      rw [this.2] at hx; exact hx
  | cons c cs ih =>
    rw [findMatch]
    cases hm : matchAtoms re (c :: cs) with
    | some segs =>
      simp only [ne_eq, not_false_eq_true, true_iff, reduceCtorEq]
      exact ⟨[], c :: cs, rfl, by rw [hm]; simp⟩
    | none =>
      simp only []
      rw [ih]
      constructor
      · rintro ⟨a, x, h, hx⟩
        exact ⟨c :: a, x, by rw [h]; rfl, hx⟩
      · rintro ⟨a, x, h, hx⟩
        cases a with
        | nil =>
          simp only [List.nil_append] at h
          rw [← h, hm] at hx; exact absurd rfl hx
        | cons d a =>
          simp only [List.cons_append, List.cons.injEq] at h
          exact ⟨a, x, h.2, hx⟩

/-- The pattern `, (\d+)/\d+` matches at the start of `x` exactly when `x`
starts with a comma, a blank, digits, a slash and digits; the capture is the
first digit run. -/
theorem matchAtoms_rRec (x : Str) (segs : List Str) :
    matchAtoms rRec x = some segs ↔
      ∃ y z, x = ',' :: ' ' :: y ∧ y.takeWhile Char.isDigit ≠ [] ∧
        y.dropWhile Char.isDigit = '/' :: z ∧ z.takeWhile Char.isDigit ≠ [] ∧
        segs = [[','], [' '], y.takeWhile Char.isDigit, ['/'], z.takeWhile Char.isDigit] := by
  unfold rRec
  rw [matchAtoms_lit]
  constructor
  · rintro ⟨xs, segs1, rfl, h1, rfl⟩
    rw [matchAtoms_lit] at h1
    obtain ⟨y, segs2, rfl, h2, rfl⟩ := h1
    rw [matchAtoms_digits_lit _ _ _ (by decide)] at h2
    obtain ⟨hy, segs3, h3, rfl⟩ := h2
    rw [matchAtoms_lit] at h3
    obtain ⟨z, segs4, hz, h4, rfl⟩ := h3
    rw [matchAtoms_digits_last] at h4
    by_cases hz1 : z.takeWhile Char.isDigit = []
    · simp [hz1] at h4
    · simp only [hz1, if_false, Option.some.injEq] at h4
      exact ⟨y, z, rfl, hy, hz, hz1, by rw [← h4]⟩
  · rintro ⟨y, z, rfl, hy, hz, hz1, rfl⟩
    refine ⟨_, _, rfl, ?_, rfl⟩
    rw [matchAtoms_lit]
    refine ⟨_, _, rfl, ?_, rfl⟩
    rw [matchAtoms_digits_lit _ _ _ (by decide)]
    refine ⟨hy, _, ?_, rfl⟩
    rw [matchAtoms_lit]
    refine ⟨z, _, hz, ?_, rfl⟩
    rw [matchAtoms_digits_last, if_neg hz1]

/-- The text has the count pattern exactly when `, (\d+)/\d+` is found in it. -/
theorem hasCountPattern_iff (t : Str) : HasCountPattern t ↔ findMatch rRec t ≠ none := by
  rw [findMatch_ne_none_iff]
  constructor
  · rintro ⟨a, ds1, ds2, b, rfl, h1, hd1, h2, hd2⟩
    refine ⟨a, ',' :: ' ' :: ds1 ++ '/' :: ds2 ++ b, by simp, ?_⟩
    have hm := (matchAtoms_rRec (',' :: ' ' :: ds1 ++ '/' :: ds2 ++ b)
      [[','], [' '], ds1, ['/'], ds2 ++ b.takeWhile Char.isDigit]).mpr
    have e1 : (ds1 ++ '/' :: (ds2 ++ b)).takeWhile Char.isDigit = ds1 := by
      rw [List.takeWhile_append_of_pos hd1]; simp [List.takeWhile_cons]
    have e2 : (ds1 ++ '/' :: (ds2 ++ b)).dropWhile Char.isDigit = '/' :: (ds2 ++ b) := by
      rw [List.dropWhile_append_of_pos hd1]; simp [List.dropWhile_cons]
    have e3 : (ds2 ++ b).takeWhile Char.isDigit = ds2 ++ b.takeWhile Char.isDigit :=
      List.takeWhile_append_of_pos hd2
    rw [hm ⟨ds1 ++ '/' :: (ds2 ++ b), ds2 ++ b, by simp, by rw [e1]; exact h1, e2,
      by rw [e3]; simp [h2], by rw [e1, e3]⟩]
    simp
  · rintro ⟨a, x, rfl, hx⟩
    cases hm : matchAtoms rRec x with
    | none => exact absurd hm hx
    | some segs =>
      obtain ⟨y, z, rfl, hy, hz, hz1, -⟩ := (matchAtoms_rRec x segs).mp hm
      refine ⟨a, y.takeWhile Char.isDigit, z.takeWhile Char.isDigit,
        z.dropWhile Char.isDigit, ?_, hy, ?_, hz1, ?_⟩
      · have ey : y = y.takeWhile Char.isDigit ++ y.dropWhile Char.isDigit :=
          (List.takeWhile_append_dropWhile _ _).symm
        have ez : z = z.takeWhile Char.isDigit ++ z.dropWhile Char.isDigit :=
          (List.takeWhile_append_dropWhile _ _).symm
        rw [hz] at ey
        conv_lhs => rw [ey, ez]
        simp
      · intro c hc; exact (List.mem_takeWhile_imp hc)
      · intro c hc; exact (List.mem_takeWhile_imp hc)

/-- The loop body panics exactly on the lines that break the protocol. -/
theorem scanLine_eq_none_iff (minAvg : F64) (delay : Int) (we : Bool) (st : State) (t : Str) :
    scanLine minAvg delay we st t = none ↔ Violates t := by
  unfold Violates
  rw [hasCountPattern_iff]
  by_cases hp : HasPrefix t "Recovered.".toList = true
  · rw [scanLine_recovered _ _ _ _ _ hp]
    unfold FindStringSubmatch
    cases findMatch rRec t with
    | none => exact ⟨fun _ => ⟨hp, fun h => h rfl⟩, fun _ => rfl⟩
    | some segs =>
      exact ⟨fun h => (by cases h), fun h => absurd (fun h1 => (by cases h1)) h.2⟩
  · have : scanLine minAvg delay we st t ≠ none := by
      unfold scanLine
      split
      · simp
      · split
        · simp
        · split
          · simp
          · simp
    exact ⟨fun h => absurd h this, fun h => absurd h.1 hp⟩

/-- The line printed by the `Recovered.` case starts with the line read. -/
theorem rateAndLine_extends (st : State) (t : Str) (r : Int) :
    t <+: (rateAndLine st t r).2 := by
  unfold rateAndLine
  split
  · simp only [List.append_assoc]; exact List.prefix_append _ _
  · exact List.prefix_refl t

/-- The events of the `Recovered.` case: one echo, after at most one stop. -/
theorem recoveredCase_events (minAvg : F64) (delay : Int) (we : Bool) (st : State)
    (t : Str) (m : List Str) :
    (recoveredCase minAvg delay we st t m).2 =
        [.echo (rateAndLine st t (Atoi (m.getD 1 []))).2] ∨
      (recoveredCase minAvg delay we st t m).2 =
        [.stop, .echo (rateAndLine st t (Atoi (m.getD 1 []))).2] := by
  cases hjf : st.justFinished
  · by_cases h : st.timeStarted ≤ delay
    · rw [recoveredCase_early _ _ _ _ _ _ hjf h]; exact Or.inl rfl
    · by_cases he : st.timeEstimated ≤ delay ∧ we = true
      · rw [recoveredCase_escape _ _ _ _ _ _ hjf h he]; exact Or.inl rfl
      · cases hlt : F64.lt (rateAndLine st t (Atoi (m.getD 1 []))).1 minAvg
        · rw [recoveredCase_keep _ _ _ _ _ _ hjf h he hlt]; exact Or.inl rfl
        · rw [recoveredCase_stop _ _ _ _ _ _ hjf h he hlt]; exact Or.inr rfl
  · rw [recoveredCase_justFinished _ _ _ _ _ _ hjf]; exact Or.inl rfl

/-- What a completed iteration prints: one line, which starts with the line
read, and is the line read outside the `Recovered.` case and whenever
`timeStarted` is not positive; and it calls the stop action at most once. -/
theorem scanLine_echo (minAvg : F64) (delay : Int) (we : Bool) (st : State) (t : Str)
    (st1 : State) (evs : List Event)
    (h : scanLine minAvg delay we st t = some (st1, evs)) :
    ∃ o, echoed evs = [o] ∧ t <+: o ∧
      (HasPrefix t "Recovered.".toList = false → o = t) ∧
      (st.timeStarted ≤ 0 → o = t) ∧ stops evs ≤ 1 := by
  by_cases hp : HasPrefix t "Recovered.".toList = true
  · rw [scanLine_recovered _ _ _ _ _ hp] at h
    cases hm : FindStringSubmatch rRec t with
    | none => rw [hm] at h; cases h
    | some m =>
      rw [hm] at h
      simp only [Option.map_some', Option.some.injEq] at h
      have hev : (recoveredCase minAvg delay we st t m).2 = evs := by rw [h]
      refine ⟨(rateAndLine st t (Atoi (m.getD 1 []))).2, ?_, rateAndLine_extends _ _ _, ?_, ?_, ?_⟩
      · rcases recoveredCase_events minAvg delay we st t m with h1 | h1 <;>
          rw [← hev, h1] <;> rfl
      · intro hn; rw [hp] at hn; cases hn
      · intro h0; rw [rateAndLine_nonpos _ _ _ h0]
      · rcases recoveredCase_events minAvg delay we st t m with h1 | h1 <;>
          rw [← hev, h1] <;> simp [stops]
  · unfold scanLine at h
    have key : evs = [.echo t] := by
      split at h
      · simp only [Option.some.injEq, Prod.mk.injEq] at h; exact h.2.symm
      · split at h
        · simp only [Option.some.injEq, Prod.mk.injEq] at h; exact h.2.symm
        · split at h
          · simp only [Option.some.injEq, Prod.mk.injEq] at h; exact h.2.symm
          · simp only [Option.some.injEq, Prod.mk.injEq] at h; exact h.2.symm
    subst key
    exact ⟨t, rfl, List.prefix_refl t, fun _ => rfl, fun _ => rfl, by simp [stops]⟩

/-- `echoed` distributes over concatenation. -/
theorem echoed_append (a b : List Event) : echoed (a ++ b) = echoed a ++ echoed b := by
  induction a with
  | nil => rfl
  | cons e a ih => cases e <;> simp [echoed, ih]

/-- A run over lines that all respect the protocol does not panic and prints,
for each line in order, one line as described by `scanLine_echo`. -/
theorem readOutputFrom_clean (minAvg : F64) (delay : Int) (we : Bool) (lines : List Str) :
    ∀ st, (∀ x ∈ lines, ¬ Violates x) →
      (readOutputFrom minAvg delay we st lines).panicked = false ∧
      List.Forall₂ (fun t o => t <+: o ∧ (HasPrefix t "Recovered.".toList = false → o = t))
        lines (echoed (readOutputFrom minAvg delay we st lines).events) := by
  induction lines with
  | nil => intro st _; exact ⟨rfl, List.Forall₂.nil⟩
  | cons t ts ih =>
    intro st hcl
    have ht : ¬ Violates t := hcl t (List.mem_cons_self _ _)
    cases hs : scanLine minAvg delay we st t with
    | none => exact absurd ((scanLine_eq_none_iff _ _ _ _ _).mp hs) ht
    | some p =>
      obtain ⟨st1, evs⟩ := p
      obtain ⟨o, ho, hpre, hraw, -, -⟩ := scanLine_echo _ _ _ _ _ _ _ hs
      obtain ⟨ih1, ih2⟩ := ih st1 (fun x hx => hcl x (List.mem_cons_of_mem _ hx))
      simp only [readOutputFrom, hs]
      refine ⟨ih1, ?_⟩
      rw [echoed_append, ho]
      exact List.Forall₂.cons ⟨hpre, hraw⟩ ih2

/-- A run stops at the first line that breaks the protocol: the state and the
events are those of the run over the lines before it. -/
theorem readOutputFrom_halt (minAvg : F64) (delay : Int) (we : Bool) (pre : List Str)
    (t : Str) (post : List Str) (ht : Violates t) :
    ∀ st, (∀ x ∈ pre, ¬ Violates x) →
      readOutputFrom minAvg delay we st (pre ++ t :: post) =
        ⟨(readOutputFrom minAvg delay we st pre).state,
          (readOutputFrom minAvg delay we st pre).events, true⟩ := by
  induction pre with
  | nil =>
    intro st _
    simp only [List.nil_append, readOutputFrom, (scanLine_eq_none_iff _ _ _ _ _).mpr ht]
  | cons x xs ih =>
    intro st hcl
    have hx : ¬ Violates x := hcl x (List.mem_cons_self _ _)
    cases hs : scanLine minAvg delay we st x with
    | none => exact absurd ((scanLine_eq_none_iff _ _ _ _ _).mp hs) hx
    | some p =>
      obtain ⟨st1, evs⟩ := p
      have := ih st1 (fun y hy => hcl y (List.mem_cons_of_mem _ hy))
      rw [List.cons_append]
      simp only [readOutputFrom, hs, this]

/-! ## Lemmas on the scanner -/

/-- A line without a newline, followed by a newline, is the first line of the
content. -/
theorem splitLines_line (l rest : Str) (h : '\n' ∉ l) :
    splitLines (l ++ '\n' :: rest) = l :: splitLines rest := by
  induction l with
  | nil => simp only [List.nil_append, splitLines, if_true]
  | cons c l ih =>
    have hc : c ≠ '\n' := fun e => h (e ▸ List.mem_cons_self _ _)
    have hl : '\n' ∉ l := fun e => h (List.mem_cons_of_mem _ e)
    rw [List.cons_append, splitLines, if_neg hc, ih hl]

/-- The lines of the content written by `unlines` are the lines written. -/
theorem splitLines_unlines (ls : List Str) (h : ∀ l ∈ ls, '\n' ∉ l) :
    splitLines (unlines ls) = ls := by
  induction ls with
  | nil => rfl
  | cons l ls ih =>
    rw [unlines, splitLines_line l _ (h l (List.mem_cons_self _ _)),
      ih (fun x hx => h x (List.mem_cons_of_mem _ hx))]

/-- The number of bytes of a concatenation. -/
theorem byteLen_append (a b : Str) : byteLen (a ++ b) = byteLen a + byteLen b := by
  unfold byteLen
  rw [List.map_append, List.sum_append]

/-- A run of `n` letters `a` has `n` bytes. -/
theorem byteLen_replicate (n : Nat) : byteLen (List.replicate n 'a') = n := by
  induction n with
  | zero => rfl
  | succ n ih =>
    unfold byteLen at ih ⊢
    rw [List.replicate_succ, List.map_cons, List.sum_cons, ih]
    have : Char.utf8Size 'a' = 1 := by decide
    omega

/-- When every line fits in the buffer, the tokens are the lines, each through
`dropCR`. -/
theorem Scanner.tokens_of_fit (r : Str) (h : ∀ x ∈ splitLines r, byteLen x < MaxScanTokenSize) :
    Scanner.tokens r = (splitLines r).map dropCR := by
  unfold Scanner.tokens
  rw [List.takeWhile_eq_self_iff.mpr (fun x hx => decide_eq_true (h x hx))]

/-- The tokens end before the first line that does not fit in the buffer. -/
theorem Scanner.tokens_cut (r : Str) (pre : List Str) (t : Str) (post : List Str)
    (hr : splitLines r = pre ++ t :: post)
    (hfit : ∀ x ∈ pre, byteLen x < MaxScanTokenSize) (ht : MaxScanTokenSize ≤ byteLen t) :
    Scanner.tokens r = pre.map dropCR := by
  unfold Scanner.tokens
  rw [hr, List.takeWhile_append_of_pos (fun x hx => decide_eq_true (hfit x hx)),
    List.takeWhile_cons_of_neg (by simpa using ht), List.append_nil]

/-- The tokens up to a line that fits in the buffer, after lines that fit. -/
theorem Scanner.tokens_through (r : Str) (pre : List Str) (t : Str) (post : List Str)
    (hr : splitLines r = pre ++ t :: post)
    (hfit : ∀ x ∈ pre, byteLen x < MaxScanTokenSize) (ht : byteLen t < MaxScanTokenSize) :
    ∃ rest, Scanner.tokens r = pre.map dropCR ++ dropCR t :: rest := by
  have hcons : (t :: post).takeWhile (fun l => decide (byteLen l < MaxScanTokenSize)) =
      t :: post.takeWhile (fun l => decide (byteLen l < MaxScanTokenSize)) :=
    List.takeWhile_cons_of_pos (decide_eq_true ht)
  unfold Scanner.tokens
  rw [hr, List.takeWhile_append_of_pos (fun x hx => decide_eq_true (hfit x hx)), hcons,
    List.map_append, List.map_cons]
  exact ⟨_, rfl⟩

/-! ## The duration parser (lines 47-64) -/

/-- `wrap64` is the identity on the `int64` range. -/
theorem wrap64_of_fits (x : Int) (h1 : -(2 ^ 63) ≤ x) (h2 : x < 2 ^ 63) : wrap64 x = x := by
  unfold wrap64
  rw [Int.emod_eq_of_lt (by omega) (by omega)]
  omega

/-- The digit loop only grows its accumulator. -/
theorem foldl_digits_ge (ds : Str) (n : Nat) :
    n ≤ ds.foldl (fun n c => n * 10 + (c.toNat - 48)) n := by
  induction ds generalizing n with
  | nil => exact le_refl n
  | cons c cs ih =>
    simp only [List.foldl_cons]
    exact le_trans (by omega) (ih _)

/-- The digit loop of `ParseUint` on a string of digits: the number written,
or a range error when it exceeds `uint64`. -/
theorem parseUintLoop_digits (ds : Str) (hd : ∀ c ∈ ds, c.isDigit = true) (n : Nat)
    (hn : n ≤ maxUint64) :
    parseUintLoop ds n =
      if ds.foldl (fun n c => n * 10 + (c.toNat - 48)) n ≤ maxUint64
      then .ok (ds.foldl (fun n c => n * 10 + (c.toNat - 48)) n) else .rangeErr := by
  induction ds generalizing n with
  | nil => simp only [parseUintLoop, List.foldl_nil, if_pos hn]
  | cons c cs ih =>
    have hc : c.isDigit = true := hd c (List.mem_cons_self _ _)
    have hcs : ∀ x ∈ cs, x.isDigit = true := fun x hx => hd x (List.mem_cons_of_mem _ hx)
    have hge := foldl_digits_ge cs (n * 10 + (c.toNat - 48))
    simp only [parseUintLoop, hc, if_true, List.foldl_cons]
    have hmax : maxUint64 = 18446744073709551615 := by decide
    by_cases h1 : n ≥ maxUint64 / 10 + 1
    · rw [if_pos h1, if_neg]
      rw [hmax] at h1 ⊢
      omega
    · rw [if_neg h1]
      by_cases h2 : n * 10 + (c.toNat - 48) > maxUint64
      · rw [if_pos h2, if_neg]
        omega
      · rw [if_neg h2, ih hcs _ (by omega)]

/-- `Atoi` on one or more digits that write a number below `2^63` is that
number. -/
theorem Atoi_digits (ds : Str) (hne : ds ≠ []) (hd : ∀ c ∈ ds, c.isDigit = true)
    (hfit : decimalValue ds < 2 ^ 63) : Atoi ds = (decimalValue ds : Int) := by
  have hloop := parseUintLoop_digits ds hd 0 (by decide)
  have hmax : maxUint64 = 18446744073709551615 := by decide
  have hle : decimalValue ds ≤ maxUint64 := by rw [hmax]; omega
  unfold decimalValue at hfit hle ⊢
  rw [if_pos hle] at hloop
  cases ds with
  | nil => exact absurd rfl hne
  | cons c cs =>
    have hc : c.isDigit = true := hd c (List.mem_cons_self _ _)
    have hplus : c ≠ '+' := by rintro rfl; exact absurd hc (by decide)
    have hminus : c ≠ '-' := by rintro rfl; exact absurd hc (by decide)
    have hA : Atoi (c :: cs) = intOfUint false (ParseUint (c :: cs)) := by
      unfold Atoi
      split
      · rename_i h; cases h
      · rename_i h; simp only [List.cons.injEq] at h; exact absurd h.1 hplus
      · rename_i h; simp only [List.cons.injEq] at h; exact absurd h.1 hminus
      · rfl
    rw [hA]
    simp only [ParseUint, hloop, intOfUint]
    generalize List.foldl (fun n c => n * 10 + (c.toNat - 48)) 0 (c :: cs) = v at hfit
    have hv : decide ((2 : Nat) ^ 63 ≤ v) = false := by
      rw [decide_eq_false_iff_not]; omega
    simp only [hv, Bool.not_false, Bool.true_and, Bool.false_and, Bool.false_eq_true, if_false]

/-- `Atoi` of the empty string is zero. -/
theorem Atoi_nil : Atoi [] = 0 := rfl

/-- The pattern of a unit, atom by atom. -/
theorem TimeUnit.re_eq (u : TimeUnit) :
    u.re = .digits false :: .lit ' ' :: (lits u.word ++ [.opt 's']) := by
  cases u <;> rfl

/-- The letters of a unit are not digits. -/
theorem TimeUnit.word_no_digit (u : TimeUnit) : ∀ c ∈ u.word, c.isDigit = false := by
  cases u <;> decide

/-- Two different units differ in their first letter. -/
theorem TimeUnit.word_mismatch (u v : TimeUnit) (h : u ≠ v) (xs : Str) :
    ¬ (u.word <+: v.word ++ xs) := by
  rintro ⟨t, ht⟩
  have hh := congrArg List.head? ht
  cases u <;> cases v <;> first
    | exact absurd rfl h
    | (simp [TimeUnit.word] at hh)

/-- A word of literal atoms matches exactly that word. -/
theorem matchAtoms_lits (w : Str) (as : Regexp) (s : Str) (segs : List Str) :
    matchAtoms (lits w ++ as) s = some segs ↔
      ∃ xs segs1, s = w ++ xs ∧ matchAtoms as xs = some segs1 ∧
        segs = w.map (fun c => [c]) ++ segs1 := by
  induction w generalizing s segs with
  | nil => simp [lits]
  | cons c cs ih =>
    have e : lits (c :: cs) ++ as = .lit c :: (lits cs ++ as) := rfl
    rw [e, matchAtoms_lit]
    constructor
    · rintro ⟨xs, segs1, rfl, h1, rfl⟩
      obtain ⟨ys, segs2, rfl, h2, rfl⟩ := (ih xs segs1).mp h1
      exact ⟨ys, segs2, rfl, h2, rfl⟩
    · rintro ⟨xs, segs1, rfl, h1, rfl⟩
      exact ⟨cs ++ xs, _, rfl, (ih (cs ++ xs) _).mpr ⟨xs, segs1, rfl, h1, rfl⟩, rfl⟩

/-- An optional character at the end of a pattern: taken when it is there. -/
theorem matchAtoms_opt_last (c : Char) (s : Str) :
    matchAtoms [.opt c] s = some [if s.head? = some c then [c] else []] := by
  cases s with
  | nil => simp [matchAtoms]
  | cons x xs =>
    by_cases hx : x = c
    · subst hx; simp [matchAtoms]
    · simp [matchAtoms, hx]

/-- Singleton pieces concatenate to the word. -/
theorem flatten_map_singleton (w : Str) : (w.map (fun c => [c])).flatten = w := by
  induction w with
  | nil => rfl
  | cons c cs ih => simp [ih]

/-- The pattern of a unit matches at the start of `x` exactly when `x` starts
with a digit run followed by a blank and the unit; the first piece of the
match is the whole digit run. -/
theorem matchAtoms_unit (u : TimeUnit) (x : Str) (segs : List Str) :
    matchAtoms u.re x = some segs ↔
      x.takeWhile Char.isDigit ≠ [] ∧
      ∃ xs, x.dropWhile Char.isDigit = ' ' :: u.word ++ xs ∧
        segs = x.takeWhile Char.isDigit :: [' '] ::
          (u.word.map (fun c => [c]) ++ [if xs.head? = some 's' then ['s'] else []]) := by
  rw [TimeUnit.re_eq, matchAtoms_digits_lit _ _ _ (by decide)]
  constructor
  · rintro ⟨h1, segs1, h2, rfl⟩
    rw [matchAtoms_lit] at h2
    obtain ⟨ys, segs2, hy, h3, rfl⟩ := h2
    rw [matchAtoms_lits] at h3
    obtain ⟨xs, segs3, rfl, h4, rfl⟩ := h3
    rw [matchAtoms_opt_last] at h4
    exact ⟨h1, xs, hy, by rw [← Option.some.inj h4]⟩
  · rintro ⟨h1, xs, h2, rfl⟩
    refine ⟨h1, _, ?_, rfl⟩
    rw [matchAtoms_lit]
    refine ⟨u.word ++ xs, _, h2, ?_, rfl⟩
    rw [matchAtoms_lits]
    exact ⟨xs, _, rfl, matchAtoms_opt_last _ _, rfl⟩

/-- When the pattern of a unit does not match at the start of `x`. -/
theorem matchAtoms_unit_none (u : TimeUnit) (x : Str) :
    matchAtoms u.re x = none ↔
      (x.takeWhile Char.isDigit = [] ∨ ¬ (' ' :: u.word <+: x.dropWhile Char.isDigit)) := by
  constructor
  · intro h
    by_contra hcon
    push_neg at hcon
    obtain ⟨h1, xs, h2⟩ := hcon
    have := (matchAtoms_unit u x _).mpr ⟨h1, xs, h2.symm, rfl⟩
    rw [h] at this; cases this
  · intro h
    cases hm : matchAtoms u.re x with
    | none => rfl
    | some segs =>
      obtain ⟨h1, xs, h2, -⟩ := (matchAtoms_unit u x segs).mp hm
      rcases h with h | h
      · exact absurd h h1
      · exact absurd ⟨xs, h2.symm⟩ h

/-- The digits `getDuration` converts, when the pattern of a unit matches at
the start of `x`: the whole digit run. -/
theorem cutBefore_unit_match (u : TimeUnit) (x : Str) (segs : List Str)
    (h : matchAtoms u.re x = some segs) :
    CutBefore segs.flatten ' ' = x.takeWhile Char.isDigit := by
  obtain ⟨-, xs, -, rfl⟩ := (matchAtoms_unit u x segs).mp h
  have hd : ∀ c ∈ x.takeWhile Char.isDigit, (c != ' ') = true := by
    intro c hc
    have := List.mem_takeWhile_imp hc
    simp only [bne_iff_ne, ne_eq]
    rintro rfl
    exact absurd this (by decide)
  simp only [CutBefore, List.flatten_cons, List.singleton_append]
  rw [List.takeWhile_append_of_pos hd]
  simp [List.takeWhile_cons]

/-- The search moves on from a position where the pattern does not match. -/
theorem findMatch_cons_none (re : Regexp) (c : Char) (cs : Str)
    (h : matchAtoms re (c :: cs) = none) : findMatch re (c :: cs) = findMatch re cs := by
  rw [findMatch, h]

/-- The search returns a match at the start of a text that is not empty. -/
theorem findMatch_of_match (re : Regexp) (x : Str) (segs : List Str)
    (h : matchAtoms re x = some segs) : findMatch re x = some segs := by
  cases x with
  | nil => rw [findMatch, h]
  | cons c cs => rw [findMatch, h]

/-- The search skips a stretch of text in which the pattern matches at no
position, also with what follows taken into account. -/
theorem findMatch_skip (re : Regexp) (sep t : Str)
    (h : ∀ a x, sep = a ++ x → x ≠ [] → matchAtoms re (x ++ t) = none) :
    findMatch re (sep ++ t) = findMatch re t := by
  induction sep with
  | nil => rfl
  | cons c cs ih =>
    have h1 : matchAtoms re (c :: cs ++ t) = none :=
      h [] (c :: cs) rfl (List.cons_ne_nil _ _)
    rw [List.cons_append, findMatch_cons_none re c (cs ++ t) h1]
    exact ih (fun a x hx hne => h (c :: a) x (by rw [hx]; rfl) hne)

/-- When the search finds nothing, the pattern matches at no position. -/
theorem matchAtoms_none_of_findMatch (re : Regexp) (t a x : Str) (h : findMatch re t = none)
    (ht : t = a ++ x) : matchAtoms re x = none := by
  by_contra hx
  exact (findMatch_ne_none_iff re t).mpr ⟨a, x, ht, hx⟩ h

/-- A stretch of text that does not end in a digit contains a character that
is not a digit. -/
theorem dropWhile_ne_nil_of_noDigitAtEnd (x : Str) (hne : x ≠ []) (hend : NoDigitAtEnd x) :
    x.dropWhile Char.isDigit ≠ [] := by
  intro h
  have hall : ∀ c ∈ x, c.isDigit = true := List.dropWhile_eq_nil_iff.mp h
  obtain ⟨c, hc⟩ := Option.isSome_iff_exists.mp (List.getLast?_isSome.mpr hne)
  have h1 := hall c (List.mem_of_getLast?_eq_some hc)
  rw [hend c hc] at h1
  cases h1

/-- No match of a unit pattern straddles the end of a stretch of text that
does not end in a digit, when what follows is empty or starts with a digit. -/
theorem no_straddle (u : TimeUnit) (x t : Str) (hne : x ≠ []) (hend : NoDigitAtEnd x)
    (hx : matchAtoms u.re x = none)
    (ht : t = [] ∨ ∃ d r, t = d :: r ∧ d.isDigit = true) :
    matchAtoms u.re (x ++ t) = none := by
  have hdw := dropWhile_ne_nil_of_noDigitAtEnd x hne hend
  have htw : (x ++ t).takeWhile Char.isDigit = x.takeWhile Char.isDigit := by
    rw [List.takeWhile_append, if_neg]
    intro hlen
    have := List.takeWhile_append_dropWhile Char.isDigit x
    have h2 := congrArg List.length this
    rw [List.length_append] at h2
    have : (x.dropWhile Char.isDigit).length = 0 := by omega
    exact hdw (List.length_eq_zero.mp this)
  have hdr : (x ++ t).dropWhile Char.isDigit = x.dropWhile Char.isDigit ++ t := by
    rw [List.dropWhile_append, if_neg]
    simpa using hdw
  rw [matchAtoms_unit_none, htw, hdr]
  rcases (matchAtoms_unit_none u x).mp hx with h | h
  · exact Or.inl h
  · right
    rintro ⟨s, hs⟩
    rcases List.append_eq_append_iff.mp hs with ⟨a1, h1, -⟩ | ⟨c1, h1, h2⟩
    · exact h ⟨a1, h1.symm⟩
    · cases c1 with
      | nil => exact h ⟨[], by rw [h1]; simp⟩
      | cons e es =>
        rcases ht with rfl | ⟨d, r, rfl, hd⟩
        · cases h2
        · simp only [List.cons_append, List.cons.injEq] at h2
          have he : e ∈ ' ' :: u.word := by
            rw [h1]; exact List.mem_append_right _ (List.mem_cons_self _ _)
          rw [← h2.1] at he
          rcases List.mem_cons.mp he with rfl | hw
          · exact absurd hd (by decide)
          · rw [TimeUnit.word_no_digit u d hw] at hd; cases hd

/-- The search for a unit pattern skips a separator that contains no match and
does not end in a digit, when what follows is empty or starts with a digit. -/
theorem findMatch_sep (u : TimeUnit) (sep t : Str) (hno : findMatch u.re sep = none)
    (hend : NoDigitAtEnd sep) (ht : t = [] ∨ ∃ d r, t = d :: r ∧ d.isDigit = true) :
    findMatch u.re (sep ++ t) = findMatch u.re t := by
  apply findMatch_skip
  intro a x hax hne
  refine no_straddle u x t hne ?_ (matchAtoms_none_of_findMatch _ _ a x hno hax) ht
  intro c hc
  apply hend c
  rw [hax, List.getLast?_append, hc]
  rfl

/-- The search skips characters that are not digits. -/
theorem findMatch_skip_nondigits (u : TimeUnit) (nd rest : Str)
    (hnd : ∀ c ∈ nd, c.isDigit = false) :
    findMatch u.re (nd ++ rest) = findMatch u.re rest := by
  induction nd with
  | nil => rfl
  | cons c cs ih =>
    have hc : c.isDigit = false := hnd c (List.mem_cons_self _ _)
    rw [List.cons_append, findMatch_cons_none _ _ _
      ((matchAtoms_unit_none u _).mpr (Or.inl (by simp [List.takeWhile_cons, hc])))]
    exact ih (fun x hx => hnd x (List.mem_cons_of_mem _ hx))

/-- The search skips a digit run that is followed by something else than a
blank and the unit. -/
theorem findMatch_skip_digits (u : TimeUnit) (ds tail : Str)
    (hds : ∀ c ∈ ds, c.isDigit = true)
    (htl : tail.takeWhile Char.isDigit = [])
    (hmis : ¬ (' ' :: u.word <+: tail)) :
    findMatch u.re (ds ++ tail) = findMatch u.re tail := by
  induction ds with
  | nil => rfl
  | cons c cs ih =>
    have hcs : ∀ x ∈ cs, x.isDigit = true := fun x hx => hds x (List.mem_cons_of_mem _ hx)
    have hdrop : (c :: cs ++ tail).dropWhile Char.isDigit = tail := by
      rw [List.dropWhile_append_of_pos hds]
      cases tail with
      | nil => rfl
      | cons e es =>
        by_cases he : e.isDigit = true
        · simp [List.takeWhile_cons, he] at htl
        · simp [List.dropWhile_cons, he]
    rw [List.cons_append, findMatch_cons_none _ _ _
      ((matchAtoms_unit_none u _).mpr (Or.inr (by
        rw [← List.cons_append, hdrop]; exact hmis)))]
    exact ih hcs

/-- The text of a component, followed by anything: the pattern of its own unit
matches at its start, and the digits converted are the digits of the component. -/
theorem findMatch_component_same (c : Component) (hwf : c.WellFormed) (rest : Str) :
    ∃ segs, findMatch c.unit.re (c.text ++ rest) = some segs ∧
      CutBefore segs.flatten ' ' = c.digits := by
  have htxt : c.text ++ rest =
      c.digits ++ (' ' :: (c.unit.word ++ ((if c.plural then ['s'] else []) ++ rest))) := by
    simp [Component.text]
  have htw : (c.text ++ rest).takeWhile Char.isDigit = c.digits := by
    rw [htxt, List.takeWhile_append_of_pos hwf.2]
    simp [List.takeWhile_cons]
  have hdw : (c.text ++ rest).dropWhile Char.isDigit =
      ' ' :: (c.unit.word ++ ((if c.plural then ['s'] else []) ++ rest)) := by
    rw [htxt, List.dropWhile_append_of_pos hwf.2]
    simp [List.dropWhile_cons]
  have hm := (matchAtoms_unit c.unit (c.text ++ rest) _).mpr
    ⟨by rw [htw]; exact hwf.1, _, hdw, rfl⟩
  exact ⟨_, findMatch_of_match _ _ _ hm, by rw [cutBefore_unit_match _ _ _ hm, htw]⟩

/-- The text of a component, followed by anything: the search for the pattern
of another unit passes over it. -/
theorem findMatch_component_other (u : TimeUnit) (c : Component) (hwf : c.WellFormed)
    (hu : u ≠ c.unit) (rest : Str) :
    findMatch u.re (c.text ++ rest) = findMatch u.re rest := by
  have htxt : c.text ++ rest =
      c.digits ++ ((' ' :: c.unit.word ++ (if c.plural then ['s'] else [])) ++ rest) := by
    simp [Component.text]
  have hnd : ∀ x ∈ ' ' :: c.unit.word ++ (if c.plural then ['s'] else []),
      x.isDigit = false := by
    intro x hx
    rcases List.mem_append.mp hx with h | h
    · rcases List.mem_cons.mp h with rfl | h
      · decide
      · exact TimeUnit.word_no_digit _ _ h
    · split at h
      · rw [List.mem_singleton.mp h]; decide
      · cases h
  rw [htxt, findMatch_skip_digits u c.digits _ hwf.2 (by simp [List.takeWhile_cons]) ?_,
    findMatch_skip_nondigits u _ rest hnd]
  intro hp
  rw [List.cons_append, List.cons_append, List.cons_prefix_cons, List.append_assoc] at hp
  exact TimeUnit.word_mismatch u c.unit hu _ hp.2

/-- A text without patterns has no match of the pattern of any unit. -/
theorem NoPattern.unit {s : Str} (h : NoPattern s) (u : TimeUnit) : findMatch u.re s = none := by
  cases u
  · exact h.1
  · exact h.2.1
  · exact h.2.2.1
  · exact h.2.2.2

/-- The text of a well-formed component starts with a digit. -/
theorem Component.text_head (c : Component) (hwf : c.WellFormed) (rest : Str) :
    ∃ d r, c.text ++ rest = d :: r ∧ d.isDigit = true := by
  obtain ⟨hne, hd⟩ := hwf
  cases hds : c.digits with
  | nil => exact absurd hds hne
  | cons d ds =>
    have e : c.text ++ rest =
        d :: (ds ++ ' ' :: c.unit.word ++ (if c.plural then ['s'] else []) ++ rest) := by
      simp only [Component.text, hds, List.cons_append]
    exact ⟨d, _, e, hd d (by rw [hds]; exact List.mem_cons_self _ _)⟩

/-- In an assembled text, the digits `getDuration` converts for a unit are
those of the first component of that unit, or none at all. -/
theorem cutBefore_assemble (u : TimeUnit) (blocks : List (Str × Component)) (last : Str)
    (hwf : ∀ b ∈ blocks, b.2.WellFormed)
    (hsep : ∀ b ∈ blocks, NoPattern b.1 ∧ NoDigitAtEnd b.1)
    (hlast : NoPattern last) :
    CutBefore (FindString u.re (assemble blocks last)) ' ' = firstDigits u blocks := by
  induction blocks with
  | nil =>
    simp only [assemble, FindString, hlast.unit u, firstDigits]
    rfl
  | cons b rest ih =>
    obtain ⟨sep, c⟩ := b
    have hc : c.WellFormed := hwf (sep, c) (List.mem_cons_self _ _)
    have hs := hsep (sep, c) (List.mem_cons_self _ _)
    have ih1 := ih (fun x hx => hwf x (List.mem_cons_of_mem _ hx))
      (fun x hx => hsep x (List.mem_cons_of_mem _ hx))
    have hfm : findMatch u.re (assemble ((sep, c) :: rest) last) =
        findMatch u.re (c.text ++ assemble rest last) := by
      simp only [assemble, List.append_assoc]
      exact findMatch_sep u sep _ (hs.1.unit u) hs.2 (Or.inr (c.text_head hc _))
    by_cases hu : c.unit = u
    · subst hu
      obtain ⟨segs, h1, h2⟩ := findMatch_component_same c hc (assemble rest last)
      simp only [FindString, hfm, h1, firstDigits, if_true, h2]
    · have hfm2 := findMatch_component_other u c hc (fun h => hu h.symm) (assemble rest last)
      simp only [FindString, hfm, hfm2, firstDigits, if_neg hu]
      exact ih1

/-- The digits found for a unit are empty or one or more decimal digits. -/
theorem firstDigits_wf (u : TimeUnit) (blocks : List (Str × Component))
    (hwf : ∀ b ∈ blocks, b.2.WellFormed) :
    firstDigits u blocks = [] ∨
      (firstDigits u blocks ≠ [] ∧ ∀ c ∈ firstDigits u blocks, c.isDigit = true) := by
  induction blocks with
  | nil => exact Or.inl rfl
  | cons b rest ih =>
    obtain ⟨sep, c⟩ := b
    by_cases hu : c.unit = u
    · right
      simp only [firstDigits, if_pos hu]
      exact hwf (sep, c) (List.mem_cons_self _ _)
    · simp only [firstDigits, if_neg hu]
      exact ih (fun x hx => hwf x (List.mem_cons_of_mem _ hx))

/-- No digits are found for a unit that does not occur. -/
theorem firstDigits_of_not_mem (u : TimeUnit) (blocks : List (Str × Component))
    (h : u ∉ blocks.map (fun b => b.2.unit)) : firstDigits u blocks = [] := by
  induction blocks with
  | nil => rfl
  | cons b rest ih =>
    obtain ⟨sep, c⟩ := b
    simp only [List.map_cons, List.mem_cons, not_or] at h
    have hne : ¬ c.unit = u := fun hc => h.1 hc.symm
    simp only [firstDigits, if_neg hne]
    exact ih h.2

/-- The multiplier of a unit is at least one. -/
theorem TimeUnit.one_le_mult (u : TimeUnit) : 1 ≤ u.mult := by
  cases u <;> decide

/-- When each unit occurs at most once, the sum of the components is the sum
over the four units of what is found for each. -/
theorem sum_values_eq (blocks : List (Str × Component))
    (hnd : (blocks.map (fun b => b.2.unit)).Nodup) :
    (blocks.map (fun b => b.2.value)).sum =
      (decimalValue (firstDigits .day blocks) : Int) * TimeUnit.day.mult +
      (decimalValue (firstDigits .hour blocks) : Int) * TimeUnit.hour.mult +
      (decimalValue (firstDigits .min blocks) : Int) * TimeUnit.min.mult +
      (decimalValue (firstDigits .sec blocks) : Int) * TimeUnit.sec.mult := by
  induction blocks with
  | nil => simp [firstDigits, decimalValue]
  | cons b rest ih =>
    obtain ⟨sep, c⟩ := b
    simp only [List.map_cons, List.nodup_cons] at hnd
    have h0 := firstDigits_of_not_mem c.unit rest hnd.1
    have ih1 := ih hnd.2
    have e : decimalValue ([] : Str) = 0 := rfl
    rw [List.map_cons, List.sum_cons, ih1]
    cases hcu : c.unit <;> rw [hcu] at h0 <;>
      simp only [firstDigits, hcu, h0, e, if_true, if_false, reduceCtorEq, Component.value,
        Nat.cast_zero, zero_mul] <;> ring

/-- In an assembled text, `getDuration` for a unit returns the number written
by the digits found for it times the multiplier, when that fits `int64`. -/
theorem getDuration_assemble (u : TimeUnit) (blocks : List (Str × Component)) (last : Str)
    (hwf : ∀ b ∈ blocks, b.2.WellFormed)
    (hsep : ∀ b ∈ blocks, NoPattern b.1 ∧ NoDigitAtEnd b.1)
    (hlast : NoPattern last)
    (hfit : (decimalValue (firstDigits u blocks) : Int) * u.mult < 2 ^ 63) :
    getDuration u.re (assemble blocks last) u.mult =
      (decimalValue (firstDigits u blocks) : Int) * u.mult := by
  have hm := u.one_le_mult
  have hnn : (0 : Int) ≤ (decimalValue (firstDigits u blocks) : Int) := Int.natCast_nonneg _
  have hle : (decimalValue (firstDigits u blocks) : Int) ≤
      (decimalValue (firstDigits u blocks) : Int) * u.mult := by
    have := mul_le_mul_of_nonneg_left hm hnn
    rwa [mul_one] at this
  have hA : Atoi (firstDigits u blocks) = (decimalValue (firstDigits u blocks) : Int) := by
    rcases firstDigits_wf u blocks hwf with h | ⟨h1, h2⟩
    · rw [h]; rfl
    · exact Atoi_digits _ h1 h2 (by omega)
  unfold getDuration
  simp only [cutBefore_assemble u blocks last hwf hsep hlast, hA]
  exact wrap64_of_fits _ (by nlinarith) hfit

/-- Four durations that are not negative and whose sum fits `int64` are added
without wrapping. -/
theorem wrap64_sum4 (a b c d : Int) (ha : 0 ≤ a) (hb : 0 ≤ b) (hc : 0 ≤ c) (hd : 0 ≤ d)
    (h : a + b + c + d < 2 ^ 63) :
    wrap64 (wrap64 (wrap64 (a + b) + c) + d) = a + b + c + d := by
  have w1 : wrap64 (a + b) = a + b := wrap64_of_fits _ (by omega) (by omega)
  have w2 : wrap64 (a + b + c) = a + b + c := wrap64_of_fits _ (by omega) (by omega)
  rw [w1, w2]
  exact wrap64_of_fits _ (by omega) (by omega)

/-- A digit run does not reach into a text that starts with no digit. -/
theorem takeWhile_append_blocked (y t : Str) (ht : t.takeWhile Char.isDigit = []) :
    (y ++ t).takeWhile Char.isDigit = y.takeWhile Char.isDigit ∧
      (y ++ t).dropWhile Char.isDigit = y.dropWhile Char.isDigit ++ t := by
  induction y with
  | nil =>
    refine ⟨by simpa using ht, ?_⟩
    cases t with
    | nil => rfl
    | cons e es =>
      by_cases he : e.isDigit = true
      · simp [List.takeWhile_cons, he] at ht
      · simp [List.dropWhile_cons, he]
  | cons c cs ih =>
    by_cases hc : c.isDigit = true
    · simp [List.takeWhile_cons, List.dropWhile_cons, hc, ih.1, ih.2]
    · simp [List.takeWhile_cons, List.dropWhile_cons, hc]

/-- No match of `, (\d+)/\d+` starts before a comma and reaches it. -/
theorem matchAtoms_rRec_straddle (x r : Str) (hx : x ≠ [])
    (h : matchAtoms rRec x = none) : matchAtoms rRec (x ++ ',' :: r) = none := by
  cases hm : matchAtoms rRec (x ++ ',' :: r) with
  | none => rfl
  | some segs =>
    exfalso
    obtain ⟨y, z, hxy, hy, hz, hz1, -⟩ := (matchAtoms_rRec _ segs).mp hm
    have ht : (',' :: r).takeWhile Char.isDigit = [] := by simp [List.takeWhile_cons]
    cases x with
    | nil => exact hx rfl
    | cons c x1 =>
      simp only [List.cons_append, List.cons.injEq] at hxy
      obtain ⟨rfl, hxy⟩ := hxy
      cases x1 with
      | nil => simp at hxy
      | cons c2 y0 =>
        simp only [List.cons_append, List.cons.injEq] at hxy
        obtain ⟨rfl, rfl⟩ := hxy
        obtain ⟨e1, e2⟩ := takeWhile_append_blocked y0 (',' :: r) ht
        rw [e1] at hy
        rw [e2] at hz
        cases hd : y0.dropWhile Char.isDigit with
        | nil => rw [hd] at hz; simp at hz
        | cons s z0 =>
          rw [hd] at hz
          simp only [List.cons_append, List.cons.injEq] at hz
          obtain ⟨rfl, rfl⟩ := hz
          rw [(takeWhile_append_blocked z0 (',' :: r) ht).1] at hz1
          have := (matchAtoms_rRec (',' :: ' ' :: y0) _).mpr ⟨y0, z0, rfl, hy, hd, hz1, rfl⟩
          rw [h] at this
          cases this

/-- The submatch of the first count pattern of a line: the text before it has
no count pattern, so the match is this one and the capture is its first
digit run. -/
theorem findStringSubmatch_first_count (a ds1 ds2 b : Str) (ha : ¬ HasCountPattern a)
    (h1 : ds1 ≠ []) (hd1 : ∀ c ∈ ds1, c.isDigit = true)
    (h2 : ds2 ≠ []) (hd2 : ∀ c ∈ ds2, c.isDigit = true) :
    FindStringSubmatch rRec (a ++ ',' :: ' ' :: ds1 ++ '/' :: ds2 ++ b) =
      some [',' :: ' ' :: ds1 ++ '/' :: ds2 ++ b.takeWhile Char.isDigit, ds1] := by
  have hnone : findMatch rRec a = none := by
    by_contra hc
    exact ha ((hasCountPattern_iff a).mpr hc)
  have e1 : (ds1 ++ '/' :: (ds2 ++ b)).takeWhile Char.isDigit = ds1 := by
    rw [List.takeWhile_append_of_pos hd1]; simp [List.takeWhile_cons]
  have e2 : (ds1 ++ '/' :: (ds2 ++ b)).dropWhile Char.isDigit = '/' :: (ds2 ++ b) := by
    rw [List.dropWhile_append_of_pos hd1]; simp [List.dropWhile_cons]
  have e3 : (ds2 ++ b).takeWhile Char.isDigit = ds2 ++ b.takeWhile Char.isDigit :=
    List.takeWhile_append_of_pos hd2
  have hm := (matchAtoms_rRec (',' :: ' ' :: (ds1 ++ '/' :: (ds2 ++ b)))
    [[','], [' '], ds1, ['/'], ds2 ++ b.takeWhile Char.isDigit]).mpr
    ⟨ds1 ++ '/' :: (ds2 ++ b), ds2 ++ b, rfl, by rw [e1]; exact h1, e2,
      by rw [e3]; simp [h2], by rw [e1, e3]⟩
  have hshape : a ++ ',' :: ' ' :: ds1 ++ '/' :: ds2 ++ b =
      a ++ ',' :: ' ' :: (ds1 ++ '/' :: (ds2 ++ b)) := by simp
  have hfind : findMatch rRec (a ++ ',' :: ' ' :: (ds1 ++ '/' :: (ds2 ++ b))) =
      some [[','], [' '], ds1, ['/'], ds2 ++ b.takeWhile Char.isDigit] := by
    rw [findMatch_skip rRec a _ (fun p x hpx hne =>
      matchAtoms_rRec_straddle x _ hne (matchAtoms_none_of_findMatch _ _ p x hnone hpx))]
    exact findMatch_of_match _ _ _ hm
  rw [hshape]
  unfold FindStringSubmatch
  rw [hfind]
  simp [captures, rRec]

/-! ## Lemmas on `float64` and `%.2f` -/

/-- The leading bit found by `bitLog` is a bit of the number. -/
theorem two_pow_bitLogAux_le (fuel n : Nat) (hn : 1 ≤ n) : 2 ^ bitLogAux fuel n ≤ n := by
  induction fuel generalizing n with
  | zero => simpa [bitLogAux] using hn
  | succ f ih =>
    unfold bitLogAux
    by_cases h2 : n < 2
    · simpa [h2] using hn
    · rw [if_neg h2, pow_succ]
      have := ih (n / 2) (by omega)
      omega

/-- Rounding a positive integer gives a positive significand. -/
theorem roundRatio_pos (n : Int) (hn : 0 < n) : 0 < (roundRatio n 1).1 := by
  have ha : 1 ≤ n.natAbs := by omega
  have hlog := two_pow_bitLogAux_le n.natAbs n.natAbs ha
  have hsign : n.sign = 1 := Int.sign_eq_one_of_pos hn
  have hq : ∀ k : Int, k ≤ (bitLog n.natAbs : Int) → 1 ≤ (scaledDivMod n.natAbs 1 k).1 := by
    intro k hk
    unfold scaledDivMod
    by_cases h0 : 0 ≤ k
    · simp only [h0, if_true, one_mul]
      apply Nat.div_pos _ (by positivity)
      have : k.toNat ≤ bitLog n.natAbs := by omega
      exact le_trans (Nat.pow_le_pow_right (by decide) this) hlog
    · simp only [h0, if_false, Nat.div_one]
      exact Nat.one_le_iff_ne_zero.mpr (Nat.mul_ne_zero (by omega) (by positivity))
  unfold roundRatio
  have hne : ¬ (n = 0 ∨ (1 : Nat) = 0) := by omega
  rw [if_neg hne]
  have hb1 : bitLog 1 = 0 := by decide
  simp only [hsign, one_mul, hb1]
  split
  · have := hq ((bitLog n.natAbs : Int) - ((0 : Nat) : Int) - 52 - 1) (by omega)
    split <;> omega
  · have := hq ((bitLog n.natAbs : Int) - ((0 : Nat) : Int) - 52) (by omega)
    split <;> omega

/-- The rate of line 87 is a finite number when `timeStarted` is positive. -/
theorem avgRate_finite (recovered recoveredBefore timeStarted : Int) (h : 0 < timeStarted) :
    ∃ m e, avgRate recovered recoveredBefore timeStarted = .fin m e := by
  have hpos := roundRatio_pos timeStarted h
  unfold avgRate F64.ofInt
  simp only [F64.mul, F64.div]
  rw [if_neg (by omega)]
  exact ⟨_, _, rfl⟩

/-- The characters of the decimal digits of a number are digits. -/
theorem digitChar_isDigit : ∀ x, x < 10 → (Nat.digitChar x).isDigit = true := by
  decide

/-- The digits written by `Nat.toDigitsCore` in base ten are digits. -/
theorem toDigitsCore_isDigit (fuel n : Nat) (acc : List Char)
    (hacc : ∀ c ∈ acc, c.isDigit = true) :
    ∀ c ∈ Nat.toDigitsCore 10 fuel n acc, c.isDigit = true := by
  induction fuel generalizing n acc with
  | zero => simpa [Nat.toDigitsCore] using hacc
  | succ f ih =>
    have hd : (Nat.digitChar (n % 10)).isDigit = true :=
      digitChar_isDigit _ (Nat.mod_lt _ (by decide))
    have hacc1 : ∀ c ∈ Nat.digitChar (n % 10) :: acc, c.isDigit = true := by
      intro c hc
      rcases List.mem_cons.mp hc with rfl | hc
      · exact hd
      · exact hacc c hc
    unfold Nat.toDigitsCore
    simp only []
    split
    · exact hacc1
    · exact ih _ _ hacc1

/-- `Nat.toDigitsCore` only adds in front of what it was given. -/
theorem toDigitsCore_ne_nil (fuel n : Nat) (acc : List Char) (hacc : acc ≠ []) :
    Nat.toDigitsCore 10 fuel n acc ≠ [] := by
  induction fuel generalizing n acc with
  | zero => simpa [Nat.toDigitsCore] using hacc
  | succ f ih =>
    unfold Nat.toDigitsCore
    simp only []
    split
    · exact List.cons_ne_nil _ _
    · exact ih _ _ (List.cons_ne_nil _ _)

/-- The shape of `%.2f` on a finite number: an optional minus sign, one or more
digits, a point and two digits. -/
theorem fmt2f_shape (m e : Int) :
    ∃ sign ip d1 d2, fmt2f (.fin m e) = sign ++ ip ++ ['.', d1, d2] ∧
      (sign = [] ∨ sign = ['-']) ∧ ip ≠ [] ∧ (∀ c ∈ ip, c.isDigit = true) ∧
      d1.isDigit = true ∧ d2.isDigit = true := by
  refine ⟨if m < 0 then ['-'] else [], Nat.toDigits 10 (hundredths m e / 100),
    Nat.digitChar (hundredths m e % 100 / 10), Nat.digitChar (hundredths m e % 10),
    rfl, ?_, ?_, ?_, ?_, ?_⟩
  · split
    · exact Or.inr rfl
    · exact Or.inl rfl
  · unfold Nat.toDigits Nat.toDigitsCore
    simp only []
    split
    · exact List.cons_ne_nil _ _
    · exact toDigitsCore_ne_nil _ _ _ (List.cons_ne_nil _ _)
  · exact toDigitsCore_isDigit _ _ [] (fun c hc => by cases hc)
  · exact digitChar_isDigit _ (by omega)
  · exact digitChar_isDigit _ (by omega)

/-! ## C1-C4: the bypass policy (lines 90-103) -/

/-- C1, as amended: on a well-formed `Recovered.` line with `justFinished` false,
`timeStarted > delay`, `timeStarted > 0`, and the escape clause not applying, the
stop action is called exactly once and both timers become zero when
`avg < minAvg`, and it is not called and both timers are kept when
`avg >= minAvg`, where `avg` is the rate of line 87. -/
theorem bypass_trigger (minAvg : F64) (delay : Int) (watchEstimated : Bool) (st : State)
    (t : Str) (m : List Str)
    (hp : HasPrefix t "Recovered.".toList = true)
    (hm : FindStringSubmatch rRec t = some m)
    (hjf : st.justFinished = false)
    (hts : delay < st.timeStarted)
    (hpos : 0 < st.timeStarted)
    (hesc : ¬ (watchEstimated = true ∧ st.timeEstimated ≤ delay)) :
    ∃ st1 evs, scanLine minAvg delay watchEstimated st t = some (st1, evs) ∧
      (F64.lt (avgRate (Atoi (m.getD 1 [])) st.recoveredBefore st.timeStarted) minAvg = true →
        stops evs = 1 ∧ st1.timeStarted = 0 ∧ st1.timeEstimated = 0) ∧
      (F64.ge (avgRate (Atoi (m.getD 1 [])) st.recoveredBefore st.timeStarted) minAvg = true →
        stops evs = 0 ∧ st1.timeStarted = st.timeStarted ∧
          st1.timeEstimated = st.timeEstimated) := by
  have h2 : ¬ st.timeStarted ≤ delay := not_le.mpr hts
  have h3 : ¬ (st.timeEstimated ≤ delay ∧ watchEstimated = true) := fun h => hesc ⟨h.2, h.1⟩
  have hr := rateAndLine_pos st t (Atoi (m.getD 1 [])) hpos
  rw [scanLine_recovered _ _ _ _ _ hp, hm]
  cases hlt : F64.lt (avgRate (Atoi (m.getD 1 [])) st.recoveredBefore st.timeStarted) minAvg
  · have hk := recoveredCase_keep minAvg delay watchEstimated st t m hjf h2 h3
      (by rw [hr]; exact hlt)
    refine ⟨_, _, congrArg some hk, ?_, ?_⟩
    · intro h; cases h
    · intro _; exact ⟨rfl, rfl, rfl⟩
  · have hk := recoveredCase_stop minAvg delay watchEstimated st t m hjf h2 h3
      (by rw [hr]; exact hlt)
    refine ⟨_, _, congrArg some hk, ?_, ?_⟩
    · intro _; exact ⟨rfl, rfl, rfl⟩
    · intro hge
      rw [F64.not_lt_of_ge _ _ hge] at hlt
      cases hlt

/-- C1, witness: `timeStarted = 120s`, `delay = 60s`, `minAvg = 1.0`, one item
recovered since the baseline, so `avg = 0.5`: one stop, timers reset. -/
theorem bypass_trigger_witness :
    ∃ st1 evs, scanLine (.fin 1 0) (60 * Second) true
        ⟨120 * Second, 3600 * Second, 41, false⟩ "Recovered., 42/100".toList =
          some (st1, evs) ∧
      stops evs = 1 ∧ st1.timeStarted = 0 ∧ st1.timeEstimated = 0 := by
  obtain ⟨st1, evs, h, h1, _⟩ := bypass_trigger (.fin 1 0) (60 * Second) true
    ⟨120 * Second, 3600 * Second, 41, false⟩ "Recovered., 42/100".toList
    [", 42/100".toList, "42".toList] (by decide) (by decide) rfl (by decide) (by decide)
    (by decide)
  exact ⟨st1, evs, h, h1 (by decide)⟩

/-- C1, counterexample: with `delay = -10s` and `timeStarted = -5s` every guard
of the claim holds and the rate of the formula is `120 >= minAvg = 1`, yet the
stop action is called and the timers are reset: `avg` was left at zero. -/
theorem bypass_trigger_counterexample :
    HasPrefix "Recovered., 0/100".toList "Recovered.".toList = true ∧
    FindStringSubmatch rRec "Recovered., 0/100".toList =
      some [", 0/100".toList, "0".toList] ∧
    (-10 * Second : Int) < -5 * Second ∧
    avgRate 0 10 (-5 * Second) = .fin (15 * 2 ^ 49) (-46) ∧
    F64.ge (avgRate 0 10 (-5 * Second)) (.fin 1 0) = true ∧
    scanLine (.fin 1 0) (-10 * Second) false ⟨-5 * Second, 0, 10, false⟩
        "Recovered., 0/100".toList =
      some (⟨0, 0, 10, false⟩, [.stop, .echo "Recovered., 0/100".toList]) := by
  decide

/-- C2: on a well-formed `Recovered.` line with `timeStarted <= delay` the stop
action is not called and both timers are kept, whatever the other variables,
`minAvg` and `watchEstimated` are. -/
theorem too_early_guard (minAvg : F64) (delay : Int) (watchEstimated : Bool) (st : State)
    (t : Str) (m : List Str)
    (hp : HasPrefix t "Recovered.".toList = true)
    (hm : FindStringSubmatch rRec t = some m)
    (hts : st.timeStarted ≤ delay) :
    ∃ st1 evs, scanLine minAvg delay watchEstimated st t = some (st1, evs) ∧
      stops evs = 0 ∧ st1.timeStarted = st.timeStarted ∧
      st1.timeEstimated = st.timeEstimated := by
  rw [scanLine_recovered _ _ _ _ _ hp, hm]
  cases hjf : st.justFinished
  · exact ⟨_, _, congrArg some (recoveredCase_early minAvg delay watchEstimated st t m hjf hts),
      rfl, rfl, rfl⟩
  · exact ⟨_, _, congrArg some (recoveredCase_justFinished minAvg delay watchEstimated st t m hjf),
      rfl, rfl, rfl⟩

/-- C2, witness: `timeStarted = 30s`, `delay = 60s`, with a rate far below
`minAvg`. -/
theorem too_early_guard_witness :
    ∃ st1 evs, scanLine (.fin 1 0) (60 * Second) false
        ⟨30 * Second, 0, 0, false⟩ "Recovered., 0/100".toList = some (st1, evs) ∧
      stops evs = 0 ∧ st1.timeStarted = 30 * Second ∧ st1.timeEstimated = 0 :=
  too_early_guard (.fin 1 0) (60 * Second) false ⟨30 * Second, 0, 0, false⟩
    "Recovered., 0/100".toList [", 0/100".toList, "0".toList] (by decide) (by decide)
    (by decide)

/-- C3: on a well-formed `Recovered.` line with `watchEstimated` set and
`timeEstimated <= delay` the stop action is not called and both timers are
kept, also when `timeStarted > delay` and the rate is below `minAvg`. -/
theorem estimated_escape (minAvg : F64) (delay : Int) (st : State)
    (t : Str) (m : List Str)
    (hp : HasPrefix t "Recovered.".toList = true)
    (hm : FindStringSubmatch rRec t = some m)
    (hte : st.timeEstimated ≤ delay) :
    ∃ st1 evs, scanLine minAvg delay true st t = some (st1, evs) ∧
      stops evs = 0 ∧ st1.timeStarted = st.timeStarted ∧
      st1.timeEstimated = st.timeEstimated := by
  rw [scanLine_recovered _ _ _ _ _ hp, hm]
  cases hjf : st.justFinished
  · by_cases hts : st.timeStarted ≤ delay
    · exact ⟨_, _, congrArg some (recoveredCase_early minAvg delay true st t m hjf hts),
        rfl, rfl, rfl⟩
    · exact ⟨_, _, congrArg some
        (recoveredCase_escape minAvg delay true st t m hjf hts ⟨hte, rfl⟩), rfl, rfl, rfl⟩
  · exact ⟨_, _, congrArg some (recoveredCase_justFinished minAvg delay true st t m hjf),
      rfl, rfl, rfl⟩

/-- C3, witness: `timeEstimated = 10s`, `delay = 60s`, `timeStarted = 120s`, no
item recovered since the baseline (rate `0 < minAvg = 1`). -/
theorem estimated_escape_witness :
    F64.lt (avgRate 0 0 (120 * Second)) (.fin 1 0) = true ∧
    ∃ st1 evs, scanLine (.fin 1 0) (60 * Second) true
        ⟨120 * Second, 10 * Second, 0, false⟩ "Recovered., 0/100".toList =
          some (st1, evs) ∧
      stops evs = 0 ∧ st1.timeStarted = 120 * Second ∧ st1.timeEstimated = 10 * Second :=
  ⟨by decide, estimated_escape (.fin 1 0) (60 * Second) ⟨120 * Second, 10 * Second, 0, false⟩
    "Recovered., 0/100".toList [", 0/100".toList, "0".toList] (by decide) (by decide)
    (by decide)⟩

/-- C4, as amended: on a well-formed `Recovered.` line read while `justFinished`
is set, the baseline `recoveredBefore` becomes the `recovered` of line 84 (the
`Atoi` of the capture), which is the recovered count `n` of the line when
`n < 2^63`: for a line whose first count pattern is `, <ds1>/<ds2>` with `ds1`
below `2^63` it is the number `ds1` writes. Nothing else in the state changes,
and the stop action is not called, whatever the count, `delay`, `minAvg`,
`watchEstimated` and the timers are. -/
theorem rebaseline (minAvg : F64) (delay : Int) (watchEstimated : Bool) (st : State)
    (t : Str) (m : List Str)
    (hp : HasPrefix t "Recovered.".toList = true)
    (hm : FindStringSubmatch rRec t = some m)
    (hjf : st.justFinished = true) :
    ∃ st1 evs, scanLine minAvg delay watchEstimated st t = some (st1, evs) ∧
      st1.recoveredBefore = Atoi (m.getD 1 []) ∧
      stops evs = 0 ∧ st1.timeStarted = st.timeStarted ∧
      st1.timeEstimated = st.timeEstimated ∧ st1.justFinished = true ∧
      (∀ a ds1 ds2 b, t = a ++ ',' :: ' ' :: ds1 ++ '/' :: ds2 ++ b →
        ¬ HasCountPattern a → ds1 ≠ [] → (∀ c ∈ ds1, c.isDigit = true) →
        ds2 ≠ [] → (∀ c ∈ ds2, c.isDigit = true) → decimalValue ds1 < 2 ^ 63 →
        st1.recoveredBefore = (decimalValue ds1 : Int)) := by
  rw [scanLine_recovered _ _ _ _ _ hp, hm]
  refine ⟨_, _, congrArg some
    (recoveredCase_justFinished minAvg delay watchEstimated st t m hjf),
    rfl, rfl, rfl, rfl, hjf, ?_⟩
  intro a ds1 ds2 b ht ha h1 hd1 h2 hd2 hfit
  rw [ht, findStringSubmatch_first_count a ds1 ds2 b ha h1 hd1 h2 hd2] at hm
  have hm1 : m.getD 1 [] = ds1 := by rw [← Option.some.inj hm]; rfl
  show Atoi (m.getD 1 []) = _
  rw [hm1]
  exact Atoi_digits ds1 h1 hd1 hfit

/-- C4, witness: after `Status: Exhausted`, the line `Recovered., 42/100` sets the
baseline to 42 without a stop, here with two minutes elapsed and `minAvg = 1`. -/
theorem rebaseline_witness :
    (readOutputFrom (.fin 1 0) (60 * Second) false ⟨120 * Second, 0, 0, false⟩
        ["Status: Exhausted".toList]).state = ⟨120 * Second, 0, 0, true⟩ ∧
    ∃ st1 evs, scanLine (.fin 1 0) (60 * Second) false
        ⟨120 * Second, 0, 0, true⟩ "Recovered., 42/100".toList = some (st1, evs) ∧
      st1.recoveredBefore = 42 ∧
      stops evs = 0 ∧ st1.timeStarted = 120 * Second ∧
      st1.timeEstimated = 0 ∧ st1.justFinished = true := by
  obtain ⟨st1, evs, h, h1, h2, h3, h4, h5, -⟩ :=
    rebaseline (.fin 1 0) (60 * Second) false ⟨120 * Second, 0, 0, true⟩
      "Recovered., 42/100".toList [", 42/100".toList, "42".toList] (by decide) (by decide) rfl
  exact ⟨by decide, st1, evs, h, h1.trans (by decide), h2, h3, h4, h5⟩

/-- C4, counterexample: read while `justFinished` is set, the well-formed line
`Recovered., 99999999999999999999/100` sets the baseline to
9223372036854775807, not to the count 99999999999999999999 it reports; so it is
in the run of `Status: Exhausted` followed by that line. -/
theorem rebaseline_counterexample :
    HasPrefix "Recovered., 99999999999999999999/100".toList "Recovered.".toList = true ∧
    FindStringSubmatch rRec "Recovered., 99999999999999999999/100".toList =
      some [", 99999999999999999999/100".toList, "99999999999999999999".toList] ∧
    decimalValue "99999999999999999999".toList = 99999999999999999999 ∧
    scanLine (.fin 1 0) (60 * Second) false ⟨0, 0, 0, true⟩
        "Recovered., 99999999999999999999/100".toList =
      some (⟨0, 0, 9223372036854775807, true⟩,
        [.echo "Recovered., 99999999999999999999/100".toList]) ∧
    (readOutput (.fin 1 0) (60 * Second)
      "Status: Exhausted\nRecovered., 99999999999999999999/100\n".toList
      false).state.recoveredBefore = 9223372036854775807 := by
  decide

/-! ## C5: the duration parser -/

/-- C5, as amended: for a text made of components `<digits> <unit>`, singular or
plural, each unit at most once and in any order, every component preceded by a
separator that contains no `<digits> <unit>` pattern and does not end in a
digit, with a last separator that contains no pattern, `parseTime` returns the
sum of the components (days times 24 hours, hours, minutes, seconds), provided
that sum is below `2^63` nanoseconds. Units that do not occur add nothing. -/
theorem duration_sum (blocks : List (Str × Component)) (last : Str)
    (hwf : ∀ b ∈ blocks, b.2.WellFormed)
    (hnd : (blocks.map (fun b => b.2.unit)).Nodup)
    (hsep : ∀ b ∈ blocks, NoPattern b.1 ∧ NoDigitAtEnd b.1)
    (hlast : NoPattern last)
    (hfit : (blocks.map (fun b => b.2.value)).sum < 2 ^ 63) :
    parseTime (assemble blocks last) = (blocks.map (fun b => b.2.value)).sum := by
  have hsum := sum_values_eq blocks hnd
  rw [hsum] at hfit ⊢
  have nn : ∀ u : TimeUnit, (0 : Int) ≤ (decimalValue (firstDigits u blocks) : Int) * u.mult :=
    fun u => mul_nonneg (Int.natCast_nonneg _) (le_trans (by decide) u.one_le_mult)
  have n1 := nn .day
  have n2 := nn .hour
  have n3 := nn .min
  have n4 := nn .sec
  have g1 := getDuration_assemble .day blocks last hwf hsep hlast (by omega)
  have g2 := getDuration_assemble .hour blocks last hwf hsep hlast (by omega)
  have g3 := getDuration_assemble .min blocks last hwf hsep hlast (by omega)
  have g4 := getDuration_assemble .sec blocks last hwf hsep hlast (by omega)
  have e1 : parseTime (assemble blocks last) =
      wrap64 (wrap64 (wrap64 (
        getDuration TimeUnit.day.re (assemble blocks last) TimeUnit.day.mult +
        getDuration TimeUnit.hour.re (assemble blocks last) TimeUnit.hour.mult) +
        getDuration TimeUnit.min.re (assemble blocks last) TimeUnit.min.mult) +
        getDuration TimeUnit.sec.re (assemble blocks last) TimeUnit.sec.mult) := rfl
  rw [e1, g1, g2, g3, g4]
  exact wrap64_sum4 _ _ _ _ n1 n2 n3 n4 hfit

/-- C5, witness: `1 day, 2 hours, 0 mins, 5 secs` is `26 * 3600 + 5` seconds. -/
theorem duration_sum_witness :
    assemble [([], ⟨.day, "1".toList, false⟩), (", ".toList, ⟨.hour, "2".toList, true⟩),
        (", ".toList, ⟨.min, "0".toList, true⟩), (", ".toList, ⟨.sec, "5".toList, true⟩)] [] =
      "1 day, 2 hours, 0 mins, 5 secs".toList ∧
    parseTime "1 day, 2 hours, 0 mins, 5 secs".toList = (26 * 3600 + 5) * Second := by
  refine ⟨by decide, ?_⟩
  have h := duration_sum
    [([], ⟨.day, "1".toList, false⟩), (", ".toList, ⟨.hour, "2".toList, true⟩),
      (", ".toList, ⟨.min, "0".toList, true⟩), (", ".toList, ⟨.sec, "5".toList, true⟩)] []
    (by decide) (by decide) (by decide) (by decide) (by decide)
  exact h.trans (by decide)

/-- C5, counterexample: the one-component text `200000 days` has a sum above
`2^63` nanoseconds and `parseTime` returns a negative duration; and in
`12 hours`, the component `2 hours` after the separator `1`, which contains no
pattern, `parseTime` returns twelve hours and not two. -/
theorem duration_sum_counterexample :
    (assemble [([], ⟨.day, "200000".toList, true⟩)] [] = "200000 days".toList ∧
      (⟨.day, "200000".toList, true⟩ : Component).value = 200000 * (24 * Hour) ∧
      parseTime "200000 days".toList = -1166744073709551616) ∧
    (assemble [("1".toList, ⟨.hour, "2".toList, true⟩)] [] = "12 hours".toList ∧
      NoPattern "1".toList ∧
      (⟨.hour, "2".toList, true⟩ : Component).value = 2 * Hour ∧
      parseTime "12 hours".toList = 12 * Hour) := by
  decide

/-! ## C6-C9: protocol violations and the echo (lines 70-106) -/

/-- C6: the loop body halts in the `panic` exactly on a line that has the prefix
`Recovered.` and no substring `, <digits>/<digits>`; a run over lines that all
respect the protocol never halts; and a run that meets such a line halts
there, with the state and the events it had after the lines before it, so that
the line updates nothing and no later line is processed. -/
theorem protocol_violation (minAvg : F64) (delay : Int) (watchEstimated : Bool) :
    (∀ st t, scanLine minAvg delay watchEstimated st t = none ↔
      (HasPrefix t "Recovered.".toList = true ∧ ¬ HasCountPattern t)) ∧
    (∀ st lines, (∀ x ∈ lines, ¬ Violates x) →
      (readOutputFrom minAvg delay watchEstimated st lines).panicked = false) ∧
    (∀ st pre t post, (∀ x ∈ pre, ¬ Violates x) → Violates t →
      readOutputFrom minAvg delay watchEstimated st (pre ++ t :: post) =
        ⟨(readOutputFrom minAvg delay watchEstimated st pre).state,
          (readOutputFrom minAvg delay watchEstimated st pre).events, true⟩) :=
  ⟨fun st t => scanLine_eq_none_iff minAvg delay watchEstimated st t,
    fun st lines h => (readOutputFrom_clean minAvg delay watchEstimated lines st h).1,
    fun st pre t post hpre ht => readOutputFrom_halt minAvg delay watchEstimated pre t post ht st hpre⟩

/-- C6, witness: the line `Recovered. blah` breaks the protocol, and a run that
meets it after a baseline of 7 halts with that baseline and one line printed. -/
theorem protocol_violation_witness :
    (HasPrefix "Recovered. blah".toList "Recovered.".toList = true ∧
      ¬ HasCountPattern "Recovered. blah".toList) ∧
    readOutputFrom (.fin 1 0) (60 * Second) false ⟨0, 0, 7, false⟩
        (["Status: Running".toList] ++ "Recovered. blah".toList ::
          ["Recovered., 9/10".toList]) =
      ⟨⟨0, 0, 7, false⟩, [.echo "Status: Running".toList], true⟩ := by
  have hv := ((protocol_violation (.fin 1 0) (60 * Second) false).1 State.init
    "Recovered. blah".toList).mp (by decide)
  refine ⟨hv, ?_⟩
  rw [(protocol_violation (.fin 1 0) (60 * Second) false).2.2 ⟨0, 0, 7, false⟩
    ["Status: Running".toList] "Recovered. blah".toList ["Recovered., 9/10".toList]
    (by
      intro x hx hviol
      rw [List.mem_singleton] at hx
      subst hx
      exact absurd hviol.1 (by decide)) hv]
  decide

/-- C7, as amended: when some line of the child output breaks the protocol or has
`MaxScanTokenSize` (65536) bytes or more, exactly the lines before the first
such line are echoed, one printed line each and in order (each printed line
starts with the line read, taken without the `\r` at its end, and is equal to
it outside the `Recovered.` case); that line and all later lines are not
echoed. The run ends in the `panic` when that line breaks the protocol, and
without one when it is too long. -/
theorem echo_until_halt (minAvg : F64) (delay : Int) (watchEstimated : Bool) (st : State)
    (r : Str) (pre : List Str) (t : Str) (post : List Str)
    (hr : splitLines r = pre ++ t :: post)
    (hfit : ∀ x ∈ pre, byteLen x < MaxScanTokenSize)
    (hpre : ∀ x ∈ pre, ¬ Violates (dropCR x))
    (ht : MaxScanTokenSize ≤ byteLen t ∨ Violates (dropCR t)) :
    (echoed (readOutputFrom minAvg delay watchEstimated st (Scanner.tokens r)).events).length =
      pre.length ∧
    List.Forall₂ (fun x o => dropCR x <+: o ∧
        (HasPrefix (dropCR x) "Recovered.".toList = false → o = dropCR x))
      pre (echoed (readOutputFrom minAvg delay watchEstimated st (Scanner.tokens r)).events) ∧
    ((readOutputFrom minAvg delay watchEstimated st (Scanner.tokens r)).panicked = true ↔
      byteLen t < MaxScanTokenSize) := by
  have hpre2 : ∀ x ∈ pre.map dropCR, ¬ Violates x := by
    intro x hx
    obtain ⟨y, hy, rfl⟩ := List.mem_map.mp hx
    exact hpre y hy
  obtain ⟨c1, c2⟩ := readOutputFrom_clean minAvg delay watchEstimated (pre.map dropCR) st hpre2
  have c3 := List.forall₂_map_left_iff.mp c2
  by_cases hlen : byteLen t < MaxScanTokenSize
  · have hv : Violates (dropCR t) := ht.resolve_left (by omega)
    obtain ⟨rest, hrest⟩ := Scanner.tokens_through r pre t post hr hfit hlen
    rw [hrest, readOutputFrom_halt minAvg delay watchEstimated (pre.map dropCR) (dropCR t) rest
      hv st hpre2]
    exact ⟨c3.length_eq.symm, c3, iff_of_true rfl hlen⟩
  · rw [Scanner.tokens_cut r pre t post hr hfit (by omega)]
    exact ⟨c3.length_eq.symm, c3, iff_of_false (by rw [c1]; exact Bool.false_ne_true) hlen⟩

/-- C7, witness: of three lines with `Recovered. blah` in the middle, one is
echoed, and the run ends in the `panic`. -/
theorem echo_until_halt_witness :
    (echoed (readOutput (.fin 1 0) (60 * Second)
      "first\nRecovered. blah\nlast\n".toList false).events).length = 1 ∧
    (readOutput (.fin 1 0) (60 * Second)
      "first\nRecovered. blah\nlast\n".toList false).panicked = true := by
  obtain ⟨h1, -, h3⟩ := echo_until_halt (.fin 1 0) (60 * Second) false State.init
    "first\nRecovered. blah\nlast\n".toList ["first".toList]
    "Recovered. blah".toList ["last".toList] (by decide) (by decide)
    (by
      intro x hx hviol
      rw [List.mem_singleton] at hx
      subst hx
      exact absurd hviol.1 (by decide))
    (Or.inr ((scanLine_eq_none_iff (.fin 1 0) (60 * Second) false State.init _).mp (by decide)))
  exact ⟨h1, h3.mpr (by decide)⟩

/-- C7, counterexample: of the three lines `first`, `Recovered. blah`, `last`
only `first` is echoed: the run ends in the `panic` of line 82, before the
`fmt.Println` of line 105. -/
theorem echo_despite_halting_counterexample :
    readOutput (.fin 1 0) (60 * Second) "first\nRecovered. blah\nlast\n".toList false =
      ⟨State.init, [.echo "first".toList], true⟩ ∧
    "Recovered. blah".toList ∉ echoed (readOutput (.fin 1 0) (60 * Second)
        "first\nRecovered. blah\nlast\n".toList false).events ∧
    "last".toList ∉ echoed (readOutput (.fin 1 0) (60 * Second)
        "first\nRecovered. blah\nlast\n".toList false).events := by
  decide

/-- C8, as amended: when every line of the child output has fewer than
`MaxScanTokenSize` (65536) bytes and none breaks the protocol, the run does not
halt and prints exactly one line per line read, in order; a line without the
prefix `Recovered.` is printed as read, without the `\r` at its end if it has
one, and a `Recovered.` line is printed with the line read (again without the
`\r` at its end) as a prefix. At the level of one iteration: whatever branch is
taken, one line is printed, and it is the line read when `timeStarted = 0`. -/
theorem line_for_line_echo (minAvg : F64) (delay : Int) (watchEstimated : Bool) (st : State)
    (r : Str)
    (hfit : ∀ x ∈ splitLines r, byteLen x < MaxScanTokenSize)
    (hcl : ∀ x ∈ splitLines r, ¬ Violates (dropCR x)) :
    (readOutputFrom minAvg delay watchEstimated st (Scanner.tokens r)).panicked = false ∧
    (echoed (readOutputFrom minAvg delay watchEstimated st (Scanner.tokens r)).events).length =
      (splitLines r).length ∧
    List.Forall₂ (fun t o => dropCR t <+: o ∧
        (HasPrefix (dropCR t) "Recovered.".toList = false → o = dropCR t))
      (splitLines r)
      (echoed (readOutputFrom minAvg delay watchEstimated st (Scanner.tokens r)).events) ∧
    (∀ t : Str, t.getLast? ≠ some '\r' → dropCR t = t) ∧
    (∀ s t s1 evs, scanLine minAvg delay watchEstimated s t = some (s1, evs) →
      ∃ o, echoed evs = [o] ∧ t <+: o ∧ (s.timeStarted = 0 → o = t)) := by
  have hcl2 : ∀ x ∈ (splitLines r).map dropCR, ¬ Violates x := by
    intro x hx
    obtain ⟨y, hy, rfl⟩ := List.mem_map.mp hx
    exact hcl y hy
  rw [Scanner.tokens_of_fit r hfit]
  obtain ⟨h1, h2⟩ := readOutputFrom_clean minAvg delay watchEstimated _ st hcl2
  have h3 := List.forall₂_map_left_iff.mp h2
  refine ⟨h1, h3.length_eq.symm, h3, fun t ht => if_neg ht, ?_⟩
  intro s t s1 evs hs
  obtain ⟨o, ho, hpre, -, h0, -⟩ := scanLine_echo _ _ _ _ _ _ _ hs
  exact ⟨o, ho, hpre, fun hz => h0 (le_of_eq hz)⟩

/-- C8, witness: a status block of four lines, read two minutes into a unit
with a rate below `minAvg`: four lines are printed. -/
theorem line_for_line_echo_witness :
    (echoed (readOutput (.fin 1 0) (60 * Second)
      "Status: Running\nTime.Started: 2 mins\nRecovered., 1/100\nProgress: 5\n".toList
      false).events).length = 4 :=
  (line_for_line_echo (.fin 1 0) (60 * Second) false State.init
    "Status: Running\nTime.Started: 2 mins\nRecovered., 1/100\nProgress: 5\n".toList
    (by decide)
    (by
      intro x hx hviol
      have hs := (scanLine_eq_none_iff (.fin 1 0) (60 * Second) false State.init _).mpr hviol
      rw [show splitLines
          "Status: Running\nTime.Started: 2 mins\nRecovered., 1/100\nProgress: 5\n".toList =
          ["Status: Running".toList, "Time.Started: 2 mins".toList,
            "Recovered., 1/100".toList, "Progress: 5".toList] by decide] at hx
      simp only [List.mem_cons, List.mem_singleton, List.not_mem_nil, or_false] at hx
      rcases hx with rfl | rfl | rfl | rfl <;> exact absurd hs (by decide))).2.1.trans
    (by decide)

/-- C8, counterexample: of the three lines `first`, 70000 letters `a` and `last`,
none of which breaks the protocol, only `first` is echoed, and the run ends
without a `panic`: the scanner gives up at the line that does not fit in its
buffer. And the line `Progress: 5` written with `\r\n` at its end is echoed
without the `\r`. -/
theorem line_for_line_echo_counterexample :
    splitLines (unlines ["first".toList, List.replicate 70000 'a', "last".toList]) =
      ["first".toList, List.replicate 70000 'a', "last".toList] ∧
    (∀ x ∈ ["first".toList, List.replicate 70000 'a', "last".toList],
      HasPrefix x "Recovered.".toList = false) ∧
    readOutput (.fin 1 0) (60 * Second)
        (unlines ["first".toList, List.replicate 70000 'a', "last".toList]) false =
      ⟨State.init, [.echo "first".toList], false⟩ ∧
    splitLines "Progress: 5\r\n".toList = ["Progress: 5\r".toList] ∧
    readOutput (.fin 1 0) (60 * Second) "Progress: 5\r\n".toList false =
      ⟨State.init, [.echo "Progress: 5".toList], false⟩ := by
  have hsplit : splitLines (unlines ["first".toList, List.replicate 70000 'a', "last".toList]) =
      ["first".toList, List.replicate 70000 'a', "last".toList] := by
    apply splitLines_unlines
    intro l hl
    simp only [List.mem_cons, List.mem_singleton, List.not_mem_nil, or_false] at hl
    rcases hl with rfl | rfl | rfl
    · decide
    · intro hm
      exact absurd (List.eq_of_mem_replicate hm) (by decide)
    · decide
  refine ⟨hsplit, ?_, ?_, by decide, by decide⟩
  · intro x hx
    simp only [List.mem_cons, List.mem_singleton, List.not_mem_nil, or_false] at hx
    rcases hx with rfl | rfl | rfl
    · decide
    · rfl
    · decide
  · have hcut := Scanner.tokens_cut
      (unlines ["first".toList, List.replicate 70000 'a', "last".toList])
      ["first".toList] (List.replicate 70000 'a') ["last".toList] hsplit
      (by decide) (by rw [byteLen_replicate]; decide)
    unfold readOutput
    rw [hcut]
    decide

/-- C9, as amended: on a well-formed `Recovered.` line read with `timeStarted > 0`
the printed line is the line read followed by a blank, `avg/min:` and, with no
blank in between, the rate rendered by `%.2f` (an optional minus sign, the
integer digits, a point and two digits), where the rate is
`(recovered - recoveredBefore) * 1 minute / timeStarted` with the baseline held
before the line; with `timeStarted = 0` the line is printed as read. -/
theorem rate_annotated (minAvg : F64) (delay : Int) (watchEstimated : Bool) (st : State)
    (t : Str) (m : List Str)
    (hp : HasPrefix t "Recovered.".toList = true)
    (hm : FindStringSubmatch rRec t = some m) :
    ∃ st1 evs, scanLine minAvg delay watchEstimated st t = some (st1, evs) ∧
      (0 < st.timeStarted →
        echoed evs = [t ++ " avg/min:".toList ++
          fmt2f (avgRate (Atoi (m.getD 1 [])) st.recoveredBefore st.timeStarted)] ∧
        ∃ sign ip d1 d2,
          fmt2f (avgRate (Atoi (m.getD 1 [])) st.recoveredBefore st.timeStarted) =
            sign ++ ip ++ ['.', d1, d2] ∧
          (sign = [] ∨ sign = ['-']) ∧ ip ≠ [] ∧ (∀ c ∈ ip, c.isDigit = true) ∧
          d1.isDigit = true ∧ d2.isDigit = true) ∧
      (st.timeStarted = 0 → echoed evs = [t]) := by
  rw [scanLine_recovered _ _ _ _ _ hp, hm]
  refine ⟨(recoveredCase minAvg delay watchEstimated st t m).1,
    (recoveredCase minAvg delay watchEstimated st t m).2, rfl, ?_, ?_⟩
  · intro hpos
    constructor
    · rcases recoveredCase_events minAvg delay watchEstimated st t m with h | h <;>
        rw [h, rateAndLine_pos _ _ _ hpos] <;> rfl
    · obtain ⟨fm, fe, hfin⟩ :=
        avgRate_finite (Atoi (m.getD 1 [])) st.recoveredBefore st.timeStarted hpos
      rw [hfin]
      exact fmt2f_shape fm fe
  · intro h0
    rcases recoveredCase_events minAvg delay watchEstimated st t m with h | h <;>
      rw [h, rateAndLine_nonpos _ _ _ (le_of_eq h0)] <;> rfl

/-- C9, witness: one item above the baseline after two minutes is printed as
` avg/min:0.50`. -/
theorem rate_annotated_witness :
    ∃ st1 evs, scanLine (.fin 1 0) (60 * Second) false ⟨120 * Second, 0, 41, false⟩
        "Recovered., 42/100".toList = some (st1, evs) ∧
      echoed evs = ["Recovered., 42/100 avg/min:0.50".toList] := by
  obtain ⟨st1, evs, h, h1, -⟩ := rate_annotated (.fin 1 0) (60 * Second) false
    ⟨120 * Second, 0, 41, false⟩ "Recovered., 42/100".toList
    [", 42/100".toList, "42".toList] (by decide) (by decide)
  exact ⟨st1, evs, h, (h1 (by decide)).1.trans (by decide)⟩

/-- C9, counterexample: the line printed for `Recovered., 42/100` with rate 0.5
ends in ` avg/min:0.50`; it is not the line read followed by `avg/min: 0.50`,
with or without a blank in front. -/
theorem rate_annotated_counterexample :
    echoed (readOutputFrom (.fin 1 0) (60 * Second) false ⟨120 * Second, 0, 41, false⟩
        ["Recovered., 42/100".toList]).events =
      ["Recovered., 42/100 avg/min:0.50".toList] ∧
    echoed (readOutputFrom (.fin 1 0) (60 * Second) false ⟨120 * Second, 0, 41, false⟩
        ["Recovered., 42/100".toList]).events ≠
      ["Recovered., 42/100".toList ++ "avg/min: 0.50".toList] ∧
    echoed (readOutputFrom (.fin 1 0) (60 * Second) false ⟨120 * Second, 0, 41, false⟩
        ["Recovered., 42/100".toList]).events ≠
      ["Recovered., 42/100".toList ++ " avg/min: 0.50".toList] := by
  decide

/-! ## C10: the first lines of a unit -/

/-- C10, as amended: with `timeStarted = 0` and a `delay` that is not negative, a
well-formed `Recovered.` line never calls the stop action, whatever `minAvg`
and `watchEstimated` are. -/
theorem unknown_elapsed_no_stop (minAvg : F64) (delay : Int) (watchEstimated : Bool)
    (st : State) (t : Str) (m : List Str)
    (hp : HasPrefix t "Recovered.".toList = true)
    (hm : FindStringSubmatch rRec t = some m)
    (h0 : st.timeStarted = 0) (hd : 0 ≤ delay) :
    ∃ st1 evs, scanLine minAvg delay watchEstimated st t = some (st1, evs) ∧
      stops evs = 0 ∧ echoed evs = [t] := by
  have hts : st.timeStarted ≤ delay := by omega
  have hl : (rateAndLine st t (Atoi (m.getD 1 []))).2 = t := by
    rw [rateAndLine_nonpos st t _ (by omega)]
  rw [scanLine_recovered _ _ _ _ _ hp, hm]
  cases hjf : st.justFinished
  · refine ⟨_, _, congrArg some (recoveredCase_early minAvg delay watchEstimated st t m hjf hts),
      rfl, ?_⟩
    simp only [echoed, hl]
  · refine ⟨_, _, congrArg some
      (recoveredCase_justFinished minAvg delay watchEstimated st t m hjf), rfl, ?_⟩
    simp only [echoed, hl]

/-- C10, witness: the first `Recovered.` line of a run, default flags. -/
theorem unknown_elapsed_no_stop_witness :
    ∃ st1 evs, scanLine (.fin 1 0) (60 * Second) false State.init
        "Recovered., 0/100".toList = some (st1, evs) ∧
      stops evs = 0 ∧ echoed evs = ["Recovered., 0/100".toList] :=
  unknown_elapsed_no_stop (.fin 1 0) (60 * Second) false State.init
    "Recovered., 0/100".toList [", 0/100".toList, "0".toList] (by decide) (by decide) rfl
    (by decide)

/-- C10, counterexample: with the flag `-d=-1s` the first `Recovered.` line of a
run, read while `timeStarted = 0`, reaches the comparison of line 100 with
`avg = 0 < minAvg = 1` and calls the stop action. -/
theorem unknown_elapsed_counterexample :
    (readOutput (.fin 1 0) (-1 * Second) "Recovered., 0/100\n".toList false).events =
      [.stop, .echo "Recovered., 0/100".toList] := by
  decide

/-! ## Lemmas on the cases of the switch -/

/-- `HasPrefix` is the prefix relation. -/
theorem hasPrefix_iff (t p : Str) : HasPrefix t p = true ↔ p <+: t := by
  unfold HasPrefix
  exact List.isPrefixOf_iff_prefix

/-- A text does not start with two words of which neither starts the other. -/
theorem hasPrefix_exclusive (p q t : Str) (h1 : ¬ p <+: q) (h2 : ¬ q <+: p)
    (hp : HasPrefix t p = true) : HasPrefix t q = false := by
  cases hq : HasPrefix t q with
  | false => rfl
  | true =>
    rcases List.prefix_or_prefix_of_prefix ((hasPrefix_iff t p).mp hp)
      ((hasPrefix_iff t q).mp hq) with h | h
    · exact absurd h h1
    · exact absurd h h2

/-- The `Status` case of the switch. -/
theorem scanLine_status (minAvg : F64) (delay : Int) (we : Bool) (st : State) (t : Str)
    (h : HasPrefix t "Status".toList = true) :
    scanLine minAvg delay we st t =
      some ({ st with justFinished :=
        (Contains t ": Exhausted".toList || Contains t ": Bypass".toList) }, [.echo t]) := by
  unfold scanLine
  rw [if_pos h]

/-- The `Time.Started` case of the switch. -/
theorem scanLine_timeStarted (minAvg : F64) (delay : Int) (we : Bool) (st : State) (t : Str)
    (h : HasPrefix t "Time.Started".toList = true) :
    scanLine minAvg delay we st t =
      some ({ st with timeStarted := parseTime t }, [.echo t]) := by
  have h1 : HasPrefix t "Status".toList = false :=
    hasPrefix_exclusive _ _ t (by decide) (by decide) h
  unfold scanLine
  rw [h1, if_pos h]
  simp

/-- The `Time.Estimated` case of the switch. -/
theorem scanLine_timeEstimated (minAvg : F64) (delay : Int) (we : Bool) (st : State)
    (t : Str) (h : HasPrefix t "Time.Estimated".toList = true) :
    scanLine minAvg delay we st t =
      some ({ st with timeEstimated := parseTime t }, [.echo t]) := by
  have h1 : HasPrefix t "Status".toList = false :=
    hasPrefix_exclusive _ _ t (by decide) (by decide) h
  have h2 : HasPrefix t "Time.Started".toList = false :=
    hasPrefix_exclusive _ _ t (by decide) (by decide) h
  unfold scanLine
  rw [h1, h2, if_pos h]
  simp

/-- The default case of the switch. -/
theorem scanLine_other (minAvg : F64) (delay : Int) (we : Bool) (st : State) (t : Str)
    (h1 : HasPrefix t "Status".toList = false)
    (h2 : HasPrefix t "Time.Started".toList = false)
    (h3 : HasPrefix t "Time.Estimated".toList = false)
    (h4 : HasPrefix t "Recovered.".toList = false) :
    scanLine minAvg delay we st t = some (st, [.echo t]) := by
  unfold scanLine
  rw [h1, h2, h3, h4]
  simp

/-- `Contains` is the substring relation. -/
theorem contains_iff (s sub : Str) : Contains s sub = true ↔ sub <:+: s := by
  induction s with
  | nil =>
    simp only [Contains, List.isPrefixOf_iff_prefix]
    constructor
    · intro h; exact h.isInfix
    · intro h; rw [List.eq_nil_of_infix_nil h]
  | cons c cs ih =>
    simp only [Contains, Bool.or_eq_true, List.isPrefixOf_iff_prefix, ih]
    exact List.infix_cons_iff.symm

/-! ## Lemmas on the pipe attachment (`watchEstimated = false`) -/

/-- The rate and the printed line do not depend on `timeEstimated`. -/
theorem rateAndLine_congr (st su : State) (t : Str) (r : Int) (h : EqExceptEstimated st su) :
    rateAndLine st t r = rateAndLine su t r := by
  unfold rateAndLine
  rw [h.1, h.2.1]

/-- The number of stops of a concatenation. -/
theorem stops_append (a b : List Event) : stops (a ++ b) = stops a + stops b := by
  induction a with
  | nil => simp [stops]
  | cons e a ih =>
    cases e with
    | stop => rw [List.cons_append, stops, stops, ih]; omega
    | echo l => rw [List.cons_append, stops, stops, ih]

/-- Without the escape clause, the `Recovered.` case does the same from two
states that differ in `timeEstimated` only: same events, and states that
again differ in `timeEstimated` only, or not at all after a stop. -/
theorem recoveredCase_pipe_congr (minAvg : F64) (delay : Int) (st su : State) (t : Str)
    (m : List Str) (h : EqExceptEstimated st su) :
    (recoveredCase minAvg delay false st t m).2 = (recoveredCase minAvg delay false su t m).2 ∧
    EqExceptEstimated (recoveredCase minAvg delay false st t m).1
      (recoveredCase minAvg delay false su t m).1 ∧
    (stops (recoveredCase minAvg delay false st t m).2 = 1 →
      (recoveredCase minAvg delay false st t m).1 =
        (recoveredCase minAvg delay false su t m).1) := by
  obtain ⟨h1, h2, h3⟩ := h
  have hr := rateAndLine_congr st su t (Atoi (m.getD 1 [])) ⟨h1, h2, h3⟩
  have hne : ∀ s : State, ¬ (s.timeEstimated ≤ delay ∧ false = true) := fun s hc => by
    cases hc.2
  cases hjf : st.justFinished
  · have hjf2 : su.justFinished = false := by rw [← h3]; exact hjf
    by_cases hts : st.timeStarted ≤ delay
    · have hts2 : su.timeStarted ≤ delay := by rw [← h1]; exact hts
      rw [recoveredCase_early _ _ _ _ _ _ hjf hts, recoveredCase_early _ _ _ _ _ _ hjf2 hts2, hr]
      exact ⟨rfl, ⟨h1, h2, h3⟩, fun hs => by simp [stops] at hs⟩
    · have hts2 : ¬ su.timeStarted ≤ delay := by rw [← h1]; exact hts
      cases hlt : F64.lt (rateAndLine st t (Atoi (m.getD 1 []))).1 minAvg
      · rw [recoveredCase_keep _ _ _ _ _ _ hjf hts (hne st) hlt,
          recoveredCase_keep _ _ _ _ _ _ hjf2 hts2 (hne su) (by rw [← hr]; exact hlt), hr]
        exact ⟨rfl, ⟨h1, h2, h3⟩, fun hs => by simp [stops] at hs⟩
      · rw [recoveredCase_stop _ _ _ _ _ _ hjf hts (hne st) hlt,
          recoveredCase_stop _ _ _ _ _ _ hjf2 hts2 (hne su) (by rw [← hr]; exact hlt), hr]
        refine ⟨rfl, ⟨rfl, h2, h3⟩, fun _ => ?_⟩
        cases st; cases su; simp_all
  · have hjf2 : su.justFinished = true := by rw [← h3]; exact hjf
    rw [recoveredCase_justFinished _ _ _ _ _ _ hjf,
      recoveredCase_justFinished _ _ _ _ _ _ hjf2, hr]
    exact ⟨rfl, ⟨h1, rfl, h3⟩, fun hs => by simp [stops] at hs⟩

/-- Without the escape clause, one iteration on the same line from two states
that differ in `timeEstimated` only: both panic, or both complete with the
same events and states that differ in `timeEstimated` only, or not at all
after a stop. -/
theorem scanLine_pipe_congr (minAvg : F64) (delay : Int) (st su : State) (t : Str)
    (h : EqExceptEstimated st su) :
    (scanLine minAvg delay false st t = none ∧ scanLine minAvg delay false su t = none) ∨
    ∃ s1 s2 evs, scanLine minAvg delay false st t = some (s1, evs) ∧
      scanLine minAvg delay false su t = some (s2, evs) ∧ EqExceptEstimated s1 s2 ∧
      (stops evs = 1 → s1 = s2) := by
  have hno : ∀ s1 s2 : State, stops [Event.echo t] = 1 → s1 = s2 := fun _ _ hs =>
    absurd hs (by simp [stops])
  by_cases h1 : HasPrefix t "Status".toList = true
  · right
    exact ⟨_, _, _, scanLine_status _ _ _ st t h1, scanLine_status _ _ _ su t h1,
      ⟨h.1, h.2.1, rfl⟩, hno _ _⟩
  by_cases h2 : HasPrefix t "Time.Started".toList = true
  · right
    exact ⟨_, _, _, scanLine_timeStarted _ _ _ st t h2, scanLine_timeStarted _ _ _ su t h2,
      ⟨rfl, h.2.1, h.2.2⟩, hno _ _⟩
  by_cases h3 : HasPrefix t "Time.Estimated".toList = true
  · right
    exact ⟨_, _, _, scanLine_timeEstimated _ _ _ st t h3, scanLine_timeEstimated _ _ _ su t h3,
      ⟨h.1, h.2.1, h.2.2⟩, hno _ _⟩
  by_cases h4 : HasPrefix t "Recovered.".toList = true
  · rw [scanLine_recovered _ _ _ st t h4, scanLine_recovered _ _ _ su t h4]
    cases hm : FindStringSubmatch rRec t with
    | none => exact Or.inl ⟨rfl, rfl⟩
    | some m =>
      right
      obtain ⟨e1, e2, e3⟩ := recoveredCase_pipe_congr minAvg delay st su t m h
      exact ⟨(recoveredCase minAvg delay false st t m).1, (recoveredCase minAvg delay false su t m).1,
        (recoveredCase minAvg delay false st t m).2, rfl, by rw [e1]; rfl, e2, e3⟩
  · right
    simp only [Bool.not_eq_true] at h1 h2 h3 h4
    exact ⟨_, _, _, scanLine_other _ _ _ st t h1 h2 h3 h4, scanLine_other _ _ _ su t h1 h2 h3 h4,
      h, hno _ _⟩

/-- Without the escape clause, two runs whose lines differ in the content of
`Time.Estimated` lines only, from states that differ in `timeEstimated` only:
both end the same way, call the stop action as often, produce the same events
up to the echoes of the `Time.Estimated` lines, and end in states that differ
in `timeEstimated` only. -/
theorem readOutputFrom_pipe_congr (minAvg : F64) (delay : Int) (l1 l2 : List Str)
    (hl : List.Forall₂ SameButEstimated l1 l2) :
    ∀ st su, EqExceptEstimated st su →
      (readOutputFrom minAvg delay false st l1).panicked =
        (readOutputFrom minAvg delay false su l2).panicked ∧
      stops (readOutputFrom minAvg delay false st l1).events =
        stops (readOutputFrom minAvg delay false su l2).events ∧
      List.Forall₂ SameEventButEstimated (readOutputFrom minAvg delay false st l1).events
        (readOutputFrom minAvg delay false su l2).events ∧
      EqExceptEstimated (readOutputFrom minAvg delay false st l1).state
        (readOutputFrom minAvg delay false su l2).state := by
  induction hl with
  | nil => intro st su h; exact ⟨rfl, rfl, List.Forall₂.nil, h⟩
  | @cons t u ts us htu _ ih =>
    intro st su h
    have key : (scanLine minAvg delay false st t = none ∧
          scanLine minAvg delay false su u = none) ∨
        ∃ s1 s2 e1 e2, scanLine minAvg delay false st t = some (s1, e1) ∧
          scanLine minAvg delay false su u = some (s2, e2) ∧ EqExceptEstimated s1 s2 ∧
          stops e1 = stops e2 ∧ List.Forall₂ SameEventButEstimated e1 e2 := by
      rcases htu with rfl | ⟨ht, hu⟩
      · rcases scanLine_pipe_congr minAvg delay st su t h with hn | ⟨s1, s2, evs, a, b, c⟩
        · exact Or.inl hn
        · exact Or.inr ⟨s1, s2, evs, evs, a, b, c.1, rfl,
            List.forall₂_same.mpr (fun _ _ => Or.inl rfl)⟩
      · right
        exact ⟨_, _, _, _, scanLine_timeEstimated _ _ _ st t ht,
          scanLine_timeEstimated _ _ _ su u hu, ⟨h.1, h.2.1, h.2.2⟩, rfl,
          List.Forall₂.cons (Or.inr ⟨t, u, rfl, rfl, ht, hu⟩) List.Forall₂.nil⟩
    rcases key with ⟨a, b⟩ | ⟨s1, s2, e1, e2, a, b, c, d, e⟩
    · simp only [readOutputFrom, a, b]
      refine ⟨?_, ?_, ?_, ?_⟩ <;> first | trivial | exact List.Forall₂.nil
    · obtain ⟨i1, i2, i3, i4⟩ := ih s1 s2 c
      simp only [readOutputFrom, a, b]
      refine ⟨i1, ?_, ?_, i4⟩
      · rw [stops_append, stops_append, d, i2]
      · exact List.rel_append e i3

/-- A prefix that does not end in `\r` is still a prefix after `dropCR`. -/
theorem hasPrefix_dropCR (t p : Str) (hp : HasPrefix t p = true)
    (hne : p.getLast? ≠ some '\r') : HasPrefix (dropCR t) p = true := by
  obtain ⟨rest, rfl⟩ := (hasPrefix_iff t p).mp hp
  unfold dropCR
  split
  · rename_i hlast
    rcases List.eq_nil_or_concat rest with rfl | ⟨xs, x, rfl⟩
    · rw [List.append_nil] at hlast
      exact absurd hlast hne
    · rw [List.concat_eq_append, ← List.append_assoc, List.dropLast_concat]
      exact (hasPrefix_iff _ _).mpr ⟨xs, rfl⟩
  · exact hp

/-- Lines that differ in the content of `Time.Estimated` lines only still do so
after `dropCR`. -/
theorem sameButEstimated_dropCR (t u : Str) (h : SameButEstimated t u) :
    SameButEstimated (dropCR t) (dropCR u) := by
  rcases h with rfl | ⟨ht, hu⟩
  · exact Or.inl rfl
  · exact Or.inr ⟨hasPrefix_dropCR t _ ht (by decide), hasPrefix_dropCR u _ hu (by decide)⟩

/-- Contents whose lines all fit in the buffer and differ in the content of
`Time.Estimated` lines only deliver tokens that differ in the same way. -/
theorem Scanner.tokens_sameButEstimated (r1 r2 : Str)
    (h : List.Forall₂ SameButEstimated (splitLines r1) (splitLines r2))
    (h1 : ∀ x ∈ splitLines r1, byteLen x < MaxScanTokenSize)
    (h2 : ∀ x ∈ splitLines r2, byteLen x < MaxScanTokenSize) :
    List.Forall₂ SameButEstimated (Scanner.tokens r1) (Scanner.tokens r2) := by
  rw [Scanner.tokens_of_fit r1 h1, Scanner.tokens_of_fit r2 h2, List.forall₂_map_left_iff,
    List.forall₂_map_right_iff]
  exact h.imp (fun a b hab => sameButEstimated_dropCR a b hab)

/-! ## C11-C12: the pipe attachment and the `Status` lines -/

/-- C11, as amended. With `watchEstimated = false`: on a well-formed `Recovered.`
line read with `justFinished` false, `timeStarted > delay` and
`timeStarted > 0`, the stop action is called (once) exactly when the rate of
line 87 is below `minAvg`. On any line, from two states that differ in
`timeEstimated` only, both iterations halt or both complete with the same
events (the call or not, and the line printed) and with states that agree in
every variable but the `timeEstimated` they started to differ in, and in that
one too after a stop. For two whole runs, from such states, whose lines read
differ in the content of `Time.Estimated` lines only: same ending, same number
of stops, same events except for the echoes of those `Time.Estimated` lines,
and final states that differ in `timeEstimated` only; so it is for two calls
of `readOutput` whose scanners deliver such lines, as they do when the lines of
the two child outputs have fewer than `MaxScanTokenSize` (65536) bytes each and
differ in the content of `Time.Estimated` lines only. -/
theorem pipe_rate_alone (minAvg : F64) (delay : Int) :
    (∀ (st : State) (t : Str) (m : List Str),
      HasPrefix t "Recovered.".toList = true → FindStringSubmatch rRec t = some m →
      st.justFinished = false → delay < st.timeStarted → 0 < st.timeStarted →
      ∃ s1 evs, scanLine minAvg delay false st t = some (s1, evs) ∧
        (stops evs = 1 ↔
          F64.lt (avgRate (Atoi (m.getD 1 [])) st.recoveredBefore st.timeStarted) minAvg =
            true) ∧
        (stops evs = 0 ↔
          F64.lt (avgRate (Atoi (m.getD 1 [])) st.recoveredBefore st.timeStarted) minAvg =
            false)) ∧
    (∀ (st su : State) (t : Str), EqExceptEstimated st su →
      (scanLine minAvg delay false st t = none ∧ scanLine minAvg delay false su t = none) ∨
      ∃ s1 s2 evs, scanLine minAvg delay false st t = some (s1, evs) ∧
        scanLine minAvg delay false su t = some (s2, evs) ∧
        EqExceptEstimated s1 s2 ∧ (stops evs = 1 → s1 = s2)) ∧
    (∀ (st su : State) (l1 l2 : List Str), EqExceptEstimated st su →
      List.Forall₂ SameButEstimated l1 l2 →
      (readOutputFrom minAvg delay false st l1).panicked =
        (readOutputFrom minAvg delay false su l2).panicked ∧
      stops (readOutputFrom minAvg delay false st l1).events =
        stops (readOutputFrom minAvg delay false su l2).events ∧
      List.Forall₂ SameEventButEstimated (readOutputFrom minAvg delay false st l1).events
        (readOutputFrom minAvg delay false su l2).events ∧
      EqExceptEstimated (readOutputFrom minAvg delay false st l1).state
        (readOutputFrom minAvg delay false su l2).state) ∧
    (∀ r1 r2 : Str, List.Forall₂ SameButEstimated (Scanner.tokens r1) (Scanner.tokens r2) →
      (readOutput minAvg delay r1 false).panicked = (readOutput minAvg delay r2 false).panicked ∧
      stops (readOutput minAvg delay r1 false).events =
        stops (readOutput minAvg delay r2 false).events ∧
      List.Forall₂ SameEventButEstimated (readOutput minAvg delay r1 false).events
        (readOutput minAvg delay r2 false).events ∧
      EqExceptEstimated (readOutput minAvg delay r1 false).state
        (readOutput minAvg delay r2 false).state) ∧
    (∀ r1 r2 : Str, List.Forall₂ SameButEstimated (splitLines r1) (splitLines r2) →
      (∀ x ∈ splitLines r1, byteLen x < MaxScanTokenSize) →
      (∀ x ∈ splitLines r2, byteLen x < MaxScanTokenSize) →
      (readOutput minAvg delay r1 false).panicked = (readOutput minAvg delay r2 false).panicked ∧
      stops (readOutput minAvg delay r1 false).events =
        stops (readOutput minAvg delay r2 false).events ∧
      List.Forall₂ SameEventButEstimated (readOutput minAvg delay r1 false).events
        (readOutput minAvg delay r2 false).events ∧
      EqExceptEstimated (readOutput minAvg delay r1 false).state
        (readOutput minAvg delay r2 false).state) := by
  refine ⟨?_, fun st su t h => scanLine_pipe_congr minAvg delay st su t h,
    fun st su l1 l2 h hl => readOutputFrom_pipe_congr minAvg delay l1 l2 hl st su h,
    fun r1 r2 hl => readOutputFrom_pipe_congr minAvg delay _ _ hl State.init State.init
      ⟨rfl, rfl, rfl⟩,
    fun r1 r2 hl h1 h2 => readOutputFrom_pipe_congr minAvg delay _ _
      (Scanner.tokens_sameButEstimated r1 r2 hl h1 h2) State.init State.init ⟨rfl, rfl, rfl⟩⟩
  intro st t m hp hm hjf hts hpos
  have h2 : ¬ st.timeStarted ≤ delay := not_le.mpr hts
  have h3 : ¬ (st.timeEstimated ≤ delay ∧ false = true) := fun hc => by cases hc.2
  have hr := rateAndLine_pos st t (Atoi (m.getD 1 [])) hpos
  rw [scanLine_recovered _ _ _ _ _ hp, hm]
  cases hlt : F64.lt (avgRate (Atoi (m.getD 1 [])) st.recoveredBefore st.timeStarted) minAvg
  · have hk := recoveredCase_keep minAvg delay false st t m hjf h2 h3 (by rw [hr]; exact hlt)
    refine ⟨_, _, congrArg some hk, ?_, ?_⟩ <;> simp [stops]
  · have hk := recoveredCase_stop minAvg delay false st t m hjf h2 h3 (by rw [hr]; exact hlt)
    refine ⟨_, _, congrArg some hk, ?_, ?_⟩ <;> simp [stops]

/-- C11, witness: two minutes into a unit with nothing recovered, once with
five seconds estimated and once with an hour: the stop action is called in
both, and two runs that differ in their `Time.Estimated` line call it as often. -/
theorem pipe_rate_alone_witness :
    (∃ s1 evs, scanLine (.fin 1 0) (60 * Second) false ⟨120 * Second, 5 * Second, 0, false⟩
        "Recovered., 0/100".toList = some (s1, evs) ∧ stops evs = 1) ∧
    (∃ s1 s2 evs, scanLine (.fin 1 0) (60 * Second) false ⟨120 * Second, 5 * Second, 0, false⟩
        "Recovered., 0/100".toList = some (s1, evs) ∧
      scanLine (.fin 1 0) (60 * Second) false ⟨120 * Second, 3600 * Second, 0, false⟩
        "Recovered., 0/100".toList = some (s2, evs) ∧ EqExceptEstimated s1 s2) ∧
    stops (readOutput (.fin 1 0) (60 * Second)
        "Time.Started: 2 mins\nTime.Estimated: 5 secs\nRecovered., 0/100\n".toList false).events =
      stops (readOutput (.fin 1 0) (60 * Second)
        "Time.Started: 2 mins\nTime.Estimated: 1 hour\nRecovered., 0/100\n".toList
        false).events := by
  obtain ⟨h1, h2, -, h4, -⟩ := pipe_rate_alone (.fin 1 0) (60 * Second)
  obtain ⟨s1, evs, a, b, -⟩ := h1 ⟨120 * Second, 5 * Second, 0, false⟩
    "Recovered., 0/100".toList [", 0/100".toList, "0".toList] (by decide) (by decide) rfl
    (by decide) (by decide)
  refine ⟨⟨s1, evs, a, b.mpr (by decide)⟩, ?_, ?_⟩
  · rcases h2 ⟨120 * Second, 5 * Second, 0, false⟩ ⟨120 * Second, 3600 * Second, 0, false⟩
      "Recovered., 0/100".toList (by decide) with ⟨hn, -⟩ | ⟨t1, t2, e, c, d, f, -⟩
    · exact absurd hn (by decide)
    · exact ⟨t1, t2, e, c, d, f⟩
  · exact (h4 "Time.Started: 2 mins\nTime.Estimated: 5 secs\nRecovered., 0/100\n".toList
      "Time.Started: 2 mins\nTime.Estimated: 1 hour\nRecovered., 0/100\n".toList
      (by decide)).2.1

/-- C11, counterexample: in pipe mode with `delay = -120s`, `timeStarted = -60s`,
`justFinished` false and a baseline of 5, the well-formed line
`Recovered., 0/100` has the rate `5 >= minAvg = 1`, yet the stop action is
called: `avg` was left at zero. So it is on the first line `Recovered., 5/100`
of a run with the flag `-d=-1s`, where `timeStarted = 0 > delay` and the
formula gives an infinite rate. And of two child outputs that differ in the
content of their `Time.Estimated` line only, the one in which that line has
more than 70000 bytes is not read beyond it and gets no stop, while the other
gets one. -/
theorem pipe_rate_alone_counterexample :
    HasPrefix "Recovered., 0/100".toList "Recovered.".toList = true ∧
    FindStringSubmatch rRec "Recovered., 0/100".toList =
      some [", 0/100".toList, "0".toList] ∧
    (-120 * Second : Int) < -60 * Second ∧
    F64.lt (avgRate 0 5 (-60 * Second)) (.fin 1 0) = false ∧
    scanLine (.fin 1 0) (-120 * Second) false ⟨-60 * Second, 0, 5, false⟩
        "Recovered., 0/100".toList =
      some (⟨0, 0, 5, false⟩, [.stop, .echo "Recovered., 0/100".toList]) ∧
    F64.lt (avgRate 5 0 0) (.fin 1 0) = false ∧
    readOutput (.fin 1 0) (-1 * Second) "Recovered., 5/100\n".toList false =
      ⟨⟨0, 0, 0, false⟩, [.stop, .echo "Recovered., 5/100".toList], false⟩ ∧
    List.Forall₂ SameButEstimated
      (splitLines (unlines ["Time.Started: 2 mins".toList,
        "Time.Estimated: ".toList ++ List.replicate 70000 'a', "Recovered., 0/100".toList]))
      (splitLines (unlines ["Time.Started: 2 mins".toList,
        "Time.Estimated: 1 hour".toList, "Recovered., 0/100".toList])) ∧
    stops (readOutput (.fin 1 0) (60 * Second)
      (unlines ["Time.Started: 2 mins".toList,
        "Time.Estimated: ".toList ++ List.replicate 70000 'a', "Recovered., 0/100".toList])
      false).events = 0 ∧
    stops (readOutput (.fin 1 0) (60 * Second)
      (unlines ["Time.Started: 2 mins".toList,
        "Time.Estimated: 1 hour".toList, "Recovered., 0/100".toList]) false).events = 1 := by
  have hsplit : splitLines (unlines ["Time.Started: 2 mins".toList,
      "Time.Estimated: ".toList ++ List.replicate 70000 'a', "Recovered., 0/100".toList]) =
      ["Time.Started: 2 mins".toList,
        "Time.Estimated: ".toList ++ List.replicate 70000 'a', "Recovered., 0/100".toList] := by
    apply splitLines_unlines
    intro l hl
    simp only [List.mem_cons, List.mem_singleton, List.not_mem_nil, or_false] at hl
    rcases hl with rfl | rfl | rfl
    · decide
    · intro hm
      rcases List.mem_append.mp hm with h | h
      · exact absurd h (by decide)
      · exact absurd (List.eq_of_mem_replicate h) (by decide)
    · decide
  refine ⟨by decide, by decide, by decide, by decide, by decide, by decide, by decide,
    ?_, ?_, by decide⟩
  · rw [hsplit, show splitLines (unlines ["Time.Started: 2 mins".toList,
      "Time.Estimated: 1 hour".toList, "Recovered., 0/100".toList]) =
      ["Time.Started: 2 mins".toList, "Time.Estimated: 1 hour".toList,
        "Recovered., 0/100".toList] by decide]
    exact List.Forall₂.cons (Or.inl rfl) (List.Forall₂.cons (Or.inr ⟨rfl, by decide⟩)
      (List.Forall₂.cons (Or.inl rfl) List.Forall₂.nil))
  · have hcut := Scanner.tokens_cut _ ["Time.Started: 2 mins".toList]
      ("Time.Estimated: ".toList ++ List.replicate 70000 'a') ["Recovered., 0/100".toList] hsplit
      (by decide) (by rw [byteLen_append, byteLen_replicate]; decide)
    unfold readOutput
    rw [hcut]
    decide

/-- C12: a line with the prefix `Status` sets `justFinished` to true when it
contains `: Exhausted` or `: Bypass` and to false when it contains neither,
whatever it was before; it changes no other variable, prints the line, and does
not call the stop action. -/
theorem status_classification (minAvg : F64) (delay : Int) (watchEstimated : Bool)
    (st : State) (t : Str) (hp : HasPrefix t "Status".toList = true) :
    ∃ st1 evs, scanLine minAvg delay watchEstimated st t = some (st1, evs) ∧
      (st1.justFinished = true ↔
        (": Exhausted".toList <:+: t ∨ ": Bypass".toList <:+: t)) ∧
      (st1.justFinished = false ↔
        ¬ (": Exhausted".toList <:+: t ∨ ": Bypass".toList <:+: t)) ∧
      st1.timeStarted = st.timeStarted ∧ st1.timeEstimated = st.timeEstimated ∧
      st1.recoveredBefore = st.recoveredBefore ∧ stops evs = 0 ∧ echoed evs = [t] := by
  refine ⟨_, _, scanLine_status minAvg delay watchEstimated st t hp, ?_, ?_,
    rfl, rfl, rfl, rfl, rfl⟩
  · show (Contains t ": Exhausted".toList || Contains t ": Bypass".toList) = true ↔ _
    rw [Bool.or_eq_true, contains_iff, contains_iff]
  · show (Contains t ": Exhausted".toList || Contains t ": Bypass".toList) = false ↔ _
    rw [← Bool.not_eq_true, Bool.or_eq_true, contains_iff, contains_iff]

/-- C12, witness: `Status...........: Exhausted` sets the flag and
`Status...........: Running` clears it. -/
theorem status_classification_witness :
    (∃ st1 evs, scanLine (.fin 1 0) (60 * Second) true ⟨1, 2, 3, false⟩
        "Status...........: Exhausted".toList = some (st1, evs) ∧
      st1 = ⟨1, 2, 3, true⟩ ∧ stops evs = 0) ∧
    (∃ st1 evs, scanLine (.fin 1 0) (60 * Second) true ⟨1, 2, 3, true⟩
        "Status...........: Running".toList = some (st1, evs) ∧
      st1 = ⟨1, 2, 3, false⟩ ∧ stops evs = 0) := by
  obtain ⟨a, ea, h1, -, -, -, -, -, h7, -⟩ := status_classification (.fin 1 0) (60 * Second)
    true ⟨1, 2, 3, false⟩ "Status...........: Exhausted".toList (by decide)
  obtain ⟨b, eb, g1, -, -, -, -, -, g7, -⟩ := status_classification (.fin 1 0) (60 * Second)
    true ⟨1, 2, 3, true⟩ "Status...........: Running".toList (by decide)
  refine ⟨⟨a, ea, h1, ?_, h7⟩, ⟨b, eb, g1, ?_, g7⟩⟩
  · have := h1.symm.trans (by decide :
      scanLine (.fin 1 0) (60 * Second) true ⟨1, 2, 3, false⟩
        "Status...........: Exhausted".toList =
        some (⟨1, 2, 3, true⟩, ["Status...........: Exhausted".toList].map Event.echo))
    exact (Prod.mk.inj (Option.some.inj this)).1
  · have := g1.symm.trans (by decide :
      scanLine (.fin 1 0) (60 * Second) true ⟨1, 2, 3, true⟩
        "Status...........: Running".toList =
        some (⟨1, 2, 3, false⟩, ["Status...........: Running".toList].map Event.echo))
    exact (Prod.mk.inj (Option.some.inj this)).1

/-! ## Lemmas on the recovered count -/

/-- `Atoi` on a string of digits is the magnitude parsed by the digit loop. -/
theorem Atoi_eq_of_digits (ds : Str) (hne : ds ≠ []) (hd : ∀ c ∈ ds, c.isDigit = true) :
    Atoi ds = intOfUint false (parseUintLoop ds 0) := by
  cases ds with
  | nil => exact absurd rfl hne
  | cons c cs =>
    have hc : c.isDigit = true := hd c (List.mem_cons_self _ _)
    have hplus : c ≠ '+' := by rintro rfl; exact absurd hc (by decide)
    have hminus : c ≠ '-' := by rintro rfl; exact absurd hc (by decide)
    unfold Atoi
    split
    · rename_i h; cases h
    · rename_i h; simp only [List.cons.injEq] at h; exact absurd h.1 hplus
    · rename_i h; simp only [List.cons.injEq] at h; exact absurd h.1 hminus
    · rfl

/-- `Atoi` on one or more digits: the number written when it is below `2^63`,
and the largest `int64` otherwise. -/
theorem Atoi_digits_cases (ds : Str) (hne : ds ≠ []) (hd : ∀ c ∈ ds, c.isDigit = true) :
    Atoi ds = if decimalValue ds < 2 ^ 63 then (decimalValue ds : Int) else maxInt64 := by
  by_cases hfit : decimalValue ds < 2 ^ 63
  · rw [if_pos hfit]; exact Atoi_digits ds hne hd hfit
  · rw [if_neg hfit, Atoi_eq_of_digits ds hne hd, parseUintLoop_digits ds hd 0 (by decide)]
    unfold decimalValue at hfit
    generalize List.foldl (fun n c => n * 10 + (c.toNat - 48)) 0 ds = v at hfit
    split
    · have hv : decide ((2 : Nat) ^ 63 ≤ v) = true := by
        rw [decide_eq_true_iff]; omega
      simp only [intOfUint, hv, Bool.not_false, Bool.true_and, if_true]
    · rfl

/-- `Atoi` on digits is never negative. -/
theorem Atoi_nonneg (ds : Str) (hd : ∀ c ∈ ds, c.isDigit = true) : 0 ≤ Atoi ds := by
  by_cases hne : ds = []
  · rw [hne]; decide
  · rw [Atoi_digits_cases ds hne hd]
    split
    · exact Int.natCast_nonneg _
    · decide

/-- A match found by the search is a match at some position of the text. -/
theorem findMatch_some (re : Regexp) (t : Str) (segs : List Str)
    (h : findMatch re t = some segs) : ∃ a x, t = a ++ x ∧ matchAtoms re x = some segs := by
  induction t with
  | nil => exact ⟨[], [], rfl, h⟩
  | cons c cs ih =>
    rw [findMatch] at h
    cases hm : matchAtoms re (c :: cs) with
    | some s =>
      rw [hm] at h
      exact ⟨[], c :: cs, rfl, by rw [hm]; exact h⟩
    | none =>
      rw [hm] at h
      obtain ⟨a, x, e, hx⟩ := ih h
      exact ⟨c :: a, x, by rw [e]; rfl, hx⟩

/-- The capture of `, (\d+)/\d+` is one or more digits. -/
theorem submatch_digits (t : Str) (m : List Str) (h : FindStringSubmatch rRec t = some m) :
    m.getD 1 [] ≠ [] ∧ ∀ c ∈ m.getD 1 [], c.isDigit = true := by
  unfold FindStringSubmatch at h
  cases hf : findMatch rRec t with
  | none => rw [hf] at h; cases h
  | some segs =>
    rw [hf] at h
    obtain ⟨a, x, -, hx⟩ := findMatch_some rRec t segs hf
    obtain ⟨y, z, -, hy, -, -, rfl⟩ := (matchAtoms_rRec x segs).mp hx
    have hm : m.getD 1 [] = y.takeWhile Char.isDigit := by
      rw [← Option.some.inj h]; rfl
    rw [hm]
    exact ⟨hy, fun c hc => List.mem_takeWhile_imp hc⟩

/-- The recovered count of a line is never negative. -/
theorem recoveredCount_nonneg (t : Str) (c : Int) (h : recoveredCount t = some c) : 0 ≤ c := by
  unfold recoveredCount at h
  split at h
  · cases hm : FindStringSubmatch rRec t with
    | none => rw [hm] at h; cases h
    | some m =>
      rw [hm] at h
      rw [← Option.some.inj h]
      exact Atoi_nonneg _ (submatch_digits t m hm).2
  · cases h

/-- One iteration keeps the baseline, or sets it to the recovered count of the
line. -/
theorem scanLine_baseline (minAvg : F64) (delay : Int) (we : Bool) (st : State) (t : Str)
    (st1 : State) (evs : List Event) (h : scanLine minAvg delay we st t = some (st1, evs)) :
    st1.recoveredBefore = st.recoveredBefore ∨
      recoveredCount t = some st1.recoveredBefore := by
  by_cases h1 : HasPrefix t "Status".toList = true
  · rw [scanLine_status _ _ _ _ _ h1] at h
    rw [← (Prod.mk.inj (Option.some.inj h)).1]; exact Or.inl rfl
  by_cases h2 : HasPrefix t "Time.Started".toList = true
  · rw [scanLine_timeStarted _ _ _ _ _ h2] at h
    rw [← (Prod.mk.inj (Option.some.inj h)).1]; exact Or.inl rfl
  by_cases h3 : HasPrefix t "Time.Estimated".toList = true
  · rw [scanLine_timeEstimated _ _ _ _ _ h3] at h
    rw [← (Prod.mk.inj (Option.some.inj h)).1]; exact Or.inl rfl
  by_cases h4 : HasPrefix t "Recovered.".toList = true
  · rw [scanLine_recovered _ _ _ _ _ h4] at h
    cases hm : FindStringSubmatch rRec t with
    | none => rw [hm] at h; cases h
    | some m =>
      rw [hm] at h
      simp only [Option.map_some', Option.some.injEq] at h
      cases hjf : st.justFinished
      · left
        by_cases hts : st.timeStarted ≤ delay
        · rw [recoveredCase_early _ _ _ _ _ _ hjf hts] at h
          rw [← (Prod.mk.inj h).1]
        · by_cases he : st.timeEstimated ≤ delay ∧ we = true
          · rw [recoveredCase_escape _ _ _ _ _ _ hjf hts he] at h
            rw [← (Prod.mk.inj h).1]
          · cases hlt : F64.lt (rateAndLine st t (Atoi (m.getD 1 []))).1 minAvg
            · rw [recoveredCase_keep _ _ _ _ _ _ hjf hts he hlt] at h
              rw [← (Prod.mk.inj h).1]
            · rw [recoveredCase_stop _ _ _ _ _ _ hjf hts he hlt] at h
              rw [← (Prod.mk.inj h).1]
      · right
        rw [recoveredCase_justFinished _ _ _ _ _ _ hjf] at h
        rw [← (Prod.mk.inj h).1]
        simp only [recoveredCount, h4, if_true, hm, Option.map_some']
  · simp only [Bool.not_eq_true] at h1 h2 h3 h4
    rw [scanLine_other _ _ _ _ _ h1 h2 h3 h4] at h
    rw [← (Prod.mk.inj (Option.some.inj h)).1]; exact Or.inl rfl

/-- When the recovered counts of the lines never decrease and none is below
the current baseline, the baseline never decreases from one iteration to the
next. -/
theorem statesFrom_chain (minAvg : F64) (delay : Int) (we : Bool) (lines : List Str) :
    ∀ st, (∀ c ∈ lines.filterMap recoveredCount, st.recoveredBefore ≤ c) →
      (lines.filterMap recoveredCount).Pairwise (· ≤ ·) →
      List.Chain (· ≤ ·) st.recoveredBefore
        ((statesFrom minAvg delay we st lines).map (fun s => s.recoveredBefore)) := by
  induction lines with
  | nil => intro st _ _; exact List.Chain.nil
  | cons t ts ih =>
    intro st hlow hpw
    cases hs : scanLine minAvg delay we st t with
    | none => simp only [statesFrom, hs, List.map_nil]; exact List.Chain.nil
    | some p =>
      obtain ⟨st1, evs⟩ := p
      simp only [statesFrom, hs, List.map_cons]
      have hstep := scanLine_baseline _ _ _ _ _ _ _ hs
      cases hc : recoveredCount t with
      | none =>
        rw [hc] at hstep
        have e : st1.recoveredBefore = st.recoveredBefore := by
          rcases hstep with h | h
          · exact h
          · cases h
        have hf : (t :: ts).filterMap recoveredCount = ts.filterMap recoveredCount := by
          simp only [List.filterMap_cons, hc]
        rw [hf] at hlow hpw
        exact List.Chain.cons (le_of_eq e.symm) (ih st1 (by rw [e]; exact hlow) hpw)
      | some c =>
        have hf : (t :: ts).filterMap recoveredCount = c :: ts.filterMap recoveredCount := by
          simp only [List.filterMap_cons, hc]
        rw [hf] at hlow hpw
        rw [hc] at hstep
        rcases hstep with e | e
        · refine List.Chain.cons (le_of_eq e.symm) (ih st1 ?_ (List.Pairwise.of_cons hpw))
          intro x hx; rw [e]; exact hlow x (List.mem_cons_of_mem _ hx)
        · have e1 : c = st1.recoveredBefore := Option.some.inj e
          refine List.Chain.cons ?_ (ih st1 ?_ (List.Pairwise.of_cons hpw))
          · rw [← e1]; exact hlow c (List.mem_cons_self _ _)
          · intro x hx; rw [← e1]; exact List.rel_of_pairwise_cons hpw hx

/-! ## C13: the baseline -/

/-- C13, as amended: in a run over lines whose recovered counts never decrease
from one `Recovered.` line to a later one, the value of `recoveredBefore`
never decreases from one iteration to a later one, starting from 0. -/
theorem baseline_monotone (minAvg : F64) (delay : Int) (watchEstimated : Bool)
    (lines : List Str)
    (hmono : (lines.filterMap recoveredCount).Pairwise (· ≤ ·)) :
    ((State.init :: statesFrom minAvg delay watchEstimated State.init lines).map
      (fun s => s.recoveredBefore)).Pairwise (· ≤ ·) := by
  rw [List.map_cons, ← List.chain_iff_pairwise]
  exact statesFrom_chain minAvg delay watchEstimated lines State.init
    (fun c hc => by
      obtain ⟨t, -, ht⟩ := List.mem_filterMap.mp hc
      exact recoveredCount_nonneg t c ht)
    hmono

/-- C13, witness: two finished units with counts 10 and 42: the baseline goes
0, 0, 10, 10, 42. -/
theorem baseline_monotone_witness :
    (["Status: Exhausted".toList, "Recovered., 10/100".toList, "Status: Exhausted".toList,
        "Recovered., 42/100".toList].filterMap recoveredCount = [10, 42]) ∧
    ((State.init :: statesFrom (.fin 1 0) (60 * Second) false State.init
        ["Status: Exhausted".toList, "Recovered., 10/100".toList, "Status: Exhausted".toList,
          "Recovered., 42/100".toList]).map (fun s => s.recoveredBefore) = [0, 0, 10, 10, 42]) ∧
    ((State.init :: statesFrom (.fin 1 0) (60 * Second) false State.init
        ["Status: Exhausted".toList, "Recovered., 10/100".toList, "Status: Exhausted".toList,
          "Recovered., 42/100".toList]).map (fun s => s.recoveredBefore)).Pairwise (· ≤ ·) :=
  ⟨by decide, by decide, baseline_monotone (.fin 1 0) (60 * Second) false
    ["Status: Exhausted".toList, "Recovered., 10/100".toList, "Status: Exhausted".toList,
      "Recovered., 42/100".toList] (by decide)⟩

/-- C13, counterexample: after `Status: Exhausted`, the lines `Recovered., 42/100`
and `Recovered., 10/100` set the baseline to 42 and then to 10. -/
theorem baseline_monotone_counterexample :
    (State.init :: statesFrom (.fin 1 0) (60 * Second) false State.init
        ["Status: Exhausted".toList, "Recovered., 42/100".toList,
          "Recovered., 10/100".toList]).map (fun s => s.recoveredBefore) = [0, 0, 42, 10] ∧
    (readOutput (.fin 1 0) (60 * Second)
        "Status: Exhausted\nRecovered., 42/100\nRecovered., 10/100\n".toList
        false).state.recoveredBefore = 10 := by
  decide

/-! ## Lemmas on the leftmost occurrence of a unit -/

/-- The digits `getDuration` converts when the leftmost occurrence of a unit
starts after `a`: those of that occurrence, whatever follows it. -/
theorem getDuration_leftmost (u : TimeUnit) (a ds b : Str)
    (ha : findMatch u.re a = none) (hend : NoDigitAtEnd a)
    (hne : ds ≠ []) (hd : ∀ c ∈ ds, c.isDigit = true) :
    getDuration u.re (a ++ ds ++ ' ' :: u.word ++ b) u.mult = wrap64 (Atoi ds * u.mult) := by
  have hwf : (⟨u, ds, false⟩ : Component).WellFormed := ⟨hne, hd⟩
  have htxt : a ++ ds ++ ' ' :: u.word ++ b = a ++ ((⟨u, ds, false⟩ : Component).text ++ b) := by
    simp [Component.text]
  obtain ⟨segs, h1, h2⟩ := findMatch_component_same ⟨u, ds, false⟩ hwf b
  have hfm : findMatch u.re (a ++ ((⟨u, ds, false⟩ : Component).text ++ b)) = some segs := by
    rw [findMatch_sep u a _ ha hend (Or.inr (Component.text_head _ hwf b))]
    exact h1
  rw [htxt]
  unfold getDuration FindString
  simp only [hfm, h2]

/-! ## C14: digit runs too long for `int` -/

/-- The largest `int64` times the multiplier of a unit wraps to minus one unit. -/
theorem wrap64_maxInt64_mult (u : TimeUnit) : wrap64 (maxInt64 * u.mult) = -u.mult := by
  cases u <;> decide

/-- C14: when the digits of the leftmost occurrence of the pattern of a unit
write a number of `2^63` or more, `Atoi` returns the largest `int64` (its range
error is discarded) and the unit contributes minus one unit, not zero. -/
theorem overlong_digits (u : TimeUnit) (a ds b : Str)
    (ha : findMatch u.re a = none) (hend : NoDigitAtEnd a)
    (hne : ds ≠ []) (hd : ∀ c ∈ ds, c.isDigit = true)
    (hbig : 2 ^ 63 ≤ decimalValue ds) :
    Atoi ds = maxInt64 ∧
    getDuration u.re (a ++ ds ++ ' ' :: u.word ++ b) u.mult = -u.mult := by
  have hA : Atoi ds = maxInt64 := by
    rw [Atoi_digits_cases ds hne hd, if_neg (by omega)]
  refine ⟨hA, ?_⟩
  rw [getDuration_leftmost u a ds b ha hend hne hd, hA]
  exact wrap64_maxInt64_mult u

/-- C14, witness: `parseTime` of `Time.Started: 99999999999999999999 secs` is
minus one second. -/
theorem overlong_digits_witness :
    Atoi "99999999999999999999".toList = maxInt64 ∧
    getDuration rSecs "Time.Started: 99999999999999999999 secs".toList Second = -Second ∧
    parseTime "Time.Started: 99999999999999999999 secs".toList = -Second := by
  obtain ⟨h1, h2⟩ := overlong_digits .sec "Time.Started: ".toList
    "99999999999999999999".toList "s".toList (by decide) (by decide) (by decide) (by decide)
    (by decide)
  exact ⟨h1, h2, by decide⟩

/-! ## Lemmas on `parseTime` over arbitrary texts -/

/-- `wrap64` lands in the `int64` range. -/
theorem wrap64_range (x : Int) : -(2 ^ 63) ≤ wrap64 x ∧ wrap64 x < 2 ^ 63 := by
  unfold wrap64
  have h1 := Int.emod_nonneg (x + 2 ^ 63) (by decide : (2 : Int) ^ 64 ≠ 0)
  have h2 := Int.emod_lt_of_pos (x + 2 ^ 63) (by decide : (0 : Int) < 2 ^ 64)
  constructor <;> omega

/-- The text has the pattern of a unit exactly when the search finds it. -/
theorem hasUnitPattern_iff (u : TimeUnit) (t : Str) :
    HasUnitPattern u t ↔ findMatch u.re t ≠ none := by
  rw [findMatch_ne_none_iff]
  constructor
  · rintro ⟨a, ds, b, rfl, hne, hd⟩
    refine ⟨a, ds ++ ' ' :: (u.word ++ b), by simp, ?_⟩
    have htw : (ds ++ ' ' :: (u.word ++ b)).takeWhile Char.isDigit = ds := by
      rw [List.takeWhile_append_of_pos hd]; simp [List.takeWhile_cons]
    have hdw : (ds ++ ' ' :: (u.word ++ b)).dropWhile Char.isDigit = ' ' :: u.word ++ b := by
      rw [List.dropWhile_append_of_pos hd]; simp [List.dropWhile_cons]
    have hm := (matchAtoms_unit u (ds ++ ' ' :: (u.word ++ b)) _).mpr
      ⟨by rw [htw]; exact hne, b, hdw, rfl⟩
    rw [hm]
    exact fun h => by cases h
  · rintro ⟨a, x, rfl, hx⟩
    cases hm : matchAtoms u.re x with
    | none => exact absurd hm hx
    | some segs =>
      obtain ⟨h1, xs, h2, -⟩ := (matchAtoms_unit u x segs).mp hm
      refine ⟨a, x.takeWhile Char.isDigit, xs, ?_, h1, fun c hc => List.mem_takeWhile_imp hc⟩
      have e := (List.takeWhile_append_dropWhile Char.isDigit x).symm
      rw [h2] at e
      conv_lhs => rw [e]
      simp

/-- `getDuration` is the number read times the multiplier, in `int64`. -/
theorem getDuration_eq (u : TimeUnit) (t : Str) :
    getDuration u.re t u.mult = wrap64 (unitCount u t * u.mult) := rfl

/-- The number read for a unit that has no pattern in the text is zero. -/
theorem unitCount_of_none (u : TimeUnit) (t : Str) (h : findMatch u.re t = none) :
    unitCount u t = 0 := by
  unfold unitCount FindString
  rw [h]
  rfl

/-- The text `Atoi` is given by `getDuration` is a string of digits. -/
theorem cutBefore_findString_digits (u : TimeUnit) (t : Str) :
    ∀ c ∈ CutBefore (FindString u.re t) ' ', c.isDigit = true := by
  unfold FindString
  cases hf : findMatch u.re t with
  | none => intro c hc; simp [CutBefore] at hc
  | some segs =>
    obtain ⟨a, x, -, hx⟩ := findMatch_some u.re t segs hf
    simp only []
    rw [cutBefore_unit_match u x segs hx]
    exact fun c hc => List.mem_takeWhile_imp hc

/-- The number read for a unit is never negative. -/
theorem unitCount_nonneg (u : TimeUnit) (t : Str) : 0 ≤ unitCount u t :=
  Atoi_nonneg _ (cutBefore_findString_digits u t)

/-- `parseTime` in terms of the numbers read for the four units. -/
theorem parseTime_eq (t : Str) :
    parseTime t =
      wrap64 (wrap64 (wrap64 (wrap64 (unitCount .day t * TimeUnit.day.mult) +
        wrap64 (unitCount .hour t * TimeUnit.hour.mult)) +
        wrap64 (unitCount .min t * TimeUnit.min.mult)) +
        wrap64 (unitCount .sec t * TimeUnit.sec.mult)) := rfl

/-! ## C15: totality of the duration parser -/

/-- C15, as amended: for every string `parseTime` returns an `int64` duration
(the model is a total function; no error exists to signal); for every string
without a `<digits> day`, `<digits> hour`, `<digits> min` or `<digits> sec`
pattern the result is zero; the numbers read are never negative; and when the
sum of the four components read fits the duration range, the result is that
sum and so is not negative. -/
theorem duration_total (t : Str) :
    (-(2 ^ 63) ≤ parseTime t ∧ parseTime t < 2 ^ 63) ∧
    ((∀ u, ¬ HasUnitPattern u t) → parseTime t = 0) ∧
    (∀ u, 0 ≤ unitCount u t) ∧
    (unitCount .day t * TimeUnit.day.mult + unitCount .hour t * TimeUnit.hour.mult +
        unitCount .min t * TimeUnit.min.mult + unitCount .sec t * TimeUnit.sec.mult < 2 ^ 63 →
      parseTime t =
        unitCount .day t * TimeUnit.day.mult + unitCount .hour t * TimeUnit.hour.mult +
          unitCount .min t * TimeUnit.min.mult + unitCount .sec t * TimeUnit.sec.mult ∧
      0 ≤ parseTime t) := by
  have nn : ∀ u : TimeUnit, (0 : Int) ≤ unitCount u t * u.mult :=
    fun u => mul_nonneg (unitCount_nonneg u t) (le_trans (by decide) u.one_le_mult)
  refine ⟨?_, ?_, fun u => unitCount_nonneg u t, ?_⟩
  · rw [parseTime_eq]; exact wrap64_range _
  · intro hno
    have hz : ∀ u, unitCount u t = 0 := fun u =>
      unitCount_of_none u t (by
        by_contra hc
        exact hno u ((hasUnitPattern_iff u t).mpr hc))
    rw [parseTime_eq, hz .day, hz .hour, hz .min, hz .sec]
    decide
  · intro hfit
    have n1 := nn .day
    have n2 := nn .hour
    have n3 := nn .min
    have n4 := nn .sec
    have key : parseTime t =
        unitCount .day t * TimeUnit.day.mult + unitCount .hour t * TimeUnit.hour.mult +
          unitCount .min t * TimeUnit.min.mult + unitCount .sec t * TimeUnit.sec.mult := by
      rw [parseTime_eq,
        wrap64_of_fits (unitCount .day t * TimeUnit.day.mult) (by omega) (by omega),
        wrap64_of_fits (unitCount .hour t * TimeUnit.hour.mult) (by omega) (by omega),
        wrap64_of_fits (unitCount .min t * TimeUnit.min.mult) (by omega) (by omega),
        wrap64_of_fits (unitCount .sec t * TimeUnit.sec.mult) (by omega) (by omega)]
      exact wrap64_sum4 _ _ _ _ n1 n2 n3 n4 hfit
    rw [key]
    exact ⟨rfl, by omega⟩

/-- C15, witness: the empty string and `no numbers here` give zero, and
`1 hour 30 mins` gives ninety minutes. -/
theorem duration_total_witness :
    parseTime [] = 0 ∧ parseTime "no numbers here".toList = 0 ∧
    parseTime "1 hour 30 mins".toList = 90 * Minute := by
  refine ⟨(duration_total []).2.1 ?_, (duration_total "no numbers here".toList).2.1 ?_,
    ((duration_total "1 hour 30 mins".toList).2.2.2 (by decide)).1.trans (by decide)⟩
  · intro u hu
    exact (hasUnitPattern_iff u []).mp hu (by cases u <;> decide)
  · intro u hu
    exact (hasUnitPattern_iff u _).mp hu (by cases u <;> decide)

/-- C15, counterexample: in `106751 days 2562047 hours` each of the two
components fits the duration range, and `parseTime` returns a negative
duration: their sum does not fit. -/
theorem duration_total_counterexample :
    unitCount .day "106751 days 2562047 hours".toList = 106751 ∧
    unitCount .hour "106751 days 2562047 hours".toList = 2562047 ∧
    (0 ≤ 106751 * (24 * Hour) ∧ 106751 * (24 * Hour) < 2 ^ 63) ∧
    (0 ≤ 2562047 * Hour ∧ 2562047 * Hour < 2 ^ 63) ∧
    parseTime "106751 days 2562047 hours".toList = -88473709551616 ∧
    parseTime "106751 days 2562047 hours".toList < 0 := by
  decide

/-! ## Lemmas on the argument vector -/

/-- The index of the first `v` in a list that has one. -/
theorem slices.Index_first (pre post : List Str) (v : Str) (h : v ∉ pre) :
    slices.Index (pre ++ v :: post) v = pre.length := by
  induction pre with
  | nil => simp [slices.Index]
  | cons x xs ih =>
    have hx : x ≠ v := fun e => h (by rw [e]; exact List.mem_cons_self _ _)
    have ih1 := ih (fun hm => h (List.mem_cons_of_mem _ hm))
    have hlen : ¬ ((xs.length : Int) = -1) := by omega
    rw [List.cons_append, slices.Index, if_neg hx, ih1, if_neg hlen, List.length_cons]
    push_cast
    ring

/-- Inserting at index 1 in a vector that is not empty. -/
theorem slices.Insert_one (a0 : Str) (rest : List Str) (v : Str) :
    slices.Insert (a0 :: rest) 1 v = some (a0 :: v :: rest) := by
  simp [slices.Insert]

/-- Inserting at index 1 in the empty vector panics. -/
theorem slices.Insert_nil (v : Str) : slices.Insert [] 1 v = none := by
  simp [slices.Insert]

/-- The rewritten vector: the program name, `--status` unless the vector has
it, `--status-timer=15` unless the vector has an element starting with
`--status-timer`, and the other elements. -/
theorem rewriteArgs_cons (a0 : Str) (rest : List Str) :
    rewriteArgs (a0 :: rest) =
      some (a0 :: ((if slices.Contains (a0 :: rest) "--status".toList then []
          else ["--status".toList]) ++
        (if slices.ContainsFunc (a0 :: rest) (fun s => HasPrefix s "--status-timer".toList)
          then [] else ["--status-timer=15".toList]) ++ rest)) := by
  have hne : "--status-timer=15".toList ≠ "--status".toList := by decide
  unfold rewriteArgs
  cases ht : slices.ContainsFunc (a0 :: rest) (fun s => HasPrefix s "--status-timer".toList)
  · simp only [Bool.not_false, if_true, slices.Insert_one]
    have hc : slices.Contains (a0 :: "--status-timer=15".toList :: rest) "--status".toList =
        slices.Contains (a0 :: rest) "--status".toList := by
      simp only [slices.Contains, List.mem_cons, decide_eq_decide]
      constructor
      · rintro (h | h | h)
        · exact Or.inl h
        · exact absurd h.symm hne
        · exact Or.inr h
      · rintro (h | h)
        · exact Or.inl h
        · exact Or.inr (Or.inr h)
    rw [hc]
    cases hs : slices.Contains (a0 :: rest) "--status".toList
    · simp [slices.Insert_one]
    · simp
  · simp only [Bool.not_true, Bool.false_eq_true, if_false]
    cases hs : slices.Contains (a0 :: rest) "--status".toList
    · simp [slices.Insert_one]
    · simp

/-- The rewriting panics on the empty vector. -/
theorem rewriteArgs_nil : rewriteArgs [] = none := by decide

/-! ## C16: the argument vector of the worker -/

/-- C16, as amended: the worker vector is everything after the first `--` of the
command line; and for a worker vector `a0 :: rest` the rewritten vector is
`a0`, then `--status` exactly when no element of the vector equals `--status`,
then `--status-timer=15` exactly when no element of the vector starts with
`--status-timer`, then `rest`: the program name stays first, every element
stays, in order, and nothing else is added. `--status-timer=15` is directly
after the program name only when `--status` is not inserted as well. -/
theorem worker_vector :
    (∀ pre post : List Str, "--".toList ∉ pre →
      workerArgs (pre ++ "--".toList :: post) = some post) ∧
    (∀ (a0 : Str) (rest : List Str), ∃ r, rewriteArgs (a0 :: rest) = some r ∧
      r.head? = some a0 ∧ (a0 :: rest).Sublist r ∧
      r = a0 :: ((if slices.Contains (a0 :: rest) "--status".toList then []
          else ["--status".toList]) ++
        (if slices.ContainsFunc (a0 :: rest) (fun s => HasPrefix s "--status-timer".toList)
          then [] else ["--status-timer=15".toList]) ++ rest)) := by
  constructor
  · intro pre post h
    have hi := slices.Index_first pre post "--".toList h
    have hne : ¬ ((pre.length : Int) = -1) := by omega
    unfold workerArgs
    rw [hi, if_neg hne]
    have e : ((pre.length : Int) + 1).toNat = pre.length + 1 := by omega
    rw [e]
    unfold sliceFrom
    rw [if_pos (by simp)]
    simp
  · intro a0 rest
    refine ⟨_, rewriteArgs_cons a0 rest, rfl, ?_, rfl⟩
    exact List.Sublist.cons₂ _ (List.sublist_append_right _ _)

/-- C16, witness: `avgdrop -d 90s -- hashcat --status -m 0` runs
`hashcat --status-timer=15 --status -m 0`. -/
theorem worker_vector_witness :
    workerArgs (["avgdrop".toList, "-d".toList, "90s".toList] ++ "--".toList ::
        ["hashcat".toList, "--status".toList, "-m".toList, "0".toList]) =
      some ["hashcat".toList, "--status".toList, "-m".toList, "0".toList] ∧
    rewriteArgs ["hashcat".toList, "--status".toList, "-m".toList, "0".toList] =
      some ["hashcat".toList, "--status-timer=15".toList, "--status".toList, "-m".toList,
        "0".toList] := by
  refine ⟨worker_vector.1 _ _ (by decide), ?_⟩
  obtain ⟨r, h, -, -, hr⟩ := worker_vector.2 "hashcat".toList
    ["--status".toList, "-m".toList, "0".toList]
  rw [h, hr]
  decide

/-- C16, counterexample: for `hashcat -m 0` both arguments are inserted and the
element directly after the program name is `--status`; `--status-timer=15`
comes after it. -/
theorem worker_vector_counterexample :
    slices.ContainsFunc ["hashcat".toList, "-m".toList, "0".toList]
        (fun s => HasPrefix s "--status-timer".toList) = false ∧
    rewriteArgs ["hashcat".toList, "-m".toList, "0".toList] =
      some ["hashcat".toList, "--status".toList, "--status-timer=15".toList, "-m".toList,
        "0".toList] ∧
    (rewriteArgs ["hashcat".toList, "-m".toList, "0".toList]).map (fun r => r.getD 1 []) ≠
      some "--status-timer=15".toList := by
  decide

/-! ## C17: the choice of the attachment -/

/-- The calls of `stopFunc` among the actions: one per stop event. -/
theorem injected_perform (a : Action) (ha : ∀ l, a ≠ .println l) (evs : List Event) :
    injected (perform a evs) = List.replicate (stops evs) a := by
  induction evs with
  | nil => rfl
  | cons e es ih =>
    cases e with
    | stop =>
      have : injected (a :: perform a es) = a :: injected (perform a es) := by
        cases a with
        | println l => exact absurd rfl (ha l)
        | ptyWrite b => rfl
        | signal s => rfl
      simp only [perform, stops, this, ih, List.replicate_succ]
    | echo l => simp only [perform, stops, injected, ih]

/-- C17: `main` runs exactly one of the two attachments, chosen by `isatty()`.
On a terminal it is `runWithPty`: the interpreter runs with
`watchEstimated = true` and each stop is a write of the one byte `b` to the
pseudo-terminal. Otherwise it is `runWithStdin`: the interpreter runs with
`watchEstimated = false` and each stop is an interrupt signal to the child. -/
theorem attachment_selection (isatty : Bool) (minAvg : F64) (delay : Int)
    (childOutput : Str) :
    ((isatty = true ∧ mainAttach isatty minAvg delay childOutput =
        runWithPty minAvg delay childOutput) ∨
      (isatty = false ∧ mainAttach isatty minAvg delay childOutput =
        runWithStdin minAvg delay childOutput)) ∧
    mainAttach isatty minAvg delay childOutput =
      perform (if isatty then .ptyWrite ['b'] else .signal .interrupt)
        (readOutput minAvg delay childOutput isatty).events ∧
    injected (mainAttach isatty minAvg delay childOutput) =
      List.replicate (stops (readOutput minAvg delay childOutput isatty).events)
        (if isatty then .ptyWrite ['b'] else .signal .interrupt) ∧
    (isatty = true → ∀ a ∈ injected (mainAttach isatty minAvg delay childOutput),
      ∃ bytes, a = .ptyWrite bytes ∧ bytes.length = 1) ∧
    (isatty = false → ∀ a ∈ injected (mainAttach isatty minAvg delay childOutput),
      a = .signal .interrupt) := by
  cases isatty
  · have h := injected_perform (.signal .interrupt) (fun l h => by cases h)
      (readOutput minAvg delay childOutput false).events
    refine ⟨Or.inr ⟨rfl, rfl⟩, rfl, h, (fun hc => by cases hc), fun _ a ha => ?_⟩
    have ha1 : a ∈ injected (runWithStdin minAvg delay childOutput) := ha
    unfold runWithStdin at ha1
    rw [h] at ha1
    exact (List.mem_replicate.mp ha1).2
  · have h := injected_perform (.ptyWrite ['b']) (fun l h => by cases h)
      (readOutput minAvg delay childOutput true).events
    refine ⟨Or.inl ⟨rfl, rfl⟩, rfl, h, fun _ a ha => ?_, (fun hc => by cases hc)⟩
    have ha1 : a ∈ injected (runWithPty minAvg delay childOutput) := ha
    unfold runWithPty at ha1
    rw [h] at ha1
    exact ⟨['b'], (List.mem_replicate.mp ha1).2, rfl⟩

/-- C17, witness: two minutes into a unit with nothing recovered and an hour
estimated, the terminal attachment writes the byte `b` once and the pipe
attachment sends one interrupt. -/
theorem attachment_selection_witness :
    injected (mainAttach true (.fin 1 0) (60 * Second)
      "Time.Started: 2 mins\nTime.Estimated: 1 hour\nRecovered., 0/100\n".toList) = [.ptyWrite ['b']] ∧
    injected (mainAttach false (.fin 1 0) (60 * Second)
      "Time.Started: 2 mins\nTime.Estimated: 1 hour\nRecovered., 0/100\n".toList) = [.signal .interrupt] :=
  ⟨(attachment_selection true (.fin 1 0) (60 * Second)
      "Time.Started: 2 mins\nTime.Estimated: 1 hour\nRecovered., 0/100\n".toList).2.2.1.trans (by decide),
    (attachment_selection false (.fin 1 0) (60 * Second)
      "Time.Started: 2 mins\nTime.Estimated: 1 hour\nRecovered., 0/100\n".toList).2.2.1.trans (by decide)⟩

/-! ## C18: one stop per unit -/

/-- What one iteration does to `timeStarted` and how often it calls the stop
action: nothing and never; or it is a `Time.Started` line, which sets
`timeStarted` to the duration parsed; or it is a `Recovered.` line read with
`timeStarted > delay`, which calls the stop action once and resets
`timeStarted`. -/
theorem scanLine_timeStarted_cases (minAvg : F64) (delay : Int) (we : Bool) (st : State)
    (t : Str) (st1 : State) (evs : List Event)
    (h : scanLine minAvg delay we st t = some (st1, evs)) :
    (stops evs = 0 ∧ st1.timeStarted = st.timeStarted) ∨
    (stops evs = 0 ∧ HasPrefix t "Time.Started".toList = true ∧
      st1.timeStarted = parseTime t) ∨
    (stops evs = 1 ∧ HasPrefix t "Recovered.".toList = true ∧ delay < st.timeStarted ∧
      st1.timeStarted = 0) := by
  by_cases h1 : HasPrefix t "Status".toList = true
  · rw [scanLine_status _ _ _ _ _ h1] at h
    obtain ⟨e1, e2⟩ := Prod.mk.inj (Option.some.inj h)
    rw [← e1, ← e2]; exact Or.inl ⟨rfl, rfl⟩
  by_cases h2 : HasPrefix t "Time.Started".toList = true
  · rw [scanLine_timeStarted _ _ _ _ _ h2] at h
    obtain ⟨e1, e2⟩ := Prod.mk.inj (Option.some.inj h)
    rw [← e1, ← e2]; exact Or.inr (Or.inl ⟨rfl, h2, rfl⟩)
  by_cases h3 : HasPrefix t "Time.Estimated".toList = true
  · rw [scanLine_timeEstimated _ _ _ _ _ h3] at h
    obtain ⟨e1, e2⟩ := Prod.mk.inj (Option.some.inj h)
    rw [← e1, ← e2]; exact Or.inl ⟨rfl, rfl⟩
  by_cases h4 : HasPrefix t "Recovered.".toList = true
  · rw [scanLine_recovered _ _ _ _ _ h4] at h
    cases hm : FindStringSubmatch rRec t with
    | none => rw [hm] at h; cases h
    | some m =>
      rw [hm] at h
      simp only [Option.map_some', Option.some.injEq] at h
      cases hjf : st.justFinished
      · by_cases hts : st.timeStarted ≤ delay
        · rw [recoveredCase_early _ _ _ _ _ _ hjf hts] at h
          obtain ⟨e1, e2⟩ := Prod.mk.inj h
          rw [← e1, ← e2]; exact Or.inl ⟨rfl, rfl⟩
        · by_cases he : st.timeEstimated ≤ delay ∧ we = true
          · rw [recoveredCase_escape _ _ _ _ _ _ hjf hts he] at h
            obtain ⟨e1, e2⟩ := Prod.mk.inj h
            rw [← e1, ← e2]; exact Or.inl ⟨rfl, rfl⟩
          · cases hlt : F64.lt (rateAndLine st t (Atoi (m.getD 1 []))).1 minAvg
            · rw [recoveredCase_keep _ _ _ _ _ _ hjf hts he hlt] at h
              obtain ⟨e1, e2⟩ := Prod.mk.inj h
              rw [← e1, ← e2]; exact Or.inl ⟨rfl, rfl⟩
            · rw [recoveredCase_stop _ _ _ _ _ _ hjf hts he hlt] at h
              obtain ⟨e1, e2⟩ := Prod.mk.inj h
              rw [← e1, ← e2]
              exact Or.inr (Or.inr ⟨rfl, h4, not_le.mp hts, rfl⟩)
      · rw [recoveredCase_justFinished _ _ _ _ _ _ hjf] at h
        obtain ⟨e1, e2⟩ := Prod.mk.inj h
        rw [← e1, ← e2]; exact Or.inl ⟨rfl, rfl⟩
  · simp only [Bool.not_eq_true] at h1 h2 h3 h4
    rw [scanLine_other _ _ _ _ _ h1 h2 h3 h4] at h
    obtain ⟨e1, e2⟩ := Prod.mk.inj (Option.some.inj h)
    rw [← e1, ← e2]; exact Or.inl ⟨rfl, rfl⟩

/-- While `timeStarted <= delay`, only a `Time.Started` line whose duration
exceeds `delay` can bring `timeStarted` above `delay`. -/
theorem readOutputFrom_rearm (minAvg : F64) (delay : Int) (we : Bool) (mid : List Str) :
    ∀ st, st.timeStarted ≤ delay →
      delay < (readOutputFrom minAvg delay we st mid).state.timeStarted →
      ∃ t ∈ mid, HasPrefix t "Time.Started".toList = true ∧ delay < parseTime t := by
  induction mid with
  | nil =>
    intro st h1 h2
    simp only [readOutputFrom] at h2
    omega
  | cons t ts ih =>
    intro st h1 h2
    cases hs : scanLine minAvg delay we st t with
    | none =>
      simp only [readOutputFrom, hs] at h2
      omega
    | some p =>
      obtain ⟨st1, evs⟩ := p
      simp only [readOutputFrom, hs] at h2
      by_cases hle : st1.timeStarted ≤ delay
      · obtain ⟨x, hx, hp⟩ := ih st1 hle h2
        exact ⟨x, List.mem_cons_of_mem _ hx, hp⟩
      · rcases scanLine_timeStarted_cases _ _ _ _ _ _ _ hs with ⟨-, e⟩ | ⟨-, hp, e⟩ | ⟨-, -, hgt, -⟩
        · omega
        · exact ⟨t, List.mem_cons_self _ _, hp, by omega⟩
        · omega

/-- The stop action is called at most once per `Recovered.` line and never on
another line. -/
theorem stops_le_recovered (minAvg : F64) (delay : Int) (we : Bool) (lines : List Str) :
    ∀ st, stops (readOutputFrom minAvg delay we st lines).events ≤
      (lines.filter (fun t => HasPrefix t "Recovered.".toList)).length := by
  induction lines with
  | nil => intro st; simp [readOutputFrom, stops]
  | cons t ts ih =>
    intro st
    cases hs : scanLine minAvg delay we st t with
    | none => simp [readOutputFrom, hs, stops]
    | some p =>
      obtain ⟨st1, evs⟩ := p
      simp only [readOutputFrom, hs, stops_append]
      have hi := ih st1
      have hmono : (ts.filter (fun t => HasPrefix t "Recovered.".toList)).length ≤
          ((t :: ts).filter (fun t => HasPrefix t "Recovered.".toList)).length := by
        rw [List.filter_cons]
        split
        · rw [List.length_cons]; omega
        · exact le_refl _
      rcases scanLine_timeStarted_cases _ _ _ _ _ _ _ hs with ⟨e, -⟩ | ⟨e, -, -⟩ | ⟨e, hp, -, -⟩
      · rw [e]; omega
      · rw [e]; omega
      · rw [e, List.filter_cons, if_pos hp, List.length_cons]; omega

/-- C18, as amended: when `delay` is not negative, after a `Recovered.` line on
which the stop action was called, no line calls it again unless a
`Time.Started` line whose parsed duration exceeds `delay` was read in between.
For every `delay`: one line calls the stop action at most once, and only if it
is a `Recovered.` line, so a run calls it at most as often as it has
`Recovered.` lines. -/
theorem rearm_after_stop (minAvg : F64) (delay : Int) (watchEstimated : Bool) :
    (0 ≤ delay → ∀ st r1 st1 evs1 mid r2 st2 evs2,
      scanLine minAvg delay watchEstimated st r1 = some (st1, evs1) → stops evs1 = 1 →
      scanLine minAvg delay watchEstimated
        (readOutputFrom minAvg delay watchEstimated st1 mid).state r2 = some (st2, evs2) →
      stops evs2 = 1 →
      ∃ t ∈ mid, HasPrefix t "Time.Started".toList = true ∧ delay < parseTime t) ∧
    (∀ st t st1 evs, scanLine minAvg delay watchEstimated st t = some (st1, evs) →
      stops evs ≤ 1 ∧ (stops evs = 1 → HasPrefix t "Recovered.".toList = true)) ∧
    (∀ st lines, stops (readOutputFrom minAvg delay watchEstimated st lines).events ≤
      (lines.filter (fun t => HasPrefix t "Recovered.".toList)).length) := by
  refine ⟨?_, ?_, fun st lines => stops_le_recovered minAvg delay watchEstimated lines st⟩
  · intro hd st r1 st1 evs1 mid r2 st2 evs2 h1 hs1 h2 hs2
    have a1 : st1.timeStarted = 0 := by
      rcases scanLine_timeStarted_cases _ _ _ _ _ _ _ h1 with ⟨e, -⟩ | ⟨e, -, -⟩ | ⟨-, -, -, e⟩
      · omega
      · omega
      · exact e
    have a2 : delay < (readOutputFrom minAvg delay watchEstimated st1 mid).state.timeStarted := by
      rcases scanLine_timeStarted_cases _ _ _ _ _ _ _ h2 with ⟨e, -⟩ | ⟨e, -, -⟩ | ⟨-, -, e, -⟩
      · omega
      · omega
      · exact e
    exact readOutputFrom_rearm minAvg delay watchEstimated mid st1 (by omega) a2
  · intro st t st1 evs h
    rcases scanLine_timeStarted_cases _ _ _ _ _ _ _ h with ⟨e, -⟩ | ⟨e, -, -⟩ | ⟨e, hp, -, -⟩
    · exact ⟨by omega, fun h1 => by omega⟩
    · exact ⟨by omega, fun h1 => by omega⟩
    · exact ⟨by omega, fun _ => hp⟩

/-- C18, witness: with the default flags, a stop after two minutes, then a
`Recovered.` line read at once (no stop), then a new `Time.Started` line of
two minutes and a second stop: the `Time.Started` line is found in between. -/
theorem rearm_after_stop_witness :
    stops (readOutput (.fin 1 0) (60 * Second)
      ("Time.Started: 2 mins\nRecovered., 0/100\nRecovered., 0/100\n".toList ++
        "Time.Started: 2 mins\nRecovered., 0/100\n".toList) false).events = 2 ∧
    ∃ t ∈ ["Recovered., 0/100".toList, "Time.Started: 2 mins".toList],
      HasPrefix t "Time.Started".toList = true ∧ 60 * Second < parseTime t :=
  ⟨by decide, (rearm_after_stop (.fin 1 0) (60 * Second) false).1 (by decide)
    ⟨120 * Second, 0, 0, false⟩ "Recovered., 0/100".toList ⟨0, 0, 0, false⟩
    [.stop, .echo "Recovered., 0/100 avg/min:0.00".toList]
    ["Recovered., 0/100".toList, "Time.Started: 2 mins".toList]
    "Recovered., 0/100".toList ⟨0, 0, 0, false⟩
    [.stop, .echo "Recovered., 0/100 avg/min:0.00".toList]
    (by decide) (by decide) (by decide) (by decide)⟩

/-- C18, counterexample: with the flag `-d=-1s` two `Recovered.` lines in a row
both call the stop action, with no `Time.Started` line at all. -/
theorem rearm_after_stop_counterexample :
    (readOutput (.fin 1 0) (-1 * Second)
      "Recovered., 0/100\nRecovered., 0/100\n".toList false).events =
      [.stop, .echo "Recovered., 0/100".toList, .stop, .echo "Recovered., 0/100".toList] := by
  decide

/-! ## Lemmas on the leftmost occurrence -/

/-- A digit run that is stopped inside `y` is not changed by what follows `y`. -/
theorem takeWhile_append_of_stop (y x : Str) (h : y.dropWhile Char.isDigit ≠ []) :
    (y ++ x).takeWhile Char.isDigit = y.takeWhile Char.isDigit ∧
      (y ++ x).dropWhile Char.isDigit = y.dropWhile Char.isDigit ++ x := by
  constructor
  · rw [List.takeWhile_append, if_neg]
    intro hlen
    have h2 := congrArg List.length (List.takeWhile_append_dropWhile Char.isDigit y)
    rw [List.length_append] at h2
    have : (y.dropWhile Char.isDigit).length = 0 := by omega
    exact h (List.length_eq_zero.mp this)
  · rw [List.dropWhile_append, if_neg]
    simpa using h

/-- A match of a unit pattern at the start of `y` is still one when text is
added after `y`. -/
theorem matchAtoms_unit_extend (u : TimeUnit) (y x : Str) (h : matchAtoms u.re y ≠ none) :
    matchAtoms u.re (y ++ x) ≠ none := by
  cases hm : matchAtoms u.re y with
  | none => exact absurd hm h
  | some segs =>
    obtain ⟨h1, xs, h2, -⟩ := (matchAtoms_unit u y segs).mp hm
    obtain ⟨e1, e2⟩ := takeWhile_append_of_stop y x (by rw [h2]; exact List.cons_ne_nil _ _)
    have := (matchAtoms_unit u (y ++ x) _).mpr
      ⟨by rw [e1]; exact h1, xs ++ x, by rw [e2, h2]; simp, rfl⟩
    rw [this]
    exact fun hc => by cases hc

/-- The position of the leftmost match: the pattern matches there and at no
position before it. -/
theorem findMatch_leftmost (re : Regexp) (t : Str) (h : findMatch re t ≠ none) :
    ∃ a x, t = a ++ x ∧ matchAtoms re x ≠ none ∧ findMatch re t = matchAtoms re x ∧
      ∀ p y, a = p ++ y → y ≠ [] → matchAtoms re (y ++ x) = none := by
  induction t with
  | nil =>
    refine ⟨[], [], rfl, h, rfl, ?_⟩
    intro p y hpy hy
    have := List.append_eq_nil.mp hpy.symm
    exact absurd this.2 hy
  | cons c cs ih =>
    cases hm : matchAtoms re (c :: cs) with
    | some segs =>
      refine ⟨[], c :: cs, rfl, ?_, ?_, ?_⟩
      · rw [hm]; exact fun hc => by cases hc
      · rw [findMatch, hm]
      · intro p y hpy hy
        have := List.append_eq_nil.mp hpy.symm
        exact absurd this.2 hy
    | none =>
      have hcs : findMatch re cs ≠ none := by
        rw [findMatch_cons_none re c cs hm] at h; exact h
      obtain ⟨a, x, e, hx, hf, hleft⟩ := ih hcs
      refine ⟨c :: a, x, by rw [e]; rfl, hx, ?_, ?_⟩
      · rw [findMatch_cons_none re c cs hm]; exact hf
      · intro p y hpy hy
        cases p with
        | nil =>
          simp only [List.nil_append] at hpy
          rw [← hpy, List.cons_append, ← e]; exact hm
        | cons d p1 =>
          simp only [List.cons_append, List.cons.injEq] at hpy
          exact hleft p1 y hpy.2 hy

/-- Every text with an occurrence of a unit pattern splits at the leftmost one:
a text without an occurrence that does not end in a digit, the digits, a blank,
the unit, and the rest. -/
theorem leftmost_occurrence (u : TimeUnit) (t : Str) (h : findMatch u.re t ≠ none) :
    ∃ a ds b, t = a ++ ds ++ ' ' :: u.word ++ b ∧ findMatch u.re a = none ∧
      NoDigitAtEnd a ∧ ds ≠ [] ∧ ∀ c ∈ ds, c.isDigit = true := by
  obtain ⟨a, x, e, hx, -, hleft⟩ := findMatch_leftmost u.re t h
  cases hm : matchAtoms u.re x with
  | none => exact absurd hm hx
  | some segs =>
    obtain ⟨h1, xs, h2, -⟩ := (matchAtoms_unit u x segs).mp hm
    refine ⟨a, x.takeWhile Char.isDigit, xs, ?_, ?_, ?_, h1,
      fun c hc => List.mem_takeWhile_imp hc⟩
    · have ex := (List.takeWhile_append_dropWhile Char.isDigit x).symm
      rw [h2] at ex
      rw [e]
      conv_lhs => rw [ex]
      simp
    · by_contra hc
      obtain ⟨p, y, hpy, hy⟩ := (findMatch_ne_none_iff u.re a).mp hc
      have hyne : y ≠ [] := by
        rintro rfl
        exact hy ((matchAtoms_unit_none u []).mpr (Or.inl rfl))
      exact matchAtoms_unit_extend u y x hy (hleft p y hpy hyne)
    · intro d hd
      by_contra hdig
      have hdig1 : d.isDigit = true := by simpa using hdig
      obtain ⟨p, hp⟩ := List.getLast?_eq_some_iff.mp hd
      have hnone := hleft p [d] hp (List.cons_ne_nil _ _)
      have htw : ([d] ++ x).takeWhile Char.isDigit = d :: x.takeWhile Char.isDigit := by
        simp [List.takeWhile_cons, hdig1]
      have hdw : ([d] ++ x).dropWhile Char.isDigit = x.dropWhile Char.isDigit := by
        simp [List.dropWhile_cons, hdig1]
      have := (matchAtoms_unit u ([d] ++ x) _).mpr
        ⟨by rw [htw]; exact List.cons_ne_nil _ _, xs, by rw [hdw, h2], rfl⟩
      rw [hnone] at this
      cases this

/-! ## C19: the leftmost occurrence of a unit -/

/-- The letters of a capitalised unit are not digits. -/
theorem TimeUnit.capital_no_digit (u : TimeUnit) : ∀ c ∈ u.capital, c.isDigit = false := by
  cases u <;> decide

/-- No unit starts like a capitalised unit. -/
theorem TimeUnit.capital_mismatch (u v : TimeUnit) (xs : Str) :
    ¬ (u.word <+: v.capital ++ xs) := by
  rintro ⟨t, ht⟩
  have hh := congrArg List.head? ht
  cases u <;> cases v <;> simp [TimeUnit.word, TimeUnit.capital] at hh

/-- A capitalised unit after digits is passed over by the search. -/
theorem findMatch_capital (u v : TimeUnit) (ds b : Str) (hd : ∀ c ∈ ds, c.isDigit = true) :
    findMatch u.re (ds ++ ' ' :: v.capital ++ b) = findMatch u.re b := by
  have hnd : ∀ x ∈ ' ' :: v.capital, x.isDigit = false := by
    intro x hx
    rcases List.mem_cons.mp hx with rfl | h
    · decide
    · exact TimeUnit.capital_no_digit v x h
  have e : ds ++ ' ' :: v.capital ++ b = ds ++ ((' ' :: v.capital) ++ b) := by simp
  rw [e, findMatch_skip_digits u ds _ hd (by simp [List.takeWhile_cons]) ?_,
    findMatch_skip_nondigits u _ b hnd]
  intro hp
  rw [List.cons_append, List.cons_prefix_cons] at hp
  exact TimeUnit.capital_mismatch u v b hp.2

/-- C19: for every unit, every text with an occurrence of the pattern of the
unit splits at the leftmost occurrence (a text `a` that has no occurrence and
does not end in a digit, then digits, a blank and the unit, then a text `b`);
the number `getDuration` reads is that of the leftmost occurrence, whatever
`b` holds, later occurrences included; so the singular and the plural spelling
of an occurrence are read alike; and an occurrence with a capitalised unit
(`5 Secs`) is passed over: the result is that of the text after it. -/
theorem first_match_wins (u : TimeUnit) :
    (∀ t : Str, HasUnitPattern u t →
      ∃ a ds b, t = a ++ ds ++ ' ' :: u.word ++ b ∧ findMatch u.re a = none ∧
        NoDigitAtEnd a ∧ ds ≠ [] ∧ ∀ c ∈ ds, c.isDigit = true) ∧
    (∀ a ds b : Str, findMatch u.re a = none → NoDigitAtEnd a → ds ≠ [] →
      (∀ c ∈ ds, c.isDigit = true) →
      getDuration u.re (a ++ ds ++ ' ' :: u.word ++ b) u.mult = wrap64 (Atoi ds * u.mult)) ∧
    (∀ ds b : Str, ds ≠ [] → (∀ c ∈ ds, c.isDigit = true) →
      getDuration u.re (ds ++ ' ' :: u.word ++ b) u.mult =
        getDuration u.re (ds ++ ' ' :: u.word ++ 's' :: b) u.mult) ∧
    (∀ (v : TimeUnit) (ds b : Str), (∀ c ∈ ds, c.isDigit = true) →
      getDuration u.re (ds ++ ' ' :: v.capital ++ b) u.mult = getDuration u.re b u.mult) := by
  refine ⟨fun t ht => leftmost_occurrence u t ((hasUnitPattern_iff u t).mp ht),
    fun a ds b ha hend hne hd => getDuration_leftmost u a ds b ha hend hne hd, ?_, ?_⟩
  · intro ds b hne hd
    have hnil : findMatch u.re [] = none := by cases u <;> decide
    have hend : NoDigitAtEnd [] := by decide
    have h1 := getDuration_leftmost u [] ds b hnil hend hne hd
    have h2 := getDuration_leftmost u [] ds ('s' :: b) hnil hend hne hd
    simp only [List.nil_append] at h1 h2
    rw [h1, h2]
  · intro v ds b hd
    unfold getDuration FindString
    rw [findMatch_capital u v ds b hd]

/-- C19, witness: in `1 day, 3 days` one day is read, and `5 Secs` reads as
nothing. -/
theorem first_match_wins_witness :
    getDuration rDays "1 day, 3 days".toList (24 * Hour) = 24 * Hour ∧
    parseTime "1 day, 3 days".toList = 24 * Hour ∧
    getDuration rSecs "5 Secs".toList Second = 0 ∧
    parseTime "5 Secs".toList = 0 ∧
    parseTime "5 sec".toList = parseTime "5 secs".toList :=
  ⟨((first_match_wins .day).2.1 [] "1".toList ", 3 days".toList (by decide) (by decide)
      (by decide) (by decide)).trans (by decide),
    by decide,
    ((first_match_wins .sec).2.2.2 .sec "5".toList "s".toList (by decide)).trans (by decide),
    by decide, by decide⟩

/-! ## C20: rewriting the argument vector twice -/

/-- C20: for a worker vector that is not empty the rewritten vector has an element
`--status` and an element starting with `--status-timer`, and rewriting it again
returns it unchanged; and the rewriting completes without a panic exactly when
the vector is not empty. -/
theorem rewrite_idempotent :
    (∀ a : List Str, a ≠ [] → ∃ r, rewriteArgs a = some r ∧
      "--status".toList ∈ r ∧
      (∃ x ∈ r, HasPrefix x "--status-timer".toList = true) ∧
      rewriteArgs r = some r) ∧
    (∀ a : List Str, rewriteArgs a ≠ none ↔ a ≠ []) := by
  constructor
  · intro a ha
    cases a with
    | nil => exact absurd rfl ha
    | cons a0 rest =>
      have h1 : "--status".toList ∈ a0 :: ((if slices.Contains (a0 :: rest) "--status".toList
          then [] else ["--status".toList]) ++
          (if slices.ContainsFunc (a0 :: rest) (fun s => HasPrefix s "--status-timer".toList)
            then [] else ["--status-timer=15".toList]) ++ rest) := by
        cases hs : slices.Contains (a0 :: rest) "--status".toList
        · simp
        · have hm : "--status".toList ∈ a0 :: rest := by
            simpa [slices.Contains] using hs
          rcases List.mem_cons.mp hm with h | h
          · exact List.mem_cons.mpr (Or.inl h)
          · exact List.mem_cons_of_mem _ (List.mem_append_right _ h)
      have h2 : ∃ x ∈ a0 :: ((if slices.Contains (a0 :: rest) "--status".toList
          then [] else ["--status".toList]) ++
          (if slices.ContainsFunc (a0 :: rest) (fun s => HasPrefix s "--status-timer".toList)
            then [] else ["--status-timer=15".toList]) ++ rest),
          HasPrefix x "--status-timer".toList = true := by
        cases ht : slices.ContainsFunc (a0 :: rest)
            (fun s => HasPrefix s "--status-timer".toList)
        · refine ⟨"--status-timer=15".toList, ?_, by decide⟩
          simp
        · obtain ⟨x, hx, hpx⟩ := List.any_eq_true.mp ht
          refine ⟨x, ?_, hpx⟩
          rcases List.mem_cons.mp hx with h | h
          · exact List.mem_cons.mpr (Or.inl h)
          · exact List.mem_cons_of_mem _ (List.mem_append_right _ h)
      refine ⟨_, rewriteArgs_cons a0 rest, h1, h2, ?_⟩
      have c1 : slices.Contains (a0 :: ((if slices.Contains (a0 :: rest) "--status".toList
          then [] else ["--status".toList]) ++
          (if slices.ContainsFunc (a0 :: rest) (fun s => HasPrefix s "--status-timer".toList)
            then [] else ["--status-timer=15".toList]) ++ rest)) "--status".toList = true := by
        unfold slices.Contains
        exact decide_eq_true h1
      have c2 : slices.ContainsFunc (a0 :: ((if slices.Contains (a0 :: rest) "--status".toList
          then [] else ["--status".toList]) ++
          (if slices.ContainsFunc (a0 :: rest) (fun s => HasPrefix s "--status-timer".toList)
            then [] else ["--status-timer=15".toList]) ++ rest))
          (fun s => HasPrefix s "--status-timer".toList) = true := by
        unfold slices.ContainsFunc
        exact List.any_eq_true.mpr h2
      rw [rewriteArgs_cons, c1, c2]
      simp
  · intro a
    cases a with
    | nil => simp [rewriteArgs_nil]
    | cons a0 rest => simp [rewriteArgs_cons]

/-- C20, witness: `hashcat -m 0` becomes
`hashcat --status --status-timer=15 -m 0`, which is rewritten to itself. -/
theorem rewrite_idempotent_witness :
    rewriteArgs ["hashcat".toList, "-m".toList, "0".toList] =
      some ["hashcat".toList, "--status".toList, "--status-timer=15".toList, "-m".toList,
        "0".toList] ∧
    rewriteArgs ["hashcat".toList, "--status".toList, "--status-timer=15".toList,
        "-m".toList, "0".toList] =
      some ["hashcat".toList, "--status".toList, "--status-timer=15".toList, "-m".toList,
        "0".toList] ∧
    rewriteArgs [] = none := by
  obtain ⟨r, h, -, -, hr⟩ := rewrite_idempotent.1 ["hashcat".toList, "-m".toList, "0".toList]
    (by decide)
  have e : r = ["hashcat".toList, "--status".toList, "--status-timer=15".toList, "-m".toList,
      "0".toList] := Option.some.inj (h.symm.trans (by decide))
  rw [e] at hr
  exact ⟨by decide, hr, by decide⟩

end Avgdrop
